import Mathlib

/-!
# Verification of the business-card OCR extraction pipeline

Shallow embedding of `business_card_scanner.py` (class `BusinessCardScanner`):
the candidate scorer, text cleaning/merging, the contact-field extractor and
validator, the image-variant generator, the OCR orchestrator
(`_extract_text_with_ocr`) and the top-level `scan_image` entry point.

Modelling conventions:
* Python `float` values are modelled exactly as fractions (`PyRat`, an
  integer numerator over a positive integer denominator, compared by
  cross-multiplication).  All float literals of the source are translated to
  the corresponding exact fractions; the source only adds, multiplies and
  divides by positive integers, so no rounding behaviour is observable in the
  properties proved here.
* Text is modelled over its ASCII fragment: the character-class predicates
  (`str.isalpha`, `str.isdigit`, `str.isspace`, `str.isprintable`,
  upper/lower case) follow Python's semantics on ASCII characters; characters
  above 0x7f are treated as unclassified symbols.
* Calls into external libraries (PIL, OpenCV, pytesseract, EasyOCR, RapidOCR,
  the wall clock read by the time budget) are oracles supplied by an
  environment record; a call that may raise is an `Option`-valued oracle with
  `none` for the raised exception, matching the `try/except` structure of the
  source.  Engine invocations are recorded as events so that temporal claims
  about "no further OCR attempts" can be stated over the event trace.
-/

namespace BCS

/-! ## Exact model of Python floats -/

/-- An exact fraction standing for a Python `float` value.  Every value built
by the embedding keeps `den > 0`; fractions are never reduced, and all
comparisons cross-multiply, so the representation is only ever inspected
through its rational value `toQ`. -/
structure PyRat where
  num : Int
  den : Int
deriving DecidableEq

namespace PyRat

def ofNat (n : Nat) : PyRat := ⟨(n : Int), 1⟩

def ofInt (n : Int) : PyRat := ⟨n, 1⟩

def add (a b : PyRat) : PyRat := ⟨a.num * b.den + b.num * a.den, a.den * b.den⟩

def sub (a b : PyRat) : PyRat := ⟨a.num * b.den - b.num * a.den, a.den * b.den⟩

def mul (a b : PyRat) : PyRat := ⟨a.num * b.num, a.den * b.den⟩

/-- Division by a positive integer count (the only kind of division the
scorer performs: `/ length`, `/ len(words)`, `/ 100.0`, `/ max(n, 1)`). -/
def divNat (a : PyRat) (n : Nat) : PyRat := ⟨a.num, a.den * (n : Int)⟩

def ble (a b : PyRat) : Bool := decide (a.num * b.den ≤ b.num * a.den)

def blt (a b : PyRat) : Bool := decide (a.num * b.den < b.num * a.den)

/-- Python `==` on floats (value equality). -/
def beq (a b : PyRat) : Bool := decide (a.num * b.den = b.num * a.den)

/-- Python `min(a, b)`: `a` when `a <= b`, else `b`. -/
def pmin (a b : PyRat) : PyRat := if a.ble b then a else b

/-- Python `max(a, b)`: `a` when `a >= b`, else `b`. -/
def pmax (a b : PyRat) : PyRat := if b.ble a then a else b

/-- The rational value a `PyRat` stands for. -/
def toQ (a : PyRat) : ℚ := (a.num : ℚ) / (a.den : ℚ)

/-- Denominator positivity: the invariant every constructed value enjoys. -/
def Pos (a : PyRat) : Prop := 0 < a.den

theorem Pos.ofNat (n : Nat) : Pos (ofNat n) := Int.zero_lt_one

theorem Pos.add {a b : PyRat} (ha : a.Pos) (hb : b.Pos) : (a.add b).Pos :=
  Int.mul_pos ha hb

theorem Pos.sub {a b : PyRat} (ha : a.Pos) (hb : b.Pos) : (a.sub b).Pos :=
  Int.mul_pos ha hb

theorem Pos.mul {a b : PyRat} (ha : a.Pos) (hb : b.Pos) : (a.mul b).Pos :=
  Int.mul_pos ha hb

theorem Pos.divNat {a : PyRat} (ha : a.Pos) {n : Nat} (hn : 0 < n) :
    (a.divNat n).Pos :=
  Int.mul_pos ha (by exact_mod_cast hn)

theorem Pos.pmin {a b : PyRat} (ha : a.Pos) (hb : b.Pos) : (a.pmin b).Pos := by
  unfold PyRat.pmin; split <;> assumption

theorem Pos.pmax {a b : PyRat} (ha : a.Pos) (hb : b.Pos) : (a.pmax b).Pos := by
  unfold PyRat.pmax; split <;> assumption

theorem toQ_ofNat (n : Nat) : (ofNat n).toQ = (n : ℚ) := by
  simp [ofNat, toQ]

theorem toQ_add {a b : PyRat} (ha : a.Pos) (hb : b.Pos) :
    (a.add b).toQ = a.toQ + b.toQ := by
  have ha' : ((a.den : ℚ)) ≠ 0 := by exact_mod_cast ha.ne'
  have hb' : ((b.den : ℚ)) ≠ 0 := by exact_mod_cast hb.ne'
  simp only [add, toQ]
  push_cast
  field_simp
  try ring

theorem toQ_sub {a b : PyRat} (ha : a.Pos) (hb : b.Pos) :
    (a.sub b).toQ = a.toQ - b.toQ := by
  have ha' : ((a.den : ℚ)) ≠ 0 := by exact_mod_cast ha.ne'
  have hb' : ((b.den : ℚ)) ≠ 0 := by exact_mod_cast hb.ne'
  simp only [sub, toQ]
  push_cast
  field_simp
  try ring

theorem toQ_mul {a b : PyRat} (ha : a.Pos) (hb : b.Pos) :
    (a.mul b).toQ = a.toQ * b.toQ := by
  have ha' : ((a.den : ℚ)) ≠ 0 := by exact_mod_cast ha.ne'
  have hb' : ((b.den : ℚ)) ≠ 0 := by exact_mod_cast hb.ne'
  simp only [mul, toQ]
  push_cast
  field_simp
  try ring

theorem toQ_divNat {a : PyRat} (ha : a.Pos) {n : Nat} (hn : 0 < n) :
    (a.divNat n).toQ = a.toQ / (n : ℚ) := by
  have ha' : ((a.den : ℚ)) ≠ 0 := by exact_mod_cast ha.ne'
  have hn' : ((n : ℚ)) ≠ 0 := by exact_mod_cast hn.ne'
  simp only [divNat, toQ]
  push_cast
  field_simp

theorem ble_iff {a b : PyRat} (ha : a.Pos) (hb : b.Pos) :
    a.ble b = true ↔ a.toQ ≤ b.toQ := by
  have ha' : (0 : ℚ) < (a.den : ℚ) := by exact_mod_cast ha
  have hb' : (0 : ℚ) < (b.den : ℚ) := by exact_mod_cast hb
  simp only [ble, toQ, decide_eq_true_eq]
  rw [div_le_div_iff₀ ha' hb']
  constructor
  · intro h; exact_mod_cast h
  · intro h; exact_mod_cast h

theorem blt_iff {a b : PyRat} (ha : a.Pos) (hb : b.Pos) :
    a.blt b = true ↔ a.toQ < b.toQ := by
  have ha' : (0 : ℚ) < (a.den : ℚ) := by exact_mod_cast ha
  have hb' : (0 : ℚ) < (b.den : ℚ) := by exact_mod_cast hb
  simp only [blt, toQ, decide_eq_true_eq]
  rw [div_lt_div_iff₀ ha' hb']
  constructor
  · intro h; exact_mod_cast h
  · intro h; exact_mod_cast h

/-- Nonnegative value with a positive denominator. -/
def Nonneg (a : PyRat) : Prop := a.Pos ∧ 0 ≤ a.num

theorem Nonneg.toQ_nonneg {a : PyRat} (h : a.Nonneg) : 0 ≤ a.toQ := by
  have h1 : (0 : ℚ) ≤ (a.num : ℚ) := by exact_mod_cast h.2
  have h2 : (0 : ℚ) ≤ (a.den : ℚ) := by exact_mod_cast h.1.le
  exact div_nonneg h1 h2

theorem Nonneg.nnOfNat (n : Nat) : Nonneg (ofNat n) :=
  ⟨Pos.ofNat n, Int.ofNat_nonneg n⟩

theorem Nonneg.nnAdd {a b : PyRat} (ha : a.Nonneg) (hb : b.Nonneg) :
    (a.add b).Nonneg :=
  ⟨ha.1.add hb.1, by
    have h1 := Int.mul_nonneg ha.2 hb.1.le
    have h2 := Int.mul_nonneg hb.2 ha.1.le
    exact Int.add_nonneg h1 h2⟩

theorem Nonneg.nnMul {a b : PyRat} (ha : a.Nonneg) (hb : b.Nonneg) :
    (a.mul b).Nonneg :=
  ⟨ha.1.mul hb.1, Int.mul_nonneg ha.2 hb.2⟩

theorem Nonneg.nnDivNat {a : PyRat} (ha : a.Nonneg) {n : Nat} (hn : 0 < n) :
    (a.divNat n).Nonneg :=
  ⟨ha.1.divNat hn, ha.2⟩

theorem Nonneg.nnPmin {a b : PyRat} (ha : a.Nonneg) (hb : b.Nonneg) :
    (a.pmin b).Nonneg := by
  unfold PyRat.pmin; split <;> assumption

theorem toQ_pmin_le_right {a b : PyRat} (ha : a.Pos) (hb : b.Pos) :
    (a.pmin b).toQ ≤ b.toQ := by
  unfold PyRat.pmin
  split
  · exact (ble_iff ha hb).mp (by assumption)
  · exact le_refl _

end PyRat

/-! ## Characters and strings (ASCII-scope model of Python semantics) -/

/-- Python `str.isalpha`, restricted to the ASCII fragment. -/
def pyIsAlpha (c : Char) : Bool :=
  (65 ≤ c.toNat && c.toNat ≤ 90) || (97 ≤ c.toNat && c.toNat ≤ 122)

/-- Python `str.isdigit` on ASCII. -/
def pyIsDigit (c : Char) : Bool := 48 ≤ c.toNat && c.toNat ≤ 57

/-- Python `str.isspace` on ASCII: space, tab, newline, carriage return,
vertical tab, form feed. -/
def pyIsSpace (c : Char) : Bool :=
  c.toNat = 32 || c.toNat = 9 || c.toNat = 10 ||
  c.toNat = 13 || c.toNat = 11 || c.toNat = 12

/-- Python `str.isprintable` on ASCII: everything from space to tilde. -/
def pyIsPrintable (c : Char) : Bool := 32 ≤ c.toNat && c.toNat ≤ 126

/-- ASCII upper-case letter. -/
def isUpperC (c : Char) : Bool := 65 ≤ c.toNat && c.toNat ≤ 90

/-- ASCII lower-case letter. -/
def isLowerC (c : Char) : Bool := 97 ≤ c.toNat && c.toNat ≤ 122

/-- Regex `\w` (ASCII): letters, digits, underscore. -/
def isWordC (c : Char) : Bool := pyIsAlpha c || pyIsDigit c || c = '_'

def toLowerC (c : Char) : Char :=
  if isUpperC c then Char.ofNat (c.toNat + 32) else c

def toUpperC (c : Char) : Char :=
  if isLowerC c then Char.ofNat (c.toNat - 32) else c

/-- ASCII vowels, upper or lower case (the scanner's `_vowel_set`). -/
def isVowelC (c : Char) : Bool :=
  c = 'a' || c = 'e' || c = 'i' || c = 'o' || c = 'u' ||
  c = 'A' || c = 'E' || c = 'I' || c = 'O' || c = 'U'

theorem alpha_digit_disjoint (c : Char) :
    ¬(pyIsAlpha c = true ∧ pyIsDigit c = true) := by
  simp only [pyIsAlpha, pyIsDigit, Bool.or_eq_true, Bool.and_eq_true,
    decide_eq_true_eq]
  omega

theorem alpha_space_disjoint (c : Char) :
    ¬(pyIsAlpha c = true ∧ pyIsSpace c = true) := by
  simp only [pyIsAlpha, pyIsSpace, Bool.or_eq_true, Bool.and_eq_true,
    decide_eq_true_eq]
  omega

theorem digit_space_disjoint (c : Char) :
    ¬(pyIsDigit c = true ∧ pyIsSpace c = true) := by
  simp only [pyIsDigit, pyIsSpace, Bool.or_eq_true, Bool.and_eq_true,
    decide_eq_true_eq]
  omega

/-- Counting three pairwise-disjoint character classes never exceeds the
length of the list. -/
theorem countP_three_le_length (l : List Char) :
    l.countP pyIsAlpha + l.countP pyIsDigit + l.countP pyIsSpace ≤ l.length := by
  induction l with
  | nil => simp
  | cons c t ih =>
    rw [List.countP_cons, List.countP_cons, List.countP_cons]
    have h : (if pyIsAlpha c then 1 else 0) + (if pyIsDigit c then 1 else 0) +
        (if pyIsSpace c then 1 else 0) ≤ 1 := by
      simp only [pyIsAlpha, pyIsDigit, pyIsSpace, Bool.or_eq_true,
        Bool.and_eq_true, decide_eq_true_eq]
      split <;> split <;> split <;> omega
    simp only [List.length_cons]
    omega

/-! ### List-of-characters utilities (own structural recursions, so that all
definitions evaluate inside the kernel) -/

/-- Python `str.strip()` (ASCII whitespace at both ends). -/
def stripL (l : List Char) : List Char :=
  ((l.dropWhile pyIsSpace).reverse.dropWhile pyIsSpace).reverse

/-- Maximal run of characters satisfying `p`, plus the rest. -/
def takeRun (p : Char → Bool) : List Char → List Char × List Char
  | [] => ([], [])
  | c :: t =>
    if p c then
      let r := takeRun p t
      (c :: r.1, r.2)
    else ([], c :: t)

theorem takeRun_rest_le (p : Char → Bool) (l : List Char) :
    (takeRun p l).2.length ≤ l.length := by
  induction l with
  | nil => simp [takeRun]
  | cons c t ih =>
    simp only [takeRun]
    split
    · exact le_trans ih (Nat.le_succ _)
    · exact le_refl _

/-- Python `str.split()` with no separator: whitespace runs separate tokens,
empty tokens are dropped.  Structural recursion on a fuel bounded by the
list length (each step strictly shortens the list, so the fuel never runs
out). -/
def splitWsAux : Nat → List Char → List (List Char)
  | 0, _ => []
  | _ + 1, [] => []
  | fuel + 1, c :: t =>
    if pyIsSpace c then splitWsAux fuel t
    else
      let r := takeRun (fun ch => !pyIsSpace ch) t
      (c :: r.1) :: splitWsAux fuel r.2

def splitWsL (l : List Char) : List (List Char) := splitWsAux l.length l

/-- Split on a single character, keeping empty pieces
(Python `str.split('\n')`). -/
def splitOnC (sep : Char) : List Char → List (List Char)
  | [] => [[]]
  | c :: t =>
    if c = sep then [] :: splitOnC sep t
    else
      match splitOnC sep t with
      | [] => [[c]]
      | p :: ps => (c :: p) :: ps

/-- Join pieces with a separator character (Python `sep.join(...)`). -/
def joinC (sep : Char) : List (List Char) → List Char
  | [] => []
  | [p] => p
  | p :: ps => p ++ sep :: joinC sep ps

/-- Does `pat` occur at the start of `l`? -/
def leadsWith : List Char → List Char → Bool
  | _, [] => true
  | [], _ :: _ => false
  | c :: t, p :: ps => c = p && leadsWith t ps

/-- Case-insensitive (ASCII) variant of `leadsWith`. -/
def leadsWithCI : List Char → List Char → Bool
  | _, [] => true
  | [], _ :: _ => false
  | c :: t, p :: ps => toLowerC c = toLowerC p && leadsWithCI t ps

/-- Python `needle in hay` substring test. -/
def containsSub (hay needle : List Char) : Bool :=
  match hay with
  | [] => leadsWith [] needle
  | _ :: t => leadsWith hay needle || containsSub t needle

/-- Case-insensitive substring test. -/
def containsSubCI (hay needle : List Char) : Bool :=
  match hay with
  | [] => leadsWithCI [] needle
  | _ :: t => leadsWithCI hay needle || containsSubCI t needle

def lowerL (l : List Char) : List Char := l.map toLowerC

/-- Python `str.title()`: the first cased character of each run of cased
characters is upper-cased, the rest lower-cased (ASCII model). -/
def titleL : List Char → Bool → List Char
  | [], _ => []
  | c :: t, prevCased =>
    let cased := pyIsAlpha c
    let c' := if cased then (if prevCased then toLowerC c else toUpperC c) else c
    c' :: titleL t cased

/-- Python `str.isupper()`: at least one cased character and no lower-case
cased character (ASCII model). -/
def isUpperStr (l : List Char) : Bool :=
  l.any (fun c => pyIsAlpha c) && l.all (fun c => !isLowerC c)

/-- Python `str.lstrip(chars)`: remove leading characters drawn from a set. -/
def lstripSet (l : List Char) (set : List Char) : List Char :=
  l.dropWhile (fun c => set.contains c)

/-! String-level wrappers.  All `String` values in the embedding are plain
lists of characters; none of the position-based core string functions are
used, so everything reduces in the kernel. -/

def pyStrip (s : String) : String := ⟨stripL s.data⟩

def pySplitWs (s : String) : List String := (splitWsL s.data).map String.mk

def pySplitLines (s : String) : List String := (splitOnC '\n' s.data).map String.mk

def pyLower (s : String) : String := ⟨lowerL s.data⟩

def pyTitle (s : String) : String := ⟨titleL s.data false⟩

def pyLen (s : String) : Nat := s.data.length

def strContains (s sub : String) : Bool := containsSub s.data sub.data

def joinNL (lines : List String) : String := ⟨joinC '\n' (lines.map String.data)⟩

/-! ## Regular-expression matchers

Each Python regex used by the scanner is translated into a dedicated matcher
over `List Char`, following `re`'s leftmost search with greedy backtracking.
Wherever a greedy optional/star is forced (the character after it can never
start the continuation), the matcher consumes deterministically; the two
places with real backtracking (the domain/TLD split of the email pattern and
the optional `s` of `https?`) try alternatives in Python's preference
order. -/

/-- `\b` between an optional left character and an optional right one. -/
def boundaryB (left right : Option Char) : Bool :=
  (left.map isWordC).getD false != (right.map isWordC).getD false

/-- Character class `[A-Za-z0-9._%+-]` (email local part). -/
def emailLocalC (c : Char) : Bool :=
  pyIsAlpha c || pyIsDigit c || c = '.' || c = '_' || c = '%' || c = '+' || c = '-'

/-- Character class `[A-Za-z0-9.-]` (email domain). -/
def emailDomC (c : Char) : Bool := pyIsAlpha c || pyIsDigit c || c = '.' || c = '-'

/-- Character class `[A-Z|a-z]` (the pattern's TLD class, which literally
contains `|`). -/
def emailTldC (c : Char) : Bool := pyIsAlpha c || c = '|'

/-- Try TLD lengths `m, m-1, ..., 2` against the trailing `\b`. -/
def tldGo (run : List Char) (afterRun : Option Char) : Nat → Option Nat
  | 0 => none
  | 1 => none
  | m + 2 =>
    let len := m + 2
    if len > run.length then tldGo run afterRun (m + 1)
    else
      match run.get? (len - 1) with
      | none => none
      | some last =>
        let next := if len = run.length then afterRun else run.get? len
        if boundaryB (some last) next then some len
        else tldGo run afterRun (m + 1)

/-- Try domain splits `j, j-1, ..., 1` (the greedy `[A-Za-z0-9.-]+` giving
back characters until a `\.`-plus-TLD continuation succeeds). -/
def domTry (drun rest3 : List Char) : Nat → Option Nat
  | 0 => none
  | j + 1 =>
    (if drun.get? (j + 1) = some '.' then
      let region := drun.drop (j + 2) ++ rest3
      let (trun, trest) := takeRun emailTldC region
      match tldGo trun trest.head? trun.length with
      | some m => some ((j + 1) + 1 + m)
      | none => domTry drun rest3 j
    else domTry drun rest3 j)

/-- Attempt the email pattern
`\b[A-Za-z0-9._%+-]+@[A-Za-z0-9.-]+\.[A-Z|a-z]{2,}\b` at the head of `l`
(`prev` is the character just before `l`).  Returns the match length. -/
def emailTryAt (prev : Option Char) (l : List Char) : Option Nat :=
  match l with
  | [] => none
  | c :: _ =>
    if boundaryB prev (some c) then
      let (lrun, rest) := takeRun emailLocalC l
      if lrun.isEmpty then none
      else
        match rest with
        | '@' :: rest2 =>
          let (drun, rest3) := takeRun emailDomC rest2
          match domTry drun rest3 (drun.length - 1) with
          | some dlen => some (lrun.length + 1 + dlen)
          | none => none
        | _ => none
    else none

/-- Leftmost email match: `(offset, length)`. -/
def emailScan (prev : Option Char) : List Char → Option (Nat × Nat)
  | [] => none
  | c :: t =>
    match emailTryAt prev (c :: t) with
    | some len => some (0, len)
    | none => (emailScan (some c) t).map (fun p => (p.1 + 1, p.2))

/-- Python `re.search(email_pattern, s)` as a Boolean. -/
def hasEmail (s : String) : Bool := (emailScan none s.data).isSome

/-- The text of the first email match (`re.search(...).group()`). -/
def emailFirst (s : String) : Option String :=
  (emailScan none s.data).map fun p => ⟨(s.data.drop p.1).take p.2⟩

/-- `len(re.findall(email_pattern, s))`: count non-overlapping matches. -/
def emailCountAux : Nat → Option Char → List Char → Nat
  | 0, _, _ => 0
  | fuel + 1, prev, l =>
    match emailScan prev l with
    | none => 0
    | some (off, len) =>
      let consumed := off + len
      1 + emailCountAux fuel (l.get? (consumed - 1)) (l.drop consumed)

def emailCount (s : String) : Nat := emailCountAux s.data.length none s.data

/-- Character class `[\s\-.]` / `[-.\s]` (phone separators). -/
def isSepC (c : Char) : Bool := pyIsSpace c || c = '-' || c = '.'

/-- Consume exactly `n` digits. -/
def digitsN : Nat → List Char → Option (List Char)
  | 0, l => some l
  | _ + 1, [] => none
  | n + 1, c :: t => if pyIsDigit c then digitsN n t else none

/-- Consume one separator if present (`[-.\s]?`, forced greedy). -/
def sepOpt : List Char → List Char
  | [] => []
  | c :: t => if isSepC c then t else c :: t

/-- Consume one mandatory separator (`[-.\s]`). -/
def sepOne : List Char → Option (List Char)
  | [] => none
  | c :: t => if isSepC c then some t else none

/-- Core of the phone patterns: `\(?\d{3}\)?[-.\s]?\d{3}[-.\s]?\d{4}`.
Returns the rest after the match (length recovered by list-length
difference). -/
def phoneCoreRest (l : List Char) : Option (List Char) :=
  let l1 := match l with
    | '(' :: t => t
    | _ => l
  (digitsN 3 l1).bind fun l2 =>
    let l3 := match l2 with
      | ')' :: t => t
      | _ => l2
    let l4 := sepOpt l3
    (digitsN 3 l4).bind fun l5 =>
      let l6 := sepOpt l5
      digitsN 4 l6

/-- Pattern 1 of `_extract_phone`: the bare core. -/
def phonePat1At (l : List Char) : Option Nat :=
  (phoneCoreRest l).map fun rest => l.length - rest.length

/-- Pattern 2: `\d{3}[-.\s]\d{3}[-.\s]\d{4}`. -/
def phonePat2At (l : List Char) : Option Nat :=
  ((digitsN 3 l).bind fun l1 => (sepOne l1).bind fun l2 =>
    (digitsN 3 l2).bind fun l3 => (sepOne l3).bind fun l4 =>
      digitsN 4 l4).map fun (rest : List Char) => l.length - rest.length

/-- Pattern 3: `O\s*\(?\d{3}\)?[-.\s]?\d{3}[-.\s]?\d{4}` (IGNORECASE). -/
def phonePat3At (l : List Char) : Option Nat :=
  match l with
  | [] => none
  | c :: t =>
    if c = 'O' || c = 'o' then
      let t1 := t.dropWhile pyIsSpace
      (phoneCoreRest t1).map fun rest => l.length - rest.length
    else none

/-- Pattern 4: `Office[:\s]+\(?\d{3}...` (IGNORECASE). -/
def phonePat4At (l : List Char) : Option Nat :=
  if leadsWithCI l "office".data then
    let t := l.drop 6
    let (run, t1) := takeRun (fun c => c = ':' || pyIsSpace c) t
    if run.isEmpty then none
    else (phoneCoreRest t1).map fun rest => l.length - rest.length
  else none

/-- Leftmost match of a positional matcher: `(offset, length)`. -/
def scanPat (pat : List Char → Option Nat) : List Char → Option (Nat × Nat)
  | [] => none
  | c :: t =>
    match pat (c :: t) with
    | some len => some (0, len)
    | none => (scanPat pat t).map (fun p => (p.1 + 1, p.2))

/-- `re.search(pat, s).group()` for a positional matcher. -/
def searchPat (pat : List Char → Option Nat) (s : String) : Option String :=
  (scanPat pat s.data).map fun p => ⟨(s.data.drop p.1).take p.2⟩

/-- Character class `[\w\.-]` (website patterns). -/
def webClassC (c : Char) : Bool := isWordC c || c = '.' || c = '-'

/-- Website pattern 1: `https?://[\w\.-]+` (IGNORECASE).  The optional `s`
is tried greedily first, Python-style. -/
def webPat1At (l : List Char) : Option Nat :=
  if leadsWithCI l "http".data then
    let t := l.drop 4
    let withS : Option Nat :=
      match t with
      | c :: t2 =>
        if toLowerC c = 's' then
          if leadsWith t2 "://".data then
            let (run, _) := takeRun webClassC (t2.drop 3)
            if run.isEmpty then none else some (4 + 1 + 3 + run.length)
          else none
        else none
      | [] => none
    match withS with
    | some n => some n
    | none =>
      if leadsWith t "://".data then
        let (run, _) := takeRun webClassC (t.drop 3)
        if run.isEmpty then none else some (4 + 3 + run.length)
      else none
  else none

/-- Website pattern 2: `www\.[\w\.-]+` (IGNORECASE). -/
def webPat2At (l : List Char) : Option Nat :=
  if leadsWithCI l "www.".data then
    let (run, _) := takeRun webClassC (l.drop 4)
    if run.isEmpty then none else some (4 + run.length)
  else none

/-- The TLD alternatives of website pattern 3. -/
def webAlts : List (List Char) :=
  ["com".data, "org".data, "net".data, "edu".data, "gov".data, "io".data,
   "co".data]

/-- Within the class run after its first character: a `.` followed by one of
the TLD alternatives (case-insensitively). -/
def hasDotAlt : List Char → Bool
  | [] => false
  | c :: t => (c = '.' && webAlts.any (fun a => leadsWithCI t a)) || hasDotAlt t

/-- Website pattern 3: `[\w\.-]+\.(com|org|net|edu|gov|io|co)[\w\.-]*`
(IGNORECASE).  The greedy leading `+` and trailing `*` make any successful
match swallow the whole maximal class run; a match exists at this position
iff the run has an interior `.`-plus-TLD split. -/
def webPat3At (l : List Char) : Option Nat :=
  let (run, _) := takeRun webClassC l
  match run with
  | [] => none
  | _ :: t => if hasDotAlt t then some run.length else none

/-- The cleanup `_extract_website` applies to a raw match. -/
def websiteClean (w : String) : String :=
  let w' := pyStrip w
  if leadsWith w'.data "http".data then w'
  else ⟨"https://".data ++ lstripSet w'.data ['w', '.']⟩

/-- `BusinessCardScanner._extract_website`. -/
def extract_website (text : String) : Option String :=
  match searchPat webPat1At text with
  | some m => some (websiteClean m)
  | none =>
    match searchPat webPat2At text with
    | some m => some (websiteClean m)
    | none => (searchPat webPat3At text).map websiteClean

/-- Numeric value of a digit run. -/
def digitsVal (l : List Char) : Nat :=
  l.foldl (fun a c => a * 10 + (c.toNat - 48)) 0

/-- `re.search(r'Rotate: (\d+)', osd)`: the captured digits. -/
def findRotate : List Char → Option Nat
  | [] => none
  | c :: t =>
    if leadsWith (c :: t) "Rotate: ".data then
      let (run, _) := takeRun pyIsDigit ((c :: t).drop 8)
      if run.isEmpty then findRotate t else some (digitsVal run)
    else findRotate t

/-- `re.search(r'\d{3}', s)` (also covers `\d{3,}` as an existence test). -/
def hasDigitRun3 : List Char → Bool
  | [] => false
  | c :: t => (digitsN 3 (c :: t)).isSome || hasDigitRun3 t

/-- `re.search(r'\d{3}-\d{3}-\d{4}', s)`. -/
def dashPhoneAt (l : List Char) : Option Nat :=
  ((digitsN 3 l).bind fun l1 =>
    match l1 with
    | '-' :: l2 => (digitsN 3 l2).bind fun l3 =>
        match l3 with
        | '-' :: l4 => digitsN 4 l4
        | _ => none
    | _ => none).map fun (rest : List Char) => l.length - rest.length

def hasDashPhone (l : List Char) : Bool := (scanPat dashPhoneAt l).isSome

/-- The phone pattern of `_simple_rotational_ocr`:
`\b\d{3}[\s\-.]?\d{3}[\s\-.]?\d{4}\b`. -/
def phoneSimpleAt (prev : Option Char) (l : List Char) : Option Nat :=
  match l with
  | [] => none
  | c :: _ =>
    if boundaryB prev (some c) then
      ((digitsN 3 l).bind fun l1 =>
        let l2 := sepOpt l1
        (digitsN 3 l2).bind fun l3 =>
          let l4 := sepOpt l3
          (digitsN 4 l4).bind fun rest =>
            if (rest.head?.map isWordC).getD false then none
            else some rest).map fun (rest : List Char) => l.length - rest.length
    else none

/-- Leftmost match for a boundary-aware matcher. -/
def scanPrev (pat : Option Char → List Char → Option Nat) :
    Option Char → List Char → Option (Nat × Nat)
  | _, [] => none
  | prev, c :: t =>
    match pat prev (c :: t) with
    | some len => some (0, len)
    | none => (scanPrev pat (some c) t).map fun p => (p.1 + 1, p.2)

/-- `len(re.findall(pat, s))` for a boundary-aware matcher. -/
def countPrevAux (pat : Option Char → List Char → Option Nat) :
    Nat → Option Char → List Char → Nat
  | 0, _, _ => 0
  | fuel + 1, prev, l =>
    match scanPrev pat prev l with
    | none => 0
    | some (off, len) =>
      let consumed := off + len
      1 + countPrevAux pat fuel (l.get? (consumed - 1)) (l.drop consumed)

def phoneSimpleCount (s : String) : Nat :=
  countPrevAux phoneSimpleAt s.data.length none s.data

/-! ### Substitutions used by `_clean_name_line` and the phone cleanup -/

/-- One occurrence of `,\s*TOK(?:\s|,|$)` (IGNORECASE) at the head. -/
def subCommaTokAt (tok : List Char) (l : List Char) : Option Nat :=
  match l with
  | ',' :: t =>
    let (ws, t1) := takeRun pyIsSpace t
    if leadsWithCI t1 tok then
      let t2 := t1.drop tok.length
      match t2 with
      | [] => some (1 + ws.length + tok.length)
      | c :: _ =>
        if pyIsSpace c || c = ',' then some (1 + ws.length + tok.length + 1)
        else none
    else none
  | _ => none

/-- One occurrence of `\s+TOK$` (IGNORECASE) at the head. -/
def subWsTokEndAt (tok : List Char) (l : List Char) : Option Nat :=
  let (ws, t1) := takeRun pyIsSpace l
  if ws.isEmpty then none
  else if t1.length = tok.length && leadsWithCI t1 tok then some l.length
  else none

/-- `re.sub(pat, '', s)`: delete every non-overlapping occurrence, scanning
left to right. -/
def subAllAux (pat : List Char → Option Nat) : Nat → List Char → List Char
  | 0, l => l
  | _ + 1, [] => []
  | fuel + 1, c :: t =>
    match pat (c :: t) with
    | some (len + 1) => subAllAux pat fuel ((c :: t).drop (len + 1))
    | some 0 => c :: subAllAux pat fuel t
    | none => c :: subAllAux pat fuel t

def subAll (pat : List Char → Option Nat) (l : List Char) : List Char :=
  subAllAux pat l.length l

/-- One occurrence of `[Oo]ffice[:\s]+` (IGNORECASE) at the head. -/
def subOfficeAt (l : List Char) : Option Nat :=
  if leadsWithCI l "office".data then
    let (run, _) := takeRun (fun c => c = ':' || pyIsSpace c) (l.drop 6)
    if run.isEmpty then none else some (6 + run.length)
  else none

/-- `re.sub(r'^[Oo]\s+', '', s)`. -/
def subAnchoredO (l : List Char) : List Char :=
  match l with
  | [] => []
  | c :: t =>
    if c = 'O' || c = 'o' then
      let (ws, t1) := takeRun pyIsSpace t
      if ws.isEmpty then l else t1
    else l

/-! ## The candidate scorer and text utilities -/

/-- Shorthand for a float literal `n/d`. -/
def pr (n d : Int) : PyRat := ⟨n, d⟩

/-- `re.findall(r"[A-Za-z]+", s)`: the maximal alphabetic runs (structural
fuel recursion, fuel bounded by the list length). -/
def alphaRunsAux : Nat → List Char → List (List Char)
  | 0, _ => []
  | _ + 1, [] => []
  | fuel + 1, c :: t =>
    if pyIsAlpha c then
      let r := takeRun pyIsAlpha t
      (c :: r.1) :: alphaRunsAux fuel r.2
    else alphaRunsAux fuel t

def alphaRuns (l : List Char) : List (List Char) := alphaRunsAux l.length l

/-- `len(set(s))`: the distinct characters. -/
def distinctChars : List Char → List Char
  | [] => []
  | c :: t =>
    let r := distinctChars t
    if r.contains c then r else c :: r

/-- The scanner's `_common_keywords` set. -/
def commonKeywords : List String :=
  ["phone", "email", "manager", "care", "health", "medical", "center",
   "hospice", "clinic", "address", "cell", "mobile", "fax", "office",
   "contact", "colorado", "assist", "suite", "road", "street", "drive"]

/-- The inline keyword list of the `+0.2` bonus in `_score_ocr_text`. -/
def bonusKeywords : List String :=
  ["email", "phone", "manager", "center", "case", "nursing", "care"]

/-- Word-based adjustments of `_score_ocr_text` (vowel-ratio penalty/boost,
average-word-length penalty, keyword bonus; the `words` empty case). -/
def scoreWords (base0 : PyRat) (words : List (List Char)) : PyRat :=
  if words.isEmpty then base0.mul (pr 2 10)
  else
    let b1 :=
      if ((PyRat.ofNat (words.countP (fun w => w.any isVowelC))).divNat
          (max words.length 1)).blt (pr 35 100) then base0.mul (pr 35 100)
      else base0.mul (pr 105 100)
    let avgWordLen :=
      (PyRat.ofNat (words.foldl (fun a w => a + w.length) 0)).divNat
        words.length
    let b2 := if avgWordLen.blt (pr 22 10) then b1.mul (pr 4 10)
              else if (pr 9 1).blt avgWordLen then b1.mul (pr 7 10)
              else b1
    let keywordHits := words.countP (fun w => commonKeywords.contains ⟨lowerL w⟩)
    if keywordHits ≠ 0 then
      b2.add ((PyRat.ofNat (min keywordHits 4)).mul (pr 8 100))
    else b2

/-- Global bonuses/penalties of `_score_ocr_text` (`@` bonus, keyword bonus,
character-diversity penalty, word-count bonus). -/
def scoreBonus (stripped : List Char) (b : PyRat) : PyRat :=
  let b2 := if stripped.contains '@' then b.add (pr 4 10) else b
  let b3 :=
    if bonusKeywords.any (fun k => containsSub (lowerL stripped) k.data) then
      b2.add (pr 2 10)
    else b2
  let b4 :=
    if (PyRat.ofNat (distinctChars stripped).length).ble
        ((PyRat.ofNat stripped.length).mul (pr 2 10)) then b3.mul (pr 5 10)
    else b3
  if (splitWsL stripped).length ≥ 4 then b4.add (pr 1 10) else b4

/-- `BusinessCardScanner._score_ocr_text`. -/
def score_ocr_text (text : String) : PyRat :=
  if text = "" then PyRat.ofNat 0
  else
    let stripped := text.data.filter pyIsPrintable
    if stripped.isEmpty then PyRat.ofNat 0
    else
      let letters := stripped.countP pyIsAlpha
      let digits := stripped.countP pyIsDigit
      let spaces := stripped.countP pyIsSpace
      let punctuation : Int :=
        (stripped.length : Int) - (letters : Int) - (digits : Int) - (spaces : Int)
      let base0 : PyRat :=
        (((PyRat.ofNat letters).add ((pr 6 10).mul (PyRat.ofNat digits))).add
          ((pr 3 10).mul (PyRat.ofInt punctuation))).divNat stripped.length
      let words := (alphaRuns stripped).filter (fun w => w.length > 1)
      (scoreBonus stripped (scoreWords base0 words)).pmin (pr 22 10)

/-- `BusinessCardScanner._line_is_valid`. -/
def line_is_valid (line : String) : Bool :=
  if line = "" || line.data.length < 3 then false
  else
    let letters := line.data.countP pyIsAlpha
    let length := line.data.length
    if letters < 2 then false
    else
      let ratioLD := (PyRat.ofNat letters).divNat (max length 1)
      if ratioLD.blt (pr 4 10) then false
      else
        let vowelLD :=
          (PyRat.ofNat (line.data.countP isVowelC)).divNat (max length 1)
        if vowelLD.blt (pr 25 100) then false
        else (pr 2 10).ble (score_ocr_text line)

/-- `BusinessCardScanner._clean_ocr_text` (string input; the `list` branch of
the source is unreachable from the modelled call sites). -/
def clean_ocr_text (text : String) : String :=
  if text = "" then ""
  else
    let lines := (splitOnC '\n' text.data).filterMap fun line =>
      let l := stripL line
      if l.isEmpty then none else some (joinC ' ' (splitWsL l))
    ⟨joinC '\n' lines⟩

/-- The business words rejected by `_looks_like_name`. -/
def nameBusinessWords : List String :=
  ["inc", "llc", "corp", "company", "hospital", "medical", "health", "center",
   "clinic", "manager", "director", "coordinator"]

/-- `BusinessCardScanner._looks_like_name`. -/
def looks_like_name (text : String) : Bool :=
  if hasEmail text then false
  else if text.data.any pyIsDigit then false
  else if text.data.length > 30 then false
  else if isUpperStr text.data then false
  else if nameBusinessWords.any
      (fun w => containsSub (lowerL text.data) w.data) then false
  else
    let words := splitWsL text.data
    if words.length < 2 then false
    else words.all fun w =>
      match w with
      | c :: _ => isUpperC c
      | [] => true

/-- `BusinessCardScanner._extract_phone`: patterns tried in order, then the
`Office`/`O ` cleanup and strip. -/
def extractPhoneGo (text : String) :
    List (List Char → Option Nat) → Option String
  | [] => none
  | p :: ps =>
    match searchPat p text with
    | some m =>
      some (pyStrip ⟨subAnchoredO (subAll subOfficeAt m.data)⟩)
    | none => extractPhoneGo text ps

def extract_phone (text : String) : Option String :=
  extractPhoneGo text [phonePat1At, phonePat2At, phonePat3At, phonePat4At]

/-- Python truthiness of `_extract_phone`'s result. -/
def phoneTruthy (s : String) : Bool :=
  match extract_phone s with
  | some p => p ≠ ""
  | none => false

/-- `BusinessCardScanner._post_process_text`. -/
def post_process_text (text : String) : String :=
  if text = "" then ""
  else
    let fallbackLines := (splitOnC '\n' text.data).filterMap fun line =>
      let s := stripL line
      if s.isEmpty then none else some s
    let keep : List Char → Bool := fun l =>
      line_is_valid ⟨l⟩ || hasEmail ⟨l⟩ || looks_like_name ⟨l⟩ || phoneTruthy ⟨l⟩
    let filtered := fallbackLines.filter keep
    if !filtered.isEmpty then ⟨joinC '\n' filtered⟩
    else ⟨joinC '\n' fallbackLines⟩

/-- `BusinessCardScanner._merge_text`. -/
def merge_text (baseText newText : String) : String :=
  if newText = "" then baseText
  else
    let baseLines := (splitOnC '\n' baseText.data).filterMap fun l =>
      let s := stripL l
      if s.isEmpty then none else some s
    let step := fun (acc : List (List Char)) (line : List Char) =>
      let s := stripL line
      if s.isEmpty || acc.contains s then acc
      else if !line_is_valid ⟨s⟩ then acc
      else acc ++ [s]
    ⟨joinC '\n' ((splitOnC '\n' newText.data).foldl step baseLines)⟩

/-- `BusinessCardScanner._text_is_gibberish`. -/
def text_is_gibberish (text : String) : Bool :=
  if text = "" then true
  else
    let score := score_ocr_text text
    if (pr 35 100).ble score then false
    else
      let letters := text.data.filter pyIsAlpha
      if letters.isEmpty then true
      else
        let vowelLD :=
          (PyRat.ofNat (letters.countP isVowelC)).divNat (max letters.length 1)
        vowelLD.blt (pr 2 10) && !(text.data.contains '@')

/-! ## The contact-field extractor -/

def pyUpper (s : String) : String := ⟨s.data.map toUpperC⟩

/-- `[line.strip() for line in text.split('\n') if line.strip()]`. -/
def stripLines (text : String) : List String :=
  (splitOnC '\n' text.data).filterMap fun l =>
    let s := stripL l
    if s.isEmpty then none else some (⟨s⟩ : String)

/-- Credentials stripped by `_clean_name_line`. -/
def credsList : List String :=
  ["MSN", "RN", "MD", "DO", "PA", "NP", "LPN", "BSN", "MBA", "PhD", "DNP"]

/-- Title phrases stripped by `_clean_name_line`. -/
def titlesList : List String :=
  ["Patient Care Manager", "Manager", "Director", "Coordinator", "Specialist",
   "Assistant"]

/-- `BusinessCardScanner._clean_name_line`: for each credential, then each
title, delete `,\s*TOK(?:\s|,|$)` and `\s+TOK$` (IGNORECASE), then strip. -/
def clean_name_line (line : String) : String :=
  let step := fun (l : List Char) (tok : String) =>
    subAll (subWsTokEndAt tok.data) (subAll (subCommaTokAt tok.data) l)
  let l1 := credsList.foldl step line.data
  let l2 := titlesList.foldl step l1
  pyStrip ⟨l2⟩

/-- The stop words of `_extract_name` strategy 3. -/
def nameStopWords : List String :=
  ["inc", "llc", "corp", "company", "hospital", "medical", "health", "center",
   "clinic", "the", "and", "of", "for", "hospice"]

/-- The credential list `_extract_name` strategy 3 compares `word.upper()`
against (note the mixed-case `PhD` entry, kept verbatim from the source). -/
def credsUpper : List String :=
  ["MSN", "RN", "MD", "DO", "PA", "NP", "LPN", "BSN", "MBA", "PhD"]

/-- `BusinessCardScanner._extract_name`. -/
def extract_name (text : String) : Option String :=
  let lines := stripLines text
  if lines.isEmpty then none
  else
    -- Strategy 1: first of the first 5 lines that cleans to a name.
    let s1 := (lines.take 5).findSome? fun line =>
      let cleaned := clean_name_line line
      if cleaned ≠ "" && looks_like_name cleaned then some cleaned else none
    match s1 with
    | some n => some n
    | none =>
      -- Strategy 2: name from a `first.last`-shaped email local part.
      let s2 :=
        match emailFirst text with
        | none => none
        | some email =>
          match splitOnC '@' email.data with
          | localPart :: _ =>
            if localPart.contains '.' then
              match splitOnC '.' localPart with
              | [p1, p2] =>
                let potential : String :=
                  ⟨titleL p1 false ++ ' ' :: titleL p2 false⟩
                if looks_like_name potential then some potential else none
              | _ => none
            else none
          | [] => none
      match s2 with
      | some n => some n
      | none =>
        -- Strategy 3: collect capitalized, purely alphabetic words.
        let words := pySplitWs text
        let candidates := words.filter fun w =>
          !(hasEmail w || hasDigitRun3 w.data ||
            nameStopWords.contains (pyLower w)) &&
          !(credsUpper.contains (pyUpper w)) &&
          (match w.data with
           | c :: _ =>
             isUpperC c && w.data.length > 1 &&
             (let r := w.data.filter (fun ch => ch ≠ '.' && ch ≠ '-')
              !r.isEmpty && r.all pyIsAlpha)
           | [] => false)
        if 2 ≤ candidates.length && candidates.length ≤ 4 then
          some ⟨joinC ' ' (candidates.map String.data)⟩
        else none

def companySkipWords : List String :=
  ["ph:", "fax:", "your", "source", "medical providers"]

def titleKeywordsSmall : List String :=
  ["manager", "director", "coordinator", "specialist", "assistant"]

/-- The suffix alternatives of the address pattern
`\d+.*(st|ave|rd|blvd|street|avenue)`. -/
def addrWords : List (List Char) :=
  ["st".data, "ave".data, "rd".data, "blvd".data, "street".data,
   "avenue".data]

def leadsAnyAt (l : List Char) (pats : List (List Char)) : Bool :=
  pats.any (fun p => leadsWith l p)

def tailsLeadAny : List Char → List (List Char) → Bool
  | [], _ => false
  | _ :: t, pats => leadsAnyAt t pats || tailsLeadAny t pats

/-- `re.search(r'\d+.*(st|ave|rd|blvd|street|avenue)', s)`: a digit with one
of the alternatives starting strictly later. -/
def digitThenPat : List Char → List (List Char) → Bool
  | [], _ => false
  | c :: t, pats =>
    (pyIsDigit c && tailsLeadAny (c :: t) pats) || digitThenPat t pats

/-- `BusinessCardScanner._extract_company`. -/
def extract_company (text : String) : Option String :=
  ((stripLines text).take 5).findSome? fun line =>
    if looks_like_name line then none
    else if companySkipWords.any
        (fun w => containsSub (lowerL line.data) w.data) then none
    else if digitThenPat (lowerL line.data) addrWords then none
    else if hasDashPhone line.data then none
    else if leadsWith line.data "http".data ||
        leadsWith line.data "www.".data then none
    else if titleKeywordsSmall.any
          (fun k => containsSub (lowerL line.data) k.data) &&
        line.data.length < 30 then none
    else if line.data.length > 3 && line.data.length < 50 then
      if !isUpperStr line.data || (pySplitWs line).length ≤ 3 then
        some (pyStrip line)
      else none
    else none

def titleKeywordsBig : List String :=
  ["Patient Care Manager", "Manager", "Director", "Coordinator", "Specialist",
   "Assistant", "Executive", "President", "VP", "Vice President", "Chief",
   "Lead", "Supervisor"]

/-- `BusinessCardScanner._extract_title`. -/
def extract_title (text : String) : Option String :=
  ((stripLines text).take 8).findSome? fun line =>
    if looks_like_name line then none
    else if hasEmail line || hasDigitRun3 line.data then none
    else if titleKeywordsBig.any
        (fun k => containsSub (lowerL line.data) (lowerL k.data)) then
      some (pyStrip line)
    else if 5 < line.data.length && line.data.length < 40 &&
        !(line.data.any pyIsDigit) then
      if !isUpperStr line.data &&
          !(["inc", "llc", "corp", "company"].any
            (fun w => containsSub (lowerL line.data) w.data)) then
        some (pyStrip line)
      else none
    else none

/-! ### The contact dictionary -/

/-- Dictionary lookup (`dict.get`, `None` when absent). -/
def dGet (d : List (String × Option String)) (k : String) : Option String :=
  match d with
  | [] => none
  | (k1, v1) :: t => if k1 = k then v1 else dGet t k

/-- Key-presence test for the dictionary model. -/
def dHas (d : List (String × Option String)) (k : String) : Bool :=
  match d with
  | [] => false
  | (k1, _) :: t => k1 = k || dHas t k

/-- Replace the value stored under an existing key, keeping entry order. -/
def dUpdate (d : List (String × Option String)) (k : String)
    (v : Option String) : List (String × Option String) :=
  match d with
  | [] => []
  | (k1, v1) :: t => (if k1 = k then (k, v) else (k1, v1)) :: dUpdate t k v

/-- Dictionary assignment: update in place when the key exists, append
otherwise. -/
def dSet (d : List (String × Option String)) (k : String) (v : Option String) :
    List (String × Option String) :=
  if dHas d k then dUpdate d k v else d ++ [(k, v)]

/-- Python truthiness of an optional string. -/
def truthy : Option String → Bool
  | some s => s ≠ ""
  | none => false

/-- The name/first/last triple of `_parse_contact_info` STEP 2. -/
def nameFields (nameM : Option String) :
    Option String × Option String × Option String :=
  match nameM with
  | some n =>
    if n ≠ "" then
      match pySplitWs n with
      | p0 :: p1 :: rest =>
        (some n, some (pyStrip p0),
         some (pyStrip ⟨joinC ' ' ((p1 :: rest).map String.data)⟩))
      | _ => (some n, some (pyStrip n), none)
    else (none, none, none)
  | none => (none, none, none)

/-- The company derived from the email domain in `_parse_contact_info`
STEP 1. -/
def companyFromEmail (email : Option String) : Option String :=
  match email with
  | none => none
  | some e =>
    match splitOnC '@' e.data with
    | [_, domainFull] =>
      let domain := (splitOnC '.' domainFull).headD []
      let domain := domain.map fun c => if c = '-' then ' ' else c
      let domain := domain.map fun c => if c = '_' then ' ' else c
      some (pyTitle ⟨domain⟩)
    | _ => none

/-- `BusinessCardScanner._parse_contact_info`.  The dict literal fixes the
key set; every assignment of the source touches an existing key, so the
result is assembled directly with the field values the update sequence
produces. -/
def parse_contact_info (text : String) : List (String × Option String) :=
  let email := (emailFirst text).map fun e => pyStrip (pyLower e)
  let companyE := companyFromEmail email
  let nf := nameFields (extract_name text)
  let company := if truthy companyE then companyE else extract_company text
  [("first_name", nf.2.1),
   ("last_name", nf.2.2),
   ("email", email),
   ("name", nf.1),
   ("company", company),
   ("title", extract_title text),
   ("phone", extract_phone text),
   ("website", extract_website text),
   ("address", none),
   ("notes", some (pyStrip text))]

/-- One cleaning step of `validate_contact`: when the field is truthy,
replace it with `f` of its value. -/
def vStep (key : String) (f : String → String)
    (v : List (String × Option String)) : List (String × Option String) :=
  if truthy (dGet v key) then dSet v key ((dGet v key).map f) else v

/-- One nulling step of `validate_contact`: when the field is falsy, set it
to `None`. -/
def vNull (key : String) (v : List (String × Option String)) :
    List (String × Option String) :=
  if !truthy (dGet v key) then dSet v key none else v

/-- `BusinessCardScanner.validate_contact`: lower/strip email, strip/title
the three name fields, strip company, then null out falsy
title/phone/website/address. -/
def validate_contact (contact : List (String × Option String)) :
    List (String × Option String) :=
  vNull "address" (vNull "website" (vNull "phone" (vNull "title"
    (vStep "company" pyStrip
      (vStep "name" (fun s => pyTitle (pyStrip s))
        (vStep "last_name" (fun s => pyTitle (pyStrip s))
          (vStep "first_name" (fun s => pyTitle (pyStrip s))
            (vStep "email" (fun e => pyStrip (pyLower e)) contact))))))))

/-! ## Images, the oracle environment, and events

Images are opaque handles (`Nat`); every PIL/OpenCV/engine operation on them
is an oracle of the environment.  `Option`-valued oracles model calls the
source wraps in `try/except` (`none` = the call raised); operations PIL
cannot fail on for an already-decoded image (`convert`, `rotate`, `resize`,
and the internally-catching `_crop_to_card_bounds`) are total.  `.copy()`
calls are dropped: a copy shares its pixel content, and object identity only
matters through the id-fallback fingerprint, which the modelled pipeline
reaches only for images the oracles produced. -/

abbrev Image := Nat

/-- A positive-denominator fraction (a genuine Python float value), used for
oracle-supplied confidences. -/
structure PyFloat where
  val : PyRat
  pos : val.Pos

/-- One entry of a RapidOCR result: `(box, text, confidence)`; `malformed`
models entries that are not list/tuple triples, `conf = none` models a
`float()` conversion failure (treated as `0.0`). -/
structure RapidEntry where
  malformed : Bool
  text : Option String
  conf : Option PyFloat

/-- The arrays of `pytesseract.image_to_data(..., output_type=Output.DICT)`.
`conf` entries of `none` model values `float()` rejects (treated as `-1`). -/
structure OcrData where
  conf : List (Option PyFloat)
  text : List String
  blockNum : List Int
  parNum : List Int
  lineNum : List Int

structure Env where
  /-- Result of the k-th `within_budget()` clock check of a run. -/
  budget : Nat → Bool
  /-- `image.convert('L')` inside a `try` block. -/
  convertL : Image → Option Image
  /-- `image.convert('RGB')` inside a `try` block. -/
  convertRGB : Image → Option Image
  autocontrast : Image → Option Image
  equalize : Image → Option Image
  /-- `_preprocess_image` as seen by its caller's `try`. -/
  preprocess : Image → Option Image
  /-- `_pil_binarize` (internal catch returns `None`). -/
  pilBinarize : Image → Option Image
  /-- `_opencv_binarize` (internal catch returns `None`). -/
  opencvBinarize : Image → Option Image
  /-- `_apply_clahe` (internal catch returns `None`). -/
  clahe : Image → Option Image
  /-- `_aggressive_preprocess` as seen by its caller's `try`. -/
  aggressive : Image → Option Image
  /-- `ImageOps.invert(img.convert('L')).convert('RGB')` in its `try`. -/
  invert : Image → Option Image
  /-- `ImageEnhance.Contrast(gray).enhance(2.0)`. -/
  contrast2 : Image → Option Image
  /-- `image.rotate(angle, expand=True)` (total). -/
  rotate : Image → Int → Image
  opencvAvailable : Bool
  npAvailable : Bool
  /-- `img.tobytes()` (`none` = raised, triggering the id fallback). -/
  tobytes : Image → Option (List Nat)
  /-- `hashlib.md5(bytes).hexdigest()` as an opaque hash oracle. -/
  md5 : List Nat → Nat
  /-- `pytesseract.image_to_string(img, config=..., lang='eng')`. -/
  tess : Image → String → Option String
  /-- `pytesseract.image_to_data(img, config=..., ...)`. -/
  tessData : Image → String → Option OcrData
  /-- `pytesseract.image_to_osd(img, config='--psm 0')`. -/
  tessOsd : Image → Option String
  easyAvailable : Bool
  /-- Whether `easyocr.Reader(...)` construction succeeds. -/
  easyInitOk : Bool
  /-- `reader.readtext(..., detail=0, paragraph=True)`. -/
  easyRead : Image → Option (List String)
  rapidAvailable : Bool
  rapidInitOk : Bool
  /-- `reader(np.array(...))`, first component. -/
  rapidRead : Image → Option (List RapidEntry)
  /-- `Image.open` + `exif_transpose` on the request bytes. -/
  pilOpen : List Nat → Option Image
  /-- The whole pillow-heif recovery block. -/
  heifOpen : List Nat → Option Image
  /-- The whole pyheif recovery block. -/
  pyheifOpen : List Nat → Option Image
  /-- The mode conversion to RGB (total). -/
  toRGB : Image → Image
  /-- `_crop_to_card_bounds` (internal catch; total). -/
  crop : Image → Image
  /-- `image.size`.  Real decoded images have positive dimensions; the model
  is total (`Nat` division by zero yields zero instead of Python's
  `ZeroDivisionError`, which no decoded image can trigger). -/
  size : Image → Nat × Nat
  /-- `image.resize((w, h), Image.LANCZOS)` (total). -/
  resize : Image → Nat → Nat → Image

/-- A fingerprint as computed by `_dedupe_images`: md5 of the bitmap bytes,
or the object id when `tobytes` raises. -/
inductive Fingerprint where
  | digest (h : Nat)
  | objId (img : Image)
deriving DecidableEq

def fingerprint (env : Env) (img : Image) : Fingerprint :=
  match env.tobytes img with
  | some b => .digest (env.md5 b)
  | none => .objId img

/-- `BusinessCardScanner._dedupe_images` (the modelled call sites never pass
`None` entries). -/
def dedupeAux (env : Env) : List Image → List Fingerprint → List Image
  | [], _ => []
  | img :: rest, seen =>
    let fp := fingerprint env img
    if seen.contains fp then dedupeAux env rest seen
    else img :: dedupeAux env rest (fp :: seen)

def dedupe_images (env : Env) (imgs : List Image) : List Image :=
  dedupeAux env imgs []

/-- The variant-construction phase of `_generate_processed_images`: the
first `try` block appends grayscale, autocontrast and equalize in order,
keeping whatever was appended before an exception; each later step is
caught independently. -/
def variantList (env : Env) (image : Image) (includeAggressive : Bool) :
    List Image :=
  (match env.convertL image with
   | none => []
   | some g =>
     g :: (match env.autocontrast g with
           | none => []
           | some a =>
             a :: (match env.equalize g with
                   | none => []
                   | some e => [e]))) ++
  (match env.preprocess image with
   | some p => [p]
   | none => []) ++
  (match env.pilBinarize image with
   | some p => [p]
   | none => []) ++
  (if env.opencvAvailable then
     match env.opencvBinarize image with
     | some p => [p]
     | none => []
   else []) ++
  (match env.clahe image with
   | some p => [p]
   | none => []) ++
  (if includeAggressive then
     match env.aggressive image with
     | some p => [p]
     | none => []
   else [])

/-- `BusinessCardScanner._generate_processed_images`: build the variants,
deduplicate, and truncate to `max_variants` when that limit is truthy. -/
def generate_processed_images (env : Env) (image : Image)
    (includeAggressive : Bool) (maxVariants : Nat) : List Image :=
  let deduped := dedupe_images env (variantList env image includeAggressive)
  if maxVariants ≠ 0 && deduped.length > maxVariants then
    deduped.take maxVariants
  else deduped

/-! ## The OCR orchestrator (`_extract_text_with_ocr`) -/

/-- One candidate of the orchestrator's `ocr_results`. -/
structure OcrEntry where
  score : PyRat
  text : String
  source : String
  variant : Int

/-- Instrumentation: engine invocations and candidate registrations, in
program order.  `variantGen` marks a `_generate_processed_images` call of
`scan_image`. -/
inductive OcrEvent where
  | attempt (engine : String) (config : String) (img : Image)
  | register (e : OcrEntry)
  | variantGen (aggressive : Bool)

def OcrEvent.isAttempt : OcrEvent → Prop
  | .attempt _ _ _ => True
  | _ => False

/-- The orchestrator's mutable state: the event trace, `ocr_results`,
`seen_texts`, `best_entry`, and the number of clock checks made. -/
structure OcrSt where
  events : List OcrEvent
  results : List OcrEntry
  seen : List String
  best : Option OcrEntry
  budgetCount : Nat

def withinBudget (env : Env) (s : OcrSt) : Bool × OcrSt :=
  (env.budget s.budgetCount, { s with budgetCount := s.budgetCount + 1 })

/-- The nested `register_text` helper: store a candidate and report whether
the loop may stop early (`score >= 0.9` and an email match). -/
def registerText (s : OcrSt) (text source : String) (variant : Int)
    (baseScore : Option PyRat) : Bool × OcrSt :=
  if text = "" then (false, s)
  else
    let cleaned := clean_ocr_text text
    let pp := post_process_text cleaned
    let processed := if pp ≠ "" then pp else cleaned
    if processed = "" || s.seen.contains processed then (false, s)
    else
      let score := baseScore.getD (score_ocr_text processed)
      if score.blt (pr 2 10) then (false, s)
      else
        let entry : OcrEntry := ⟨score, processed, source, variant⟩
        let best' := match s.best with
          | none => some entry
          | some b =>
            if b.score.blt score ||
                (score.beq b.score && b.text.data.length < processed.data.length)
            then some entry else some b
        let s' := { s with
          events := s.events ++ [.register entry],
          results := s.results ++ [entry],
          seen := processed :: s.seen,
          best := best' }
        ((pr 9 10).ble score && hasEmail processed, s')

/-- `BusinessCardScanner._easyocr_fallback` (including the lazily-cached
reader of `_get_easyocr_reader`). -/
def easyocrFallback (env : Env) (s : OcrSt) (image : Image) : String × OcrSt :=
  if !(env.easyAvailable && env.easyInitOk) || !env.npAvailable then ("", s)
  else
    let s := { s with events := s.events ++ [.attempt "easyocr" "" image] }
    match env.easyRead image with
    | none => ("", s)
    | some results => (clean_ocr_text (joinNL results), s)

/-- `BusinessCardScanner._rapidocr_fallback` (including
`_get_rapidocr_reader`). -/
def rapidocrFallback (env : Env) (s : OcrSt) (image : Image) : String × OcrSt :=
  if !env.rapidAvailable || !env.npAvailable || !env.rapidInitOk then ("", s)
  else
    let s := { s with events := s.events ++ [.attempt "rapidocr" "" image] }
    match env.rapidRead image with
    | none => ("", s)
    | some result =>
      if result.isEmpty then ("", s)
      else
        let lines := result.filterMap fun entry =>
          if entry.malformed then none
          else
            match entry.text with
            | none => none
            | some txt =>
              let scoreValue := match entry.conf with
                | some c => c.val
                | none => pr 0 1
              if scoreValue.blt (pr 45 100) then none
              else
                let cleaned := clean_ocr_text txt
                if cleaned ≠ "" then some cleaned else none
        (post_process_text (joinNL lines), s)

/-! ### `_extract_text_from_data` -/

/-- Sum of a list of floats (Python `sum`). -/
def sumPR (l : List PyRat) : PyRat := l.foldl PyRat.add (pr 0 1)

/-- Lexicographic order on `(block, par, line)` keys. -/
def keyLt (a b : Int × Int × Int) : Bool :=
  a.1 < b.1 || (a.1 = b.1 && (a.2.1 < b.2.1 || (a.2.1 = b.2.1 && a.2.2 < b.2.2)))

/-- First-occurrence-order deduplication (`dict` key insertion order). -/
def dedupKeys : List (Int × Int × Int) → List (Int × Int × Int)
  | [] => []
  | k :: t => k :: (dedupKeys t).filter (fun k2 => k2 ≠ k)

/-- Stable ascending insertion sort (`sorted` on distinct keys). -/
def insertAsc (lt : α → α → Bool) (x : α) : List α → List α
  | [] => [x]
  | y :: t => if lt x y then x :: y :: t else y :: insertAsc lt x t

def sortAsc (lt : α → α → Bool) : List α → List α
  | [] => []
  | x :: t => insertAsc lt x (sortAsc lt t)

/-- `BusinessCardScanner._extract_text_from_data`: keep words with
confidence ≥ 55, group them into lines by `(block, par, line)`, keep a line
if it looks valid or its average confidence ≥ 70, and return the joined
lines with their overall average confidence. -/
def itemsOf (d : OcrData) : List ((Int × Int × Int) × String × PyRat) :=
  d.text.enum.filterMap fun p =>
    let idx := p.1
    let word := p.2
    let conf : PyRat := match d.conf.get? idx with
      | some (some c) => c.val
      | some none => pr (-1) 1
      | none => pr (-1) 1
    let wordClean := pyStrip word
    if wordClean = "" then none
    else if conf.blt (pr 55 1) then none
    else
      let key : Int × Int × Int :=
        ((d.blockNum.get? idx).getD 0, (d.parNum.get? idx).getD 0,
         (d.lineNum.get? idx).getD (idx : Int))
      some (key, wordClean, conf)

/-- One grouped line of `_extract_text_from_data`: the words of one
`(block, par, line)` key, cleaned, kept when valid or confident. -/
def lineOf (items : List ((Int × Int × Int) × String × PyRat))
    (k : Int × Int × Int) : Option (String × PyRat) :=
  let ws := items.filterMap fun it => if it.1 = k then some it.2.1 else none
  let lineText := clean_ocr_text ⟨joinC ' ' (ws.map String.data)⟩
  if lineText = "" then none
  else
    let confs := items.filterMap fun it =>
      if it.1 = k then some it.2.2 else none
    let avgConf := (sumPR confs).divNat (max confs.length 1)
    if !line_is_valid lineText && avgConf.blt (pr 70 1) then none
    else some (lineText, avgConf)

def extractTextFromData (env : Env) (image : Image) (config : String) :
    String × PyRat :=
  match env.tessData image config with
  | none => ("", pr 0 1)
  | some d =>
    let items := itemsOf d
    if items.isEmpty then ("", pr 0 1)
    else
      let sortedKeys := sortAsc keyLt (dedupKeys (items.map fun it => it.1))
      let kept := sortedKeys.filterMap (lineOf items)
      if kept.isEmpty then ("", pr 0 1)
      else
        let avgAll := (sumPR (kept.map Prod.snd)).divNat (max kept.length 1)
        (joinNL (kept.map Prod.fst), avgAll)

/-! ### The attempt loops -/

def primaryConfigs : List (String × String) :=
  [("psm6_whitelist", "--oem 3 --psm 6 --dpi 300 -c tessedit_char_whitelist=ABCDEFGHIJKLMNOPQRSTUVWXYZabcdefghijklmnopqrstuvwxyz0123456789@._-()/: "),
   ("psm6", "--oem 3 --psm 6 --dpi 300 -c preserve_interword_spaces=1")]

def secondaryConfigs : List (String × String) :=
  [("psm11", "--oem 3 --psm 11 --dpi 300")]

/-- The inner `for config in primary_configs` loop for one image variant;
returns the `stop_requested` flag. -/
def innerPrimaryLoop (env : Env) (img : Image) (idx : Int) :
    List (String × String) → OcrSt → Bool × OcrSt
  | [], s => (false, s)
  | (cname, cfg) :: rest, s =>
    let bs := withinBudget env s
    if !bs.1 then (false, bs.2)
    else
      let s := { bs.2 with
        events := bs.2.events ++ [.attempt "tesseract" cfg img] }
      match env.tess img cfg with
      | none => innerPrimaryLoop env img idx rest s
      | some rawText =>
        let rs := registerText s rawText (cname ++ "_string") idx none
        if rs.1 then (true, rs.2)
        else
          let s := rs.2
          let bs2 := withinBudget env s
          let s := bs2.2
          let doData := bs2.1 && (match s.best with
            | none => true
            | some b => b.score.blt (pr 9 10))
          if doData then
            let s := { s with
              events := s.events ++ [.attempt "tesseract_data" cfg img] }
            let dt := extractTextFromData env img cfg
            if dt.1 ≠ "" then
              let combined :=
                (score_ocr_text dt.1).pmax ((dt.2.divNat 100).add (pr 1 10))
              let rs2 := registerText s dt.1 (cname ++ "_data") idx
                (some combined)
              if rs2.1 then (true, rs2.2)
              else innerPrimaryLoop env img idx rest rs2.2
            else innerPrimaryLoop env img idx rest s
          else innerPrimaryLoop env img idx rest s

/-- The outer `for image_index, img in enumerate(images_to_try)` loop. -/
def outerPrimaryLoop (env : Env) :
    List (Int × Image) → OcrSt → Bool × OcrSt
  | [], s => (false, s)
  | (idx, img) :: rest, s =>
    let bs := withinBudget env s
    if !bs.1 then (false, bs.2)
    else
      let rs := innerPrimaryLoop env img idx primaryConfigs bs.2
      if rs.1 then (true, rs.2)
      else outerPrimaryLoop env rest rs.2

/-- The secondary-config loop body for one image variant. -/
def innerSecondaryLoop (env : Env) (img : Image) (idx : Int) :
    List (String × String) → OcrSt → Bool × OcrSt
  | [], s => (false, s)
  | (cname, cfg) :: rest, s =>
    let bs := withinBudget env s
    if !bs.1 then (false, bs.2)
    else
      let s := { bs.2 with
        events := bs.2.events ++ [.attempt "tesseract" cfg img] }
      match env.tess img cfg with
      | none => innerSecondaryLoop env img idx rest s
      | some rawText =>
        let rs := registerText s rawText (cname ++ "_string") idx none
        if rs.1 then (true, rs.2)
        else innerSecondaryLoop env img idx rest rs.2

def outerSecondaryLoop (env : Env) :
    List (Int × Image) → OcrSt → Bool × OcrSt
  | [], s => (false, s)
  | (idx, img) :: rest, s =>
    let bs := withinBudget env s
    if !bs.1 then (false, bs.2)
    else
      let rs := innerSecondaryLoop env img idx secondaryConfigs bs.2
      if rs.1 then (true, rs.2)
      else outerSecondaryLoop env rest rs.2

/-! ### Candidate merging (source lines 872-885) -/

/-- Strict descending comparison on the sort key `(score, len(text))`. -/
def entryGt (a b : OcrEntry) : Bool :=
  b.score.blt a.score ||
  (b.score.beq a.score && b.text.data.length < a.text.data.length)

/-- Stable descending insertion sort
(`ocr_results.sort(key=..., reverse=True)`). -/
def insertDesc (gt : α → α → Bool) (x : α) : List α → List α
  | [] => [x]
  | y :: t => if gt y x then y :: insertDesc gt x t else x :: y :: t

def sortDesc (gt : α → α → Bool) : List α → List α
  | [] => []
  | x :: t => insertDesc gt x (sortDesc gt t)

/-- Sort the candidates, take the best text, merge candidates within the
score window `max(best - 0.18, 0.25)`, and recover an email-bearing
candidate when the merged text lacks an email. -/
def mergeCandidates (results : List OcrEntry) : String :=
  match sortDesc entryGt results with
  | [] => ""
  | best0 :: restCands =>
    let threshold := (best0.score.sub (pr 18 100)).pmax (pr 25 100)
    let bestText1 := restCands.foldl
      (fun bt c => if c.score.blt threshold then bt else merge_text bt c.text)
      best0.text
    if !hasEmail bestText1 then
      match (sortDesc entryGt results).find? (fun c => hasEmail c.text) with
      | some c => merge_text bestText1 c.text
      | none => bestText1
    else bestText1

/-! ### The full extraction -/

/-- Python `x or y` on strings. -/
def strOr (x y : String) : String := if x ≠ "" then x else y

/-- The RapidOCR-first block (source lines 755-765).  `inl` is the early
`return rapid_text`; `inr` carries `rapid_primary_text`. -/
def rapidFirstStage (env : Env) (originalImage : Image) (s : OcrSt) :
    (String ⊕ Option String) × OcrSt :=
  if env.rapidAvailable then
    let bs := withinBudget env s
    if bs.1 then
      let rt := rapidocrFallback env bs.2 originalImage
      let s := rt.2
      if rt.1 ≠ "" then
        let rScore := score_ocr_text rt.1
        if (pr 55 100).ble rScore && hasEmail rt.1 then (.inl rt.1, s)
        else
          let rs := registerText s rt.1 "rapidocr" (-1) (some rScore)
          (.inr (some (strOr (post_process_text rt.1) rt.1)), rs.2)
      else (.inr none, s)
    else (.inr none, bs.2)
  else (.inr none, s)

/-- The RapidOCR/Tesseract tail of the zero-candidate fallback chain
(source lines 861-870). -/
def noResultsTail (env : Env) (originalImage : Image) (s : OcrSt) :
    String × OcrSt :=
  let rapidOut :=
    if env.rapidAvailable then
      let rt := rapidocrFallback env s originalImage
      if rt.1 ≠ "" then (some rt.1, rt.2) else (none, rt.2)
    else (none, s)
  match rapidOut with
  | (some t, s) => (t, s)
  | (none, s) =>
    let s := { s with events := s.events ++
      [.attempt "tesseract" "--oem 3 --psm 6 --dpi 280" originalImage] }
    match env.tess originalImage "--oem 3 --psm 6 --dpi 280" with
    | some fallbackText => (post_process_text (clean_ocr_text fallbackText), s)
    | none => ("", s)

/-- The zero-candidate fallback chain (source lines 852-870). -/
def noResultsFallback (env : Env) (originalImage : Image) (s : OcrSt) :
    String × OcrSt :=
  let bs := withinBudget env s
  let easyOut :=
    if bs.1 then
      let et := easyocrFallback env bs.2 originalImage
      if et.1 ≠ "" then
        let easyText := strOr (post_process_text et.1) et.1
        if easyText ≠ "" then (some easyText, et.2) else (none, et.2)
      else (none, et.2)
    else (none, bs.2)
  match easyOut with
  | (some t, s) => (t, s)
  | (none, s) => noResultsTail env originalImage s

/-- The EasyOCR improvement stage (source lines 888-905): adopt the fallback
text when it scores higher, merge it when within 0.1. -/
def easyImproveStage (env : Env) (originalImage : Image)
    (bestText : String) (bestScore : PyRat) (s : OcrSt) :
    String × PyRat × OcrSt :=
  let bs := withinBudget env s
  if bs.1 && bestScore.blt (pr 5 10) then
    let et := easyocrFallback env bs.2 originalImage
    let s := et.2
    if et.1 ≠ "" then
      let easyText := strOr (post_process_text et.1) et.1
      if easyText ≠ "" then
        let easyScore := score_ocr_text easyText
        if bestScore.blt easyScore then (easyText, easyScore, s)
        else if ((bestScore.sub (pr 1 10)).pmax (pr 25 100)).ble easyScore then
          let merged := merge_text bestText easyText
          let newText := strOr (post_process_text merged) merged
          (newText, score_ocr_text newText, s)
        else (bestText, bestScore, s)
      else (bestText, bestScore, s)
    else (bestText, bestScore, s)
  else (bestText, bestScore, bs.2)

/-- The RapidOCR improvement stage (source lines 907-922). -/
def rapidImproveStage (env : Env) (originalImage : Image)
    (bestText : String) (bestScore : PyRat) (s : OcrSt) :
    String × PyRat × OcrSt :=
  if env.rapidAvailable then
    let bs := withinBudget env s
    if bs.1 && bestScore.blt (pr 5 10) then
      let rt := rapidocrFallback env bs.2 originalImage
      let s := rt.2
      if rt.1 ≠ "" then
        let rapidScore := score_ocr_text rt.1
        if bestScore.blt rapidScore then (rt.1, rapidScore, s)
        else if ((bestScore.sub (pr 12 100)).pmax (pr 3 10)).ble rapidScore then
          let merged := merge_text bestText rt.1
          let newText := strOr (post_process_text merged) merged
          (newText, score_ocr_text newText, s)
        else (bestText, bestScore, s)
      else (bestText, bestScore, s)
    else (bestText, bestScore, bs.2)
  else (bestText, bestScore, s)

/-- The RapidOCR-primary override (source lines 924-937). -/
def rapidPrimaryOverride (rapidPrimary : Option String)
    (bestText : String) (bestScore : PyRat) : String :=
  match rapidPrimary with
  | none => bestText
  | some rp0 =>
    if rp0 ≠ "" then
      let rpText := strOr (post_process_text rp0) rp0
      let rpScore := score_ocr_text rpText
      if (bestScore.blt (pr 55 100) && (pr 45 100).ble rpScore) ||
          (text_is_gibberish bestText && (bestScore.mul (pr 8 10)).ble rpScore)
      then rpText
      else bestText
    else bestText

/-- The deduplicated, truncated, enumerated image list the primary loop
walks (source lines 768-776). -/
def imagesIndexed (env : Env) (processedImages : List Image)
    (originalImage : Image) : List (Int × Image) :=
  let imagesToTry := processedImages ++ [originalImage]
  let inverted := (imagesToTry.take 2).filterMap env.invert
  let imagesToTry := imagesToTry ++ inverted
  let imagesToTry := dedupe_images env imagesToTry
  let imagesToTry :=
    if imagesToTry.length > 5 then imagesToTry.take 5 else imagesToTry
  imagesToTry.enum.map fun p => ((p.1 : Int), p.2)

/-- The gated secondary-configuration phase (source lines 833-850): entered
only when the primary loop did not stop early, the budget allows it, and the
best candidate so far scores below 0.6. -/
def secPhase (env : Env) (indexed : List (Int × Image))
    (pl : Bool × OcrSt) : Bool × OcrSt :=
  if !pl.1 then
    let bs := withinBudget env pl.2
    if bs.1 && (match bs.2.best with
        | none => true
        | some b => b.score.blt (pr 6 10)) then
      outerSecondaryLoop env (indexed.take 2) bs.2
    else (pl.1, bs.2)
  else pl

/-- The post-loop phase (source lines 852-937): the zero-candidate fallback
chain, or candidate merging followed by the two improvement stages and the
RapidOCR-primary override. -/
def mergePhase (env : Env) (originalImage : Image)
    (rapidPrimary : Option String) (s : OcrSt) : String × OcrSt :=
  if s.results.isEmpty then noResultsFallback env originalImage s
  else
    let bestScore0 := match sortDesc entryGt s.results with
      | [] => pr 0 1
      | b :: _ => b.score
    let bestText3 := post_process_text (mergeCandidates s.results)
    let e1 := easyImproveStage env originalImage bestText3 bestScore0 s
    let e2 := rapidImproveStage env originalImage e1.1 e1.2.1 e1.2.2
    (rapidPrimaryOverride rapidPrimary e2.1 e2.2.1, e2.2.2)

/-- `BusinessCardScanner._extract_text_with_ocr`.  `ev0`/`bc0` continue the
caller's event trace and clock-check counter; candidate state is fresh per
call, as in the source. -/
def extract_text_with_ocr (env : Env) (processedImages : List Image)
    (originalImage : Image) (ev0 : List OcrEvent) (bc0 : Nat) :
    String × OcrSt :=
  let s : OcrSt := ⟨ev0, [], [], none, bc0⟩
  match rapidFirstStage env originalImage s with
  | (.inl earlyText, s) => (earlyText, s)
  | (.inr rapidPrimary, s) =>
    let indexed := imagesIndexed env processedImages originalImage
    let sec := secPhase env indexed (outerPrimaryLoop env indexed s)
    mergePhase env originalImage rapidPrimary sec.2

/-! ## `scan_image` and its normalization stages -/

/-- `BusinessCardScanner._correct_orientation`: ask Tesseract OSD for a
rotation and apply it when it is one of 90/180/270. -/
def correct_orientation (env : Env) (img : Image) (ev : List OcrEvent) :
    Image × List OcrEvent :=
  let ev := ev ++ [.attempt "tesseract_osd" "--psm 0" img]
  match env.tessOsd img with
  | none => (img, ev)
  | some osd =>
    match findRotate osd.data with
    | none => (img, ev)
    | some angle =>
      if angle ≠ 0 && (angle = 90 || angle = 180 || angle = 270) then
        (env.rotate img (-(angle : Int)), ev)
      else (img, ev)

/-- `BusinessCardScanner._ensure_minimum_size` (1200/2000 band).  The float
scale factor times a dimension, truncated by `int(...)`, is modelled as exact
integer division. -/
def ensure_minimum_size (env : Env) (img : Image) : Image :=
  let wh := env.size img
  let smallest := min wh.1 wh.2
  let largest := max wh.1 wh.2
  if smallest < 1200 then
    env.resize img (wh.1 * 1200 / smallest) (wh.2 * 1200 / smallest)
  else if largest > 2000 then
    env.resize img (wh.1 * 2000 / largest) (wh.2 * 2000 / largest)
  else img

/-- The per-variant loop of `_simple_rotational_ocr`, keeping the text with
the best `emails*10 + phones*5 + words` score. -/
def simpleLoop (env : Env) :
    List Image → String → Int → List OcrEvent → String × List OcrEvent
  | [], bestText, _, ev => (bestText, ev)
  | v :: rest, bestText, bestScore, ev =>
    let ev := ev ++ [.attempt "tesseract" "--oem 3 --psm 3" v]
    match env.tess v "--oem 3 --psm 3" with
    | none => simpleLoop env rest bestText bestScore ev
    | some text =>
      if text = "" then simpleLoop env rest bestText bestScore ev
      else
        let score : Int := (emailCount text : Int) * 10 +
          (phoneSimpleCount text : Int) * 5 + ((pySplitWs text).length : Int)
        if bestScore < score then simpleLoop env rest text score ev
        else simpleLoop env rest bestText bestScore ev

/-- `BusinessCardScanner._simple_rotational_ocr`: grayscale, high-contrast
and three rotations, best-of by the phone/email-aware score.  A failure
while building the variants is caught by the surrounding `try` and yields
the empty string. -/
def simple_rotational_ocr (env : Env) (image : Image) (ev : List OcrEvent) :
    String × List OcrEvent :=
  match env.convertRGB image with
  | none => ("", ev)
  | some base =>
    match env.convertL base with
    | none => ("", ev)
    | some gray =>
      match env.contrast2 gray with
      | none => ("", ev)
      | some highContrast =>
        simpleLoop env
          [gray, highContrast, env.rotate gray 90, env.rotate gray 180,
           env.rotate gray 270]
          "" (-1) ev

/-- The twelve-byte HEIC magic prefix `scan_image` rejects. -/
def heicMagic1 : List Nat :=
  [0, 0, 0, 52, 102, 116, 121, 112, 104, 101, 105, 99]

/-- The second (eight-byte) pattern `b'\x00\x00\x00 ftyp'`; compared against
`image_content[:12]`, it can only equal inputs of length at most twelve. -/
def heicMagic2 : List Nat := [0, 0, 0, 32, 102, 116, 121, 112]

/-- The error string produced for every decode failure (the source raises
its HEIC-conversion message on each such path). -/
def decodeErrMsg : String :=
  "Failed to process image: Unable to process HEIC file. Please convert the image to JPEG or PNG format and try again."

/-- The result dictionary of `scan_image`, plus the instrumentation trace. -/
structure ScanOut where
  success : Bool
  contact : Option (List (String × Option String))
  rawText : Option String
  error : Option String
  events : List OcrEvent

/-- The decode chain of `scan_image`: PIL, then pillow-heif, then pyheif. -/
def decodeChain (env : Env) (imageContent : List Nat) : Option Image :=
  match env.pilOpen imageContent with
  | some img => some img
  | none =>
    match env.heifOpen imageContent with
    | some img => some img
    | none => env.pyheifOpen imageContent

/-- `BusinessCardScanner.scan_image`: HEIC magic rejection, the decode
chain (PIL, then pillow-heif, then pyheif), normalization, the rotational
fast path with its acceptance test, the heavy pipeline when the fast path
does not finish the job, the aggressive retry for short text, and field
extraction.  Any decode failure surfaces as `success = False` with the
conversion message; everything after a successful decode is total. -/
def scan_image (env : Env) (imageContent : List Nat) : ScanOut :=
  let isHeic := imageContent.take 12 = heicMagic1 ||
    imageContent.take 12 = heicMagic2
  if isHeic then
    { success := false, contact := none, rawText := none,
      error := some decodeErrMsg, events := [] }
  else
    match decodeChain env imageContent with
    | none =>
      { success := false, contact := none, rawText := none,
        error := some decodeErrMsg, events := [] }
    | some img0 =>
      let img1 := env.toRGB img0
      let img2 := env.crop img1
      let ori := correct_orientation env img2 []
      let img4 := ensure_minimum_size env ori.1
      let so := simple_rotational_ocr env img4 ori.2
      let ev := so.2
      let text :=
        if so.1 ≠ "" then
          let simpleText := post_process_text so.1
          let simpleScore := score_ocr_text simpleText
          let hasEm := hasEmail simpleText
          if (hasEm && (pr 45 100).ble simpleScore) ||
              (pr 75 100).ble simpleScore then simpleText
          else ""
        else ""
      let heavy :=
        if text = "" then
          let ev := ev ++ [.variantGen false]
          let processed := generate_processed_images env img4 false 4
          let r := extract_text_with_ocr env processed img4 ev 0
          (r.1, r.2.events, r.2.budgetCount)
        else (text, ev, 0)
      let afterAggressive :=
        if (pyStrip heavy.1).data.length < 120 then
          let ev := heavy.2.1 ++ [.variantGen true]
          let aggressiveImages := generate_processed_images env img4 true 2
          let r := extract_text_with_ocr env aggressiveImages img4 ev
            heavy.2.2
          (r.1, r.2.events)
        else (heavy.1, heavy.2.1)
      let contact := parse_contact_info afterAggressive.1
      { success := true, contact := some contact,
        rawText := some afterAggressive.1, error := none,
        events := afterAggressive.2 }

/-! ## General lemmas -/

theorem pr_nonneg {n d : Int} (hn : 0 ≤ n) (hd : 0 < d) : (pr n d).Nonneg :=
  ⟨hd, hn⟩

theorem ofInt_nonneg {n : Int} (hn : 0 ≤ n) : (PyRat.ofInt n).Nonneg :=
  ⟨Int.zero_lt_one, hn⟩

theorem pr_pos {d : Int} (n : Int) (hd : 0 < d) : (pr n d).Pos := hd

theorem PyRat.ble_refl (a : PyRat) : a.ble a = true := by
  simp [PyRat.ble]

theorem PyRat.ble_pmin_right (a c : PyRat) : (a.pmin c).ble c = true := by
  unfold PyRat.pmin
  split
  · assumption
  · exact PyRat.ble_refl c

theorem PyRat.beq_iff {a b : PyRat} (ha : a.Pos) (hb : b.Pos) :
    a.beq b = true ↔ a.toQ = b.toQ := by
  have ha' : ((a.den : ℚ)) ≠ 0 := by exact_mod_cast ha.ne'
  have hb' : ((b.den : ℚ)) ≠ 0 := by exact_mod_cast hb.ne'
  simp only [PyRat.beq, PyRat.toQ, decide_eq_true_eq]
  rw [div_eq_div_iff ha' hb']
  constructor
  · intro h; exact_mod_cast h
  · intro h; exact_mod_cast h

theorem nonneg_ite {c : Prop} [Decidable c] {x y : PyRat}
    (hx : x.Nonneg) (hy : y.Nonneg) : (if c then x else y).Nonneg := by
  split <;> assumption

theorem nonneg_dite {c : Prop} [Decidable c] {x y : PyRat}
    (hx : c → x.Nonneg) (hy : ¬c → y.Nonneg) : (if c then x else y).Nonneg := by
  split
  · exact hx ‹c›
  · exact hy ‹¬c›

theorem scoreWords_nonneg {b : PyRat} (hb : b.Nonneg)
    (words : List (List Char)) : (scoreWords b words).Nonneg := by
  unfold scoreWords
  repeat' first
    | exact hb
    | apply nonneg_ite
    | apply PyRat.Nonneg.nnAdd
    | apply PyRat.Nonneg.nnMul
    | apply pr_nonneg
    | apply PyRat.Nonneg.nnOfNat
    | omega

theorem scoreBonus_nonneg (stripped : List Char) {b : PyRat} (hb : b.Nonneg) :
    (scoreBonus stripped b).Nonneg := by
  unfold scoreBonus
  repeat' first
    | exact hb
    | apply nonneg_ite
    | apply PyRat.Nonneg.nnAdd
    | apply PyRat.Nonneg.nnMul
    | apply pr_nonneg
    | apply PyRat.Nonneg.nnOfNat
    | omega

/-- Nonnegativity of the scorer (the core of the `[0, 2.2]` range claim). -/
theorem score_ocr_text_nonneg (s : String) : (score_ocr_text s).Nonneg := by
  unfold score_ocr_text
  refine nonneg_dite (fun _ => PyRat.Nonneg.nnOfNat 0) (fun hne => ?_)
  refine nonneg_dite (fun _ => PyRat.Nonneg.nnOfNat 0) (fun hnem => ?_)
  have hlen : 0 < (s.data.filter pyIsPrintable).length := by
    rcases hs : s.data.filter pyIsPrintable with _ | ⟨a, t⟩
    · rw [hs] at hnem; simp at hnem
    · simp
  have hpunct : (0 : Int) ≤ ((s.data.filter pyIsPrintable).length : Int) -
      ((s.data.filter pyIsPrintable).countP pyIsAlpha : Int) -
      ((s.data.filter pyIsPrintable).countP pyIsDigit : Int) -
      ((s.data.filter pyIsPrintable).countP pyIsSpace : Int) := by
    have := countP_three_le_length (s.data.filter pyIsPrintable)
    omega
  have hb0 : ((((PyRat.ofNat ((s.data.filter pyIsPrintable).countP pyIsAlpha)).add
      ((pr 6 10).mul (PyRat.ofNat ((s.data.filter pyIsPrintable).countP pyIsDigit)))).add
      ((pr 3 10).mul (PyRat.ofInt (((s.data.filter pyIsPrintable).length : Int) -
        ((s.data.filter pyIsPrintable).countP pyIsAlpha : Int) -
        ((s.data.filter pyIsPrintable).countP pyIsDigit : Int) -
        ((s.data.filter pyIsPrintable).countP pyIsSpace : Int))))).divNat
      (s.data.filter pyIsPrintable).length).Nonneg :=
    (((PyRat.Nonneg.nnOfNat _).nnAdd
      ((pr_nonneg (by omega) (by omega)).nnMul (PyRat.Nonneg.nnOfNat _))).nnAdd
      ((pr_nonneg (by omega) (by omega)).nnMul
        (ofInt_nonneg hpunct))).nnDivNat hlen
  exact (scoreBonus_nonneg _ (scoreWords_nonneg hb0 _)).nnPmin
    (pr_nonneg (by omega) (by omega))

theorem ble_ite {c : Prop} [Decidable c] {x y z : PyRat}
    (hx : x.ble z = true) (hy : y.ble z = true) :
    (if c then x else y).ble z = true := by
  split <;> assumption

/-- The scorer never exceeds its clamp value. -/
theorem score_ocr_text_ble_clamp (s : String) :
    (score_ocr_text s).ble (pr 22 10) = true := by
  unfold score_ocr_text
  exact ble_ite (by decide) (ble_ite (by decide) (PyRat.ble_pmin_right _ _))

/-- C3: for every input string, `_score_ocr_text` returns a float in the
closed interval `[0, 2.2]` — never negative, never above the clamp — and
returns exactly `0` when the text is empty or contains no printable
characters. -/
theorem C3_score_range (s : String) :
    0 ≤ (score_ocr_text s).toQ ∧ (score_ocr_text s).toQ ≤ 2.2 ∧
    ((s = "" ∨ ∀ c ∈ s.data, pyIsPrintable c = false) →
      (score_ocr_text s).toQ = 0) := by
  refine ⟨(score_ocr_text_nonneg s).toQ_nonneg, ?_, ?_⟩
  · have hble := (PyRat.ble_iff (score_ocr_text_nonneg s).1
      (pr_pos 22 (by omega))).mp (score_ocr_text_ble_clamp s)
    have h22 : (pr 22 10).toQ = 2.2 := by norm_num [pr, PyRat.toQ]
    rw [h22] at hble
    exact hble
  · rintro (rfl | hall)
    · simp [score_ocr_text, PyRat.toQ, PyRat.ofNat]
    · unfold score_ocr_text
      by_cases hse : s = ""
      · simp [hse, PyRat.toQ, PyRat.ofNat]
      · rw [if_neg hse]
        have hf : s.data.filter pyIsPrintable = [] := by
          rw [List.filter_eq_nil_iff]
          intro a ha
          simp [hall a ha]
        simp [hf, PyRat.toQ, PyRat.ofNat]

theorem C3_score_range_witness :
    0 ≤ (score_ocr_text "").toQ ∧ (score_ocr_text "").toQ ≤ 2.2 ∧
      (score_ocr_text "").toQ = 0 :=
  ⟨(C3_score_range "").1, (C3_score_range "").2.1,
   (C3_score_range "").2.2 (Or.inl rfl)⟩

/-! ## Variant generator claims (C7, C8) -/

theorem dedupeAux_pairwise (env : Env) (l : List Image)
    (seen : List Fingerprint) :
    (dedupeAux env l seen).Pairwise
        (fun a b => fingerprint env a ≠ fingerprint env b) ∧
      ∀ x ∈ dedupeAux env l seen, fingerprint env x ∉ seen := by
  induction l generalizing seen with
  | nil => simp [dedupeAux]
  | cons img rest ih =>
    simp only [dedupeAux]
    split
    · exact ih seen
    next hns =>
      obtain ⟨hp, hmem⟩ := ih (fingerprint env img :: seen)
      constructor
      · refine List.Pairwise.cons ?_ hp
        intro b hb
        have := hmem b hb
        simp only [List.mem_cons, not_or] at this
        exact fun he => this.1 he.symm
      · intro x hx
        rcases List.mem_cons.mp hx with rfl | hx2
        · simpa using hns
        · have := hmem x hx2
          simp only [List.mem_cons, not_or] at this
          exact this.2

theorem pairwise_ite {α : Type} {c : Prop} [Decidable c]
    {R : α → α → Prop} {x y : List α} (hx : x.Pairwise R)
    (hy : y.Pairwise R) : (if c then x else y).Pairwise R := by
  split <;> assumption

theorem prop_ite {α : Type} {c : Prop} [Decidable c] {x y : α} {P : α → Prop}
    (hx : c → P x) (hy : ¬c → P y) : P (if c then x else y) := by
  split
  · exact hx ‹c›
  · exact hy ‹¬c›

/-- C8: the list returned by `_generate_processed_images` never contains two
variants with identical content fingerprints — the fingerprints as computed
by `_dedupe_images` (md5 of the bitmap bytes, object id when `tobytes`
fails) of the returned variants are pairwise distinct. -/
theorem C8_variant_fingerprints_distinct (env : Env) (img : Image)
    (agg : Bool) (mv : Nat) :
    (generate_processed_images env img agg mv).Pairwise
      (fun a b => fingerprint env a ≠ fingerprint env b) := by
  unfold generate_processed_images
  have hd := (dedupeAux_pairwise env (variantList env img agg) []).1
  exact pairwise_ite (hd.sublist (List.take_sublist _ _)) hd

/-- An environment in which every optional image-enhancement oracle fails:
the scenario the spec's "even if all enhancement steps fail" wording
quantifies over. -/
def envAllFail : Env where
  budget := fun _ => true
  convertL := fun _ => none
  convertRGB := fun _ => none
  autocontrast := fun _ => none
  equalize := fun _ => none
  preprocess := fun _ => none
  pilBinarize := fun _ => none
  opencvBinarize := fun _ => none
  clahe := fun _ => none
  aggressive := fun _ => none
  invert := fun _ => none
  contrast2 := fun _ => none
  rotate := fun i _ => i
  opencvAvailable := true
  npAvailable := true
  tobytes := fun i => some [i]
  md5 := fun b => b.headD 0
  tess := fun _ _ => none
  tessData := fun _ _ => none
  tessOsd := fun _ => none
  easyAvailable := false
  easyInitOk := false
  easyRead := fun _ => none
  rapidAvailable := false
  rapidInitOk := false
  rapidRead := fun _ => none
  pilOpen := fun _ => none
  heifOpen := fun _ => none
  pyheifOpen := fun _ => none
  toRGB := id
  crop := id
  size := fun _ => (1500, 1500)
  resize := fun i _ _ => i

/-- C7 counterexample: when every enhancement step fails (each `try` block
catches an exception, each `Optional` helper returns `None`), the variant
list is empty — not "at least one variant (the grayscale of the input)". -/
theorem C7_counterexample :
    generate_processed_images envAllFail 0 true 4 = [] := rfl

theorem dedupeAux_ne_nil (env : Env) (x : Image) (l : List Image)
    (seen : List Fingerprint) (hx : fingerprint env x ∉ seen) :
    dedupeAux env (x :: l) seen ≠ [] := by
  simp only [dedupeAux]
  split
  next hc => exact absurd (by simpa using hc) hx
  · simp

theorem variantList_cons {env : Env} {img : Image} {g : Image} (agg : Bool)
    (hg : env.convertL img = some g) :
    ∃ rest, variantList env img agg = g :: rest := by
  unfold variantList
  rw [hg]
  exact ⟨_, rfl⟩

/-- C7 (amended): `_generate_processed_images` returns at least one variant
whenever the initial grayscale conversion succeeds, even if every other
enhancement step fails; and when a nonzero `max_variants` limit is given,
the returned list never exceeds it. -/
theorem C7_amended (env : Env) (img : Image) (agg : Bool) (mv : Nat)
    (hg : (env.convertL img).isSome) :
    1 ≤ (generate_processed_images env img agg mv).length ∧
      (0 < mv → (generate_processed_images env img agg mv).length ≤ mv) := by
  obtain ⟨g, hgeq⟩ := Option.isSome_iff_exists.mp hg
  obtain ⟨rest, hvl⟩ := variantList_cons agg hgeq
  unfold generate_processed_images
  rw [hvl]
  have hne : dedupe_images env (g :: rest) ≠ [] :=
    dedupeAux_ne_nil env g rest [] (by simp)
  rcases hdd : dedupe_images env (g :: rest) with _ | ⟨d0, drest⟩
  · exact absurd hdd hne
  refine @prop_ite (List Image) _ _ _ _
    (fun l => 1 ≤ l.length ∧ (0 < mv → l.length ≤ mv))
    (fun hc => ?_) (fun hc => ?_)
  · simp only [Bool.and_eq_true, decide_eq_true_eq] at hc
    constructor
    · simp only [List.length_take, List.length_cons]
      omega
    · intro _
      simp only [List.length_take]
      omega
  · simp only [Bool.and_eq_true, decide_eq_true_eq, not_and] at hc
    constructor
    · simp
    · intro hmv
      by_cases hgt : (d0 :: drest).length > mv
      · exact absurd hgt (by simpa using hc (by omega))
      · omega

/-- An environment in which every oracle succeeds deterministically, used to
instantiate hypotheses of the amended claims at concrete inputs. -/
def envAllOk : Env where
  budget := fun _ => true
  convertL := fun i => some (i + 100)
  convertRGB := fun i => some (i + 200)
  autocontrast := fun i => some (i + 300)
  equalize := fun i => some (i + 400)
  preprocess := fun i => some (i + 500)
  pilBinarize := fun i => some (i + 600)
  opencvBinarize := fun i => some (i + 700)
  clahe := fun i => some (i + 800)
  aggressive := fun i => some (i + 900)
  invert := fun _ => none
  contrast2 := fun i => some (i + 1000)
  rotate := fun i a => i + 2000 + a.toNat
  opencvAvailable := true
  npAvailable := true
  tobytes := fun i => some [i]
  md5 := fun b => b.headD 0
  tess := fun _ _ => none
  tessData := fun _ _ => none
  tessOsd := fun _ => none
  easyAvailable := false
  easyInitOk := false
  easyRead := fun _ => none
  rapidAvailable := false
  rapidInitOk := false
  rapidRead := fun _ => none
  pilOpen := fun _ => some 1
  heifOpen := fun _ => none
  pyheifOpen := fun _ => none
  toRGB := id
  crop := id
  size := fun _ => (1500, 1500)
  resize := fun i _ _ => i + 3000

theorem C7_amended_witness :
    1 ≤ (generate_processed_images envAllOk 0 false 4).length ∧
      (0 < 4 → (generate_processed_images envAllOk 0 false 4).length ≤ 4) :=
  C7_amended envAllOk 0 false 4 (by decide)

/-! ## Validator and parser claims (C9, C10) -/

theorem dUpdate_cons_eq (k : String) (v v1 : Option String)
    (tl : List (String × Option String)) :
    dUpdate ((k, v1) :: tl) k v = (k, v) :: dUpdate tl k v := by
  simp [dUpdate]

theorem dUpdate_cons_ne (k k1 : String) (v v1 : Option String)
    (tl : List (String × Option String)) (h : k1 ≠ k) :
    dUpdate ((k1, v1) :: tl) k v = (k1, v1) :: dUpdate tl k v := by
  simp [dUpdate, h]

theorem dGet_cons_eq (k : String) (v1 : Option String)
    (t : List (String × Option String)) : dGet ((k, v1) :: t) k = v1 := by
  simp [dGet]

theorem dGet_cons_ne (k1 k' : String) (v1 : Option String)
    (t : List (String × Option String)) (h : k1 ≠ k') :
    dGet ((k1, v1) :: t) k' = dGet t k' := by
  simp [dGet, h]

theorem dGet_dSet_same (d : List (String × Option String)) (k : String)
    (v : Option String) : dGet (dSet d k v) k = v := by
  unfold dSet
  split
  next hs =>
    induction d with
    | nil => simp [dHas] at hs
    | cons hd tl ih =>
      obtain ⟨k1, v1⟩ := hd
      by_cases hk : k1 = k
      · subst hk
        rw [dUpdate_cons_eq, dGet_cons_eq]
      · simp only [dHas, Bool.or_eq_true, decide_eq_true_eq] at hs
        rcases hs with hs | hs
        · exact absurd hs hk
        · rw [dUpdate_cons_ne _ _ _ _ _ hk, dGet_cons_ne _ _ _ _ hk]
          exact ih hs
  next hs =>
    induction d with
    | nil => simp [dGet]
    | cons hd tl ih =>
      obtain ⟨k1, v1⟩ := hd
      simp only [dHas, Bool.or_eq_true, decide_eq_true_eq, not_or] at hs
      rw [List.cons_append, dGet_cons_ne _ _ _ _ hs.1]
      exact ih (by simp [dHas, hs.2])

theorem dGet_dSet_ne (d : List (String × Option String)) (k k' : String)
    (v : Option String) (h : k' ≠ k) : dGet (dSet d k v) k' = dGet d k' := by
  unfold dSet
  by_cases hs : dHas d k = true
  case pos =>
    rw [if_pos hs]
    clear hs
    induction d with
    | nil => simp [dUpdate]
    | cons hd tl ih =>
      obtain ⟨k1, v1⟩ := hd
      by_cases hk : k1 = k
      · subst hk
        rw [dUpdate_cons_eq, dGet_cons_ne _ _ _ _ (fun he => h he.symm),
          dGet_cons_ne _ _ _ _ (fun he => h he.symm)]
        exact ih
      · rw [dUpdate_cons_ne _ _ _ _ _ hk]
        by_cases hk2 : k1 = k'
        · subst hk2
          rw [dGet_cons_eq, dGet_cons_eq]
        · rw [dGet_cons_ne _ _ _ _ hk2, dGet_cons_ne _ _ _ _ hk2]
          exact ih
  case neg =>
    rw [if_neg hs]
    clear hs
    induction d with
    | nil =>
      rw [List.nil_append, dGet_cons_ne _ _ _ _ (fun he => h he.symm)]
    | cons hd tl ih =>
      obtain ⟨k1, v1⟩ := hd
      rw [List.cons_append]
      by_cases hk2 : k1 = k'
      · subst hk2
        rw [dGet_cons_eq, dGet_cons_eq]
      · rw [dGet_cons_ne _ _ _ _ hk2, dGet_cons_ne _ _ _ _ hk2]
        exact ih

theorem dGet_vStep_other (key : String) (f : String → String)
    (v : List (String × Option String)) (k : String) (h : k ≠ key) :
    dGet (vStep key f v) k = dGet v k := by
  unfold vStep
  split
  · exact dGet_dSet_ne v key k _ h
  · rfl

theorem dGet_vNull_other (key : String) (v : List (String × Option String))
    (k : String) (h : k ≠ key) : dGet (vNull key v) k = dGet v k := by
  unfold vNull
  split
  · exact dGet_dSet_ne v key k none h
  · rfl

theorem dGet_vStep_same (key : String) (f : String → String)
    (v : List (String × Option String)) (str : String)
    (hget : dGet v key = some str) (hne : str ≠ "") :
    dGet (vStep key f v) key = some (f str) := by
  unfold vStep
  rw [hget]
  have ht : truthy (some str) = true := by simpa [truthy] using hne
  rw [if_pos ht]
  rw [dGet_dSet_same]
  rfl

theorem dGet_vNull_same (key : String) (v : List (String × Option String))
    (hf : truthy (dGet v key) = false) : dGet (vNull key v) key = none := by
  unfold vNull
  rw [hf]
  simpa using dGet_dSet_same v key none

/-- C9 counterexample: `validate_contact` does not title-case the company
field — a lower-case company value passes through only stripped. -/
theorem C9_counterexample :
    dGet (validate_contact
      [("first_name", none), ("last_name", none), ("email", none),
       ("name", none), ("company", some "acme corp"), ("title", none),
       ("phone", none), ("website", none), ("address", none),
       ("notes", some "")]) "company" = some "acme corp" ∧
      pyTitle (pyStrip "acme corp") ≠ "acme corp" := by
  constructor
  · rfl
  · decide

/-- C9 (amended): `validate_contact` lower-cases and strips a present
(truthy) email; title-cases and strips each of first_name, last_name and
name; strips (but does not title-case) company; and sets each of title,
phone, website and address to null whenever its input value is falsy. -/
theorem C9_amended (contact : List (String × Option String)) :
    (∀ e, dGet contact "email" = some e → e ≠ "" →
      dGet (validate_contact contact) "email" = some (pyStrip (pyLower e))) ∧
    (∀ str, dGet contact "first_name" = some str → str ≠ "" →
      dGet (validate_contact contact) "first_name" =
        some (pyTitle (pyStrip str))) ∧
    (∀ str, dGet contact "last_name" = some str → str ≠ "" →
      dGet (validate_contact contact) "last_name" =
        some (pyTitle (pyStrip str))) ∧
    (∀ str, dGet contact "name" = some str → str ≠ "" →
      dGet (validate_contact contact) "name" =
        some (pyTitle (pyStrip str))) ∧
    (∀ str, dGet contact "company" = some str → str ≠ "" →
      dGet (validate_contact contact) "company" = some (pyStrip str)) ∧
    (∀ k, k ∈ (["title", "phone", "website", "address"] : List String) →
      truthy (dGet contact k) = false →
      dGet (validate_contact contact) k = none) := by
  unfold validate_contact
  refine ⟨?_, ?_, ?_, ?_, ?_, ?_⟩
  · intro e hget hne
    rw [dGet_vNull_other _ _ _ (by decide), dGet_vNull_other _ _ _ (by decide),
      dGet_vNull_other _ _ _ (by decide), dGet_vNull_other _ _ _ (by decide),
      dGet_vStep_other _ _ _ _ (by decide), dGet_vStep_other _ _ _ _ (by decide),
      dGet_vStep_other _ _ _ _ (by decide), dGet_vStep_other _ _ _ _ (by decide)]
    exact dGet_vStep_same _ _ _ _ hget hne
  · intro str hget hne
    rw [dGet_vNull_other _ _ _ (by decide), dGet_vNull_other _ _ _ (by decide),
      dGet_vNull_other _ _ _ (by decide), dGet_vNull_other _ _ _ (by decide),
      dGet_vStep_other _ _ _ _ (by decide), dGet_vStep_other _ _ _ _ (by decide),
      dGet_vStep_other _ _ _ _ (by decide)]
    refine dGet_vStep_same _ _ _ _ ?_ hne
    rw [dGet_vStep_other _ _ _ _ (by decide)]
    exact hget
  · intro str hget hne
    rw [dGet_vNull_other _ _ _ (by decide), dGet_vNull_other _ _ _ (by decide),
      dGet_vNull_other _ _ _ (by decide), dGet_vNull_other _ _ _ (by decide),
      dGet_vStep_other _ _ _ _ (by decide), dGet_vStep_other _ _ _ _ (by decide)]
    refine dGet_vStep_same _ _ _ _ ?_ hne
    rw [dGet_vStep_other _ _ _ _ (by decide), dGet_vStep_other _ _ _ _ (by decide)]
    exact hget
  · intro str hget hne
    rw [dGet_vNull_other _ _ _ (by decide), dGet_vNull_other _ _ _ (by decide),
      dGet_vNull_other _ _ _ (by decide), dGet_vNull_other _ _ _ (by decide),
      dGet_vStep_other _ _ _ _ (by decide)]
    refine dGet_vStep_same _ _ _ _ ?_ hne
    rw [dGet_vStep_other _ _ _ _ (by decide), dGet_vStep_other _ _ _ _ (by decide),
      dGet_vStep_other _ _ _ _ (by decide)]
    exact hget
  · intro str hget hne
    rw [dGet_vNull_other _ _ _ (by decide), dGet_vNull_other _ _ _ (by decide),
      dGet_vNull_other _ _ _ (by decide), dGet_vNull_other _ _ _ (by decide)]
    refine dGet_vStep_same _ _ _ _ ?_ hne
    rw [dGet_vStep_other _ _ _ _ (by decide), dGet_vStep_other _ _ _ _ (by decide),
      dGet_vStep_other _ _ _ _ (by decide), dGet_vStep_other _ _ _ _ (by decide)]
    exact hget
  · intro k hk hf
    have hfpreserved : ∀ key2 f2 v2, k ≠ key2 →
        truthy (dGet v2 k) = false →
        truthy (dGet (vStep key2 f2 v2) k) = false := by
      intro key2 f2 v2 hne hfv
      rw [dGet_vStep_other _ _ _ _ hne]
      exact hfv
    fin_cases hk
    · rw [dGet_vNull_other _ _ _ (by decide), dGet_vNull_other _ _ _ (by decide),
        dGet_vNull_other _ _ _ (by decide)]
      refine dGet_vNull_same _ _ ?_
      refine hfpreserved _ _ _ (by decide) ?_
      refine hfpreserved _ _ _ (by decide) ?_
      refine hfpreserved _ _ _ (by decide) ?_
      refine hfpreserved _ _ _ (by decide) ?_
      refine hfpreserved _ _ _ (by decide) ?_
      exact hf
    · rw [dGet_vNull_other _ _ _ (by decide), dGet_vNull_other _ _ _ (by decide)]
      refine dGet_vNull_same _ _ ?_
      rw [dGet_vNull_other _ _ _ (by decide)]
      refine hfpreserved _ _ _ (by decide) ?_
      refine hfpreserved _ _ _ (by decide) ?_
      refine hfpreserved _ _ _ (by decide) ?_
      refine hfpreserved _ _ _ (by decide) ?_
      refine hfpreserved _ _ _ (by decide) ?_
      exact hf
    · rw [dGet_vNull_other _ _ _ (by decide)]
      refine dGet_vNull_same _ _ ?_
      rw [dGet_vNull_other _ _ _ (by decide), dGet_vNull_other _ _ _ (by decide)]
      refine hfpreserved _ _ _ (by decide) ?_
      refine hfpreserved _ _ _ (by decide) ?_
      refine hfpreserved _ _ _ (by decide) ?_
      refine hfpreserved _ _ _ (by decide) ?_
      refine hfpreserved _ _ _ (by decide) ?_
      exact hf
    · refine dGet_vNull_same _ _ ?_
      rw [dGet_vNull_other _ _ _ (by decide), dGet_vNull_other _ _ _ (by decide),
        dGet_vNull_other _ _ _ (by decide)]
      refine hfpreserved _ _ _ (by decide) ?_
      refine hfpreserved _ _ _ (by decide) ?_
      refine hfpreserved _ _ _ (by decide) ?_
      refine hfpreserved _ _ _ (by decide) ?_
      refine hfpreserved _ _ _ (by decide) ?_
      exact hf

theorem C9_amended_witness :
    dGet (validate_contact
      [("first_name", some " john "), ("last_name", none),
       ("email", some " A@B.Co "), ("name", none),
       ("company", some "acme corp"), ("title", some ""), ("phone", none),
       ("website", some "x"), ("address", some "  ")]) "email" =
      some (pyStrip (pyLower " A@B.Co ")) ∧
    dGet (validate_contact
      [("first_name", some " john "), ("last_name", none),
       ("email", some " A@B.Co "), ("name", none),
       ("company", some "acme corp"), ("title", some ""), ("phone", none),
       ("website", some "x"), ("address", some "  ")]) "title" = none :=
  ⟨(C9_amended _).1 " A@B.Co " rfl (by decide),
   (C9_amended _).2.2.2.2.2 "title" (by decide) rfl⟩

theorem takeRun_fst_all (p : Char → Bool) :
    ∀ (l : List Char), ∀ c ∈ (takeRun p l).1, p c = true := by
  intro l
  induction l with
  | nil => simp [takeRun]
  | cons c t ih =>
    simp only [takeRun]
    split
    next hc =>
      intro x hx
      have hx' : x ∈ c :: (takeRun p t).1 := hx
      rcases List.mem_cons.mp hx' with rfl | hx2
      · exact hc
      · exact ih x hx2
    · simp

theorem splitWsAux_spaceFree :
    ∀ (fuel : Nat) (l : List Char), ∀ w ∈ splitWsAux fuel l,
      w ≠ [] ∧ ∀ c ∈ w, pyIsSpace c = false := by
  intro fuel
  induction fuel with
  | zero => simp [splitWsAux]
  | succ fuel ih =>
    intro l
    cases l with
    | nil => simp [splitWsAux]
    | cons c t =>
      rw [splitWsAux]
      split
      · exact ih t
      next hc =>
        intro w hw
        have hw' : w = c :: (takeRun (fun ch => !pyIsSpace ch) t).1 ∨
            w ∈ splitWsAux fuel (takeRun (fun ch => !pyIsSpace ch) t).2 :=
          List.mem_cons.mp hw
        rcases hw' with rfl | hw2
        · refine ⟨by simp, ?_⟩
          intro x hx
          rcases List.mem_cons.mp hx with rfl | hx2
          · simpa using hc
          · simpa using takeRun_fst_all _ t x hx2
        · exact ih _ w hw2

theorem splitWsL_spaceFree (l : List Char) :
    ∀ w ∈ splitWsL l, w ≠ [] ∧ ∀ c ∈ w, pyIsSpace c = false :=
  splitWsAux_spaceFree l.length l

theorem dropWhile_of_allFalse {p : Char → Bool} :
    ∀ {l : List Char}, (∀ c ∈ l, p c = false) → l.dropWhile p = l
  | [], _ => rfl
  | c :: t, h => by
    have hc := h c (by simp)
    simp [List.dropWhile_cons, hc]

theorem stripL_of_spaceFree {w : List Char}
    (hsf : ∀ c ∈ w, pyIsSpace c = false) : stripL w = w := by
  unfold stripL
  rw [dropWhile_of_allFalse hsf,
    dropWhile_of_allFalse (fun c hc => hsf c (List.mem_reverse.mp hc)),
    List.reverse_reverse]

theorem pyStrip_mem_splitWs {n p0 : String} (h : p0 ∈ pySplitWs n) :
    pyStrip p0 = p0 := by
  unfold pySplitWs at h
  rcases List.mem_map.mp h with ⟨w0, hw0, rfl⟩
  have hsf := (splitWsL_spaceFree n.data w0 hw0).2
  show (⟨stripL w0⟩ : String) = ⟨w0⟩
  rw [stripL_of_spaceFree hsf]

theorem nameFields_lastSome (nm : Option String)
    (h : (nameFields nm).2.2 ≠ none) :
    ∃ n p0 rest, (nameFields nm).1 = some n ∧
      pySplitWs n = p0 :: rest ∧
      (nameFields nm).2.1 = some (pyStrip p0) := by
  cases nm with
  | none => simp [nameFields] at h
  | some n =>
    by_cases hne : n = ""
    · simp [nameFields, hne] at h
    · rcases hs : pySplitWs n with _ | ⟨p0, rest0⟩
      · exact absurd (by simp [nameFields, hne, hs]) h
      · rcases rest0 with _ | ⟨p1, rest1⟩
        · exact absurd (by simp [nameFields, hne, hs]) h
        · exact ⟨n, p0, p1 :: rest1, by simp [nameFields, hne, hs], hs,
            by simp [nameFields, hne, hs]⟩

/-- C10: `_parse_contact_info` returns, for every input text, a dictionary
with exactly the keys first_name, last_name, email, name, company, title,
phone, website, address and notes; and whenever last_name is non-null, name
and first_name are non-null too, with first_name equal to the first
whitespace-separated token of name. -/
theorem C10_parse_contact_shape (text : String) :
    (parse_contact_info text).map Prod.fst =
      ["first_name", "last_name", "email", "name", "company", "title",
       "phone", "website", "address", "notes"] ∧
    (dGet (parse_contact_info text) "last_name" ≠ none →
      ∃ n p0 rest, dGet (parse_contact_info text) "name" = some n ∧
        pySplitWs n = p0 :: rest ∧
        dGet (parse_contact_info text) "first_name" = some p0) := by
  constructor
  · rfl
  · intro hlast
    have hL : dGet (parse_contact_info text) "last_name" =
        (nameFields (extract_name text)).2.2 := rfl
    have hN : dGet (parse_contact_info text) "name" =
        (nameFields (extract_name text)).1 := rfl
    have hF : dGet (parse_contact_info text) "first_name" =
        (nameFields (extract_name text)).2.1 := rfl
    rw [hL] at hlast
    obtain ⟨n, p0, rest, h1, h2, h3⟩ := nameFields_lastSome _ hlast
    refine ⟨n, p0, rest, by rw [hN, h1], h2, ?_⟩
    rw [hF, h3, pyStrip_mem_splitWs (by rw [h2]; exact List.mem_cons_self _ _)]

theorem C10_parse_contact_shape_witness :
    (parse_contact_info "Jon Ady\nx@y.zz").map Prod.fst =
      ["first_name", "last_name", "email", "name", "company", "title",
       "phone", "website", "address", "notes"] ∧
    (∃ n p0 rest,
      dGet (parse_contact_info "Jon Ady\nx@y.zz") "name" = some n ∧
        pySplitWs n = p0 :: rest ∧
        dGet (parse_contact_info "Jon Ady\nx@y.zz") "first_name" = some p0) :=
  ⟨(C10_parse_contact_shape "Jon Ady\nx@y.zz").1,
   (C10_parse_contact_shape "Jon Ady\nx@y.zz").2 (by decide)⟩


/-! ## C6: candidate merging.  Line-level analysis of `_merge_text` and the
merge stage of `_extract_text_with_ocr`. -/

/-- The stripped, non-empty lines of a string — exactly the line lists the
merge step of `_merge_text` works on. -/
def mLines (s : String) : List (List Char) :=
  (splitOnC '\n' s.data).filterMap fun l =>
    let x := stripL l
    if x.isEmpty then none else some x

/-- The per-line accumulator step of `_merge_text` (source lines 1046-1053). -/
def mergeStep (acc : List (List Char)) (line : List Char) : List (List Char) :=
  let s := stripL line
  if s.isEmpty || acc.contains s then acc
  else if !line_is_valid ⟨s⟩ then acc
  else acc ++ [s]

theorem merge_text_eq (b n : String) :
    merge_text b n = if n = "" then b
      else ⟨joinC '\n' ((splitOnC '\n' n.data).foldl mergeStep (mLines b))⟩ := rfl

theorem dropWhile_dropWhile (p : Char → Bool) :
    ∀ l : List Char, (l.dropWhile p).dropWhile p = l.dropWhile p
  | [] => rfl
  | c :: t => by
    cases hc : p c
    · simp [List.dropWhile_cons, hc]
    · simp only [List.dropWhile_cons, hc, if_true]
      exact dropWhile_dropWhile p t

theorem dropWhile_head?_false (p : Char → Bool) :
    ∀ (l : List Char) (c : Char), (l.dropWhile p).head? = some c → p c = false
  | [], _, h => by simp [List.dropWhile] at h
  | a :: t, c, h => by
    cases ha : p a
    · rw [List.dropWhile_cons, if_neg (by simp [ha])] at h
      simp only [List.head?_cons, Option.some.injEq] at h
      rw [← h]
      exact ha
    · rw [List.dropWhile_cons, if_pos ha] at h
      exact dropWhile_head?_false p t c h

theorem dropWhile_eq_self_of_head? (p : Char → Bool) (l : List Char)
    (h : ∀ c, l.head? = some c → p c = false) : l.dropWhile p = l := by
  cases l with
  | nil => rfl
  | cons c t =>
    rw [List.dropWhile_cons, if_neg]
    simp [h c rfl]

/-- `str.strip()` is idempotent. -/
theorem stripL_idem (l : List Char) : stripL (stripL l) = stripL l := by
  unfold stripL
  have h1 : ((l.dropWhile pyIsSpace).reverse.dropWhile pyIsSpace).reverse.dropWhile
      pyIsSpace = ((l.dropWhile pyIsSpace).reverse.dropWhile pyIsSpace).reverse := by
    apply dropWhile_eq_self_of_head?
    intro c hc
    rw [List.head?_reverse] at hc
    obtain ⟨u, hu⟩ :=
      List.dropWhile_suffix (l := (l.dropWhile pyIsSpace).reverse) pyIsSpace
    have hA : ((l.dropWhile pyIsSpace).reverse).getLast? = some c := by
      rw [← hu, List.getLast?_append, hc]
      rfl
    rw [List.getLast?_reverse] at hA
    exact dropWhile_head?_false pyIsSpace l c hA
  rw [h1, List.reverse_reverse, dropWhile_dropWhile]

/-- Characters of `stripL l` come from `l`. -/
theorem mem_stripL {c : Char} {l : List Char} (h : c ∈ stripL l) : c ∈ l := by
  unfold stripL at h
  rw [List.mem_reverse] at h
  have h2 := (List.dropWhile_suffix pyIsSpace).subset h
  rw [List.mem_reverse] at h2
  exact (List.dropWhile_suffix pyIsSpace).subset h2

theorem splitOnC_not_mem (sep : Char) :
    ∀ (l : List Char), ∀ p ∈ splitOnC sep l, sep ∉ p
  | [], p, hp => by
    simp only [splitOnC, List.mem_singleton] at hp
    subst hp
    exact List.not_mem_nil sep
  | c :: t, p, hp => by
    by_cases hc : c = sep
    · rw [splitOnC, if_pos hc, List.mem_cons] at hp
      rcases hp with rfl | hp
      · exact List.not_mem_nil sep
      · exact splitOnC_not_mem sep t p hp
    · rw [splitOnC, if_neg hc] at hp
      cases hsp : splitOnC sep t with
      | nil =>
        rw [hsp] at hp
        simp only [List.mem_singleton] at hp
        subst hp
        intro hmem
        rw [List.mem_cons] at hmem
        rcases hmem with he | hmem
        · exact hc he.symm
        · exact List.not_mem_nil sep hmem
      | cons q qs =>
        rw [hsp, List.mem_cons] at hp
        rcases hp with rfl | hp
        · intro hmem
          rw [List.mem_cons] at hmem
          rcases hmem with he | hmem
          · exact hc he.symm
          · exact splitOnC_not_mem sep t q
              (hsp ▸ List.mem_cons_self q qs) hmem
        · exact splitOnC_not_mem sep t p (hsp ▸ List.mem_cons_of_mem q hp)

theorem splitOnC_of_not_mem (sep : Char) :
    ∀ (l : List Char), sep ∉ l → splitOnC sep l = [l]
  | [], _ => rfl
  | c :: t, h => by
    have hc : ¬ c = sep := fun he => h (he ▸ List.mem_cons_self c t)
    have ht : sep ∉ t := fun hm => h (List.mem_cons_of_mem c hm)
    rw [splitOnC, if_neg hc, splitOnC_of_not_mem sep t ht]

theorem splitOnC_append (sep : Char) (r : List Char) :
    ∀ (p : List Char), sep ∉ p →
      splitOnC sep (p ++ sep :: r) = p :: splitOnC sep r
  | [], _ => by
    rw [List.nil_append, splitOnC, if_pos rfl]
  | c :: p', h => by
    have hc : ¬ c = sep := fun he => h (he ▸ List.mem_cons_self c p')
    have hp' : sep ∉ p' := fun hm => h (List.mem_cons_of_mem c hm)
    rw [List.cons_append, splitOnC, if_neg hc,
      splitOnC_append sep r p' hp']

theorem splitOnC_join (sep : Char) :
    ∀ (P : List (List Char)), (∀ p ∈ P, sep ∉ p) → P ≠ [] →
      splitOnC sep (joinC sep P) = P
  | [], _, hne => absurd rfl hne
  | [p], h, _ => by
    rw [joinC, splitOnC_of_not_mem sep p (h p (List.mem_singleton_self p))]
  | p :: q :: rest, h, _ => by
    have h1 : joinC sep (p :: q :: rest) = p ++ sep :: joinC sep (q :: rest) := rfl
    rw [h1, splitOnC_append sep _ p (h p (List.mem_cons_self p _)),
      splitOnC_join sep (q :: rest)
        (fun x hx => h x (List.mem_cons_of_mem p hx)) (by simp)]


theorem filterMap_id_of_NF :
    ∀ (P : List (List Char)), (∀ p ∈ P, p ≠ [] ∧ stripL p = p) →
      (P.filterMap fun l =>
        let x := stripL l
        if x.isEmpty then none else some x) = P
  | [], _ => rfl
  | p :: t, h => by
    have hp := h p (List.mem_cons_self p t)
    have hfp : (if (stripL p).isEmpty then none else some (stripL p)) =
        some p := by
      rw [hp.2, if_neg]
      intro he
      exact hp.1 (List.isEmpty_iff.mp he)
    simp only [List.filterMap_cons, hfp]
    rw [filterMap_id_of_NF t (fun x hx => h x (List.mem_cons_of_mem p hx))]

theorem mLines_mem_NF (s : String) :
    ∀ x ∈ mLines s, x ≠ [] ∧ '\n' ∉ x ∧ stripL x = x := by
  intro x hx
  unfold mLines at hx
  rw [List.mem_filterMap] at hx
  obtain ⟨a, ha, hfa⟩ := hx
  have hfa' : (if (stripL a).isEmpty then none else some (stripL a)) = some x :=
    hfa
  by_cases he : (stripL a).isEmpty = true
  · rw [if_pos he] at hfa'
    exact absurd hfa' (by simp)
  · rw [if_neg he] at hfa'
    have hxa : stripL a = x := by injection hfa'
    subst hxa
    refine ⟨?_, ?_, stripL_idem a⟩
    · intro hnil
      apply he
      rw [hnil]
      rfl
    · intro hmem
      exact splitOnC_not_mem '\n' s.data a ha (mem_stripL hmem)

theorem mem_mLines_of {s : String} {raw : List Char}
    (h1 : raw ∈ splitOnC '\n' s.data) (h2 : stripL raw ≠ []) :
    stripL raw ∈ mLines s := by
  unfold mLines
  rw [List.mem_filterMap]
  refine ⟨raw, h1, ?_⟩
  show (if (stripL raw).isEmpty then none else some (stripL raw)) =
    some (stripL raw)
  rw [if_neg]
  intro he
  exact h2 (List.isEmpty_iff.mp he)

theorem mLines_join :
    ∀ (P : List (List Char)), (∀ p ∈ P, p ≠ [] ∧ '\n' ∉ p ∧ stripL p = p) →
      mLines ⟨joinC '\n' P⟩ = P
  | [], _ => rfl
  | p :: t, h => by
    unfold mLines
    have hd : (⟨joinC '\n' (p :: t)⟩ : String).data = joinC '\n' (p :: t) := rfl
    rw [hd, splitOnC_join '\n' (p :: t) (fun x hx => (h x hx).2.1) (by simp)]
    exact filterMap_id_of_NF (p :: t) (fun x hx => ⟨(h x hx).1, (h x hx).2.2⟩)

theorem mergeStep_subset {acc : List (List Char)} {line x : List Char}
    (h : x ∈ acc) : x ∈ mergeStep acc line := by
  unfold mergeStep
  show x ∈ (if (stripL line).isEmpty || acc.contains (stripL line) then acc
    else if !line_is_valid ⟨stripL line⟩ then acc else acc ++ [stripL line])
  split
  · exact h
  · split
    · exact h
    · exact List.mem_append_left _ h

theorem mergeStep_NF {acc : List (List Char)} {line : List Char}
    (hacc : ∀ y ∈ acc, y ≠ [] ∧ '\n' ∉ y ∧ stripL y = y) (hline : '\n' ∉ line) :
    ∀ y ∈ mergeStep acc line, y ≠ [] ∧ '\n' ∉ y ∧ stripL y = y := by
  intro y hy
  unfold mergeStep at hy
  rw [show (let s := stripL line
      if s.isEmpty || acc.contains s then acc
      else if !line_is_valid ⟨s⟩ then acc else acc ++ [s]) =
      (if (stripL line).isEmpty || acc.contains (stripL line) then acc
        else if !line_is_valid ⟨stripL line⟩ then acc
          else acc ++ [stripL line]) from rfl] at hy
  by_cases h1 : ((stripL line).isEmpty || acc.contains (stripL line)) = true
  · rw [if_pos h1] at hy
    exact hacc y hy
  · rw [if_neg h1] at hy
    by_cases h2 : (!line_is_valid ⟨stripL line⟩) = true
    · rw [if_pos h2] at hy
      exact hacc y hy
    · rw [if_neg h2] at hy
      rcases List.mem_append.mp hy with hmem | hmem
      · exact hacc y hmem
      · rw [List.mem_singleton] at hmem
        subst hmem
        refine ⟨?_, ?_, stripL_idem line⟩
        · intro hnil
          apply h1
          rw [hnil]
          rfl
        · intro hm
          exact hline (mem_stripL hm)

theorem mergeFold_subset :
    ∀ (L : List (List Char)) (acc : List (List Char)) (x : List Char),
      x ∈ acc → x ∈ L.foldl mergeStep acc
  | [], _, _, h => h
  | l :: t, acc, x, h =>
    mergeFold_subset t (mergeStep acc l) x (mergeStep_subset h)

theorem mergeFold_NF :
    ∀ (L : List (List Char)) (acc : List (List Char)),
      (∀ y ∈ acc, y ≠ [] ∧ '\n' ∉ y ∧ stripL y = y) →
      (∀ l ∈ L, '\n' ∉ l) →
      ∀ y ∈ L.foldl mergeStep acc, y ≠ [] ∧ '\n' ∉ y ∧ stripL y = y
  | [], _, hacc, _, y, hy => hacc y hy
  | l :: t, acc, hacc, hL, y, hy =>
    mergeFold_NF t (mergeStep acc l)
      (mergeStep_NF hacc (hL l (List.mem_cons_self l t)))
      (fun z hz => hL z (List.mem_cons_of_mem l hz)) y hy

theorem mergeFold_mem :
    ∀ (L : List (List Char)) (acc : List (List Char)) (l : List Char),
      l ∈ L → stripL l ≠ [] → line_is_valid ⟨stripL l⟩ = true →
      stripL l ∈ L.foldl mergeStep acc
  | [], _, l, h, _, _ => absurd h (List.not_mem_nil l)
  | a :: t, acc, l, hmem, hne, hval => by
    rw [List.mem_cons] at hmem
    rcases hmem with rfl | hmem
    · rw [List.foldl_cons]
      apply mergeFold_subset t (mergeStep acc l) (stripL l)
      unfold mergeStep
      show stripL l ∈
        (if (stripL l).isEmpty || acc.contains (stripL l) then acc
          else if !line_is_valid ⟨stripL l⟩ then acc else acc ++ [stripL l])
      by_cases h1 : ((stripL l).isEmpty || acc.contains (stripL l)) = true
      · rw [if_pos h1]
        rcases Bool.or_eq_true_iff.mp h1 with he | hct
        · exact absurd (List.isEmpty_iff.mp he) hne
        · exact List.elem_iff.mp hct
      · rw [if_neg h1, if_neg (by rw [hval]; simp)]
        exact List.mem_append_right _ (List.mem_singleton_self _)
    · rw [List.foldl_cons]
      exact mergeFold_mem t (mergeStep acc a) l hmem hne hval

theorem mLines_merge_text (b n : String) :
    mLines (merge_text b n) =
      (splitOnC '\n' n.data).foldl mergeStep (mLines b) := by
  rw [merge_text_eq]
  by_cases hn : n = ""
  · rw [if_pos hn, hn]
    rfl
  · rw [if_neg hn]
    apply mLines_join
    intro y hy
    exact mergeFold_NF (splitOnC '\n' n.data) (mLines b) (mLines_mem_NF b)
      (fun l hl => splitOnC_not_mem '\n' n.data l hl) y hy

theorem mLines_merge_text_mono {b : String} (n : String) {x : List Char}
    (h : x ∈ mLines b) : x ∈ mLines (merge_text b n) := by
  rw [mLines_merge_text]
  exact mergeFold_subset _ _ _ h

theorem mLines_merge_text_mem (b : String) {n : String} {raw : List Char}
    (h1 : raw ∈ splitOnC '\n' n.data) (h2 : stripL raw ≠ [])
    (h3 : line_is_valid ⟨stripL raw⟩ = true) :
    stripL raw ∈ mLines (merge_text b n) := by
  rw [mLines_merge_text]
  exact mergeFold_mem _ _ _ h1 h2 h3


/-- The merge fold of `mergeCandidates`, with the threshold and base text
abstracted so that the fold can be reasoned about by induction. -/
def mergeFoldT (T : PyRat) (bt : String) (L : List OcrEntry) : String :=
  L.foldl (fun bt c => if c.score.blt T then bt else merge_text bt c.text) bt

theorem mergeFoldT_mono (T : PyRat) :
    ∀ (L : List OcrEntry) (bt : String) (x : List Char), x ∈ mLines bt →
      x ∈ mLines (mergeFoldT T bt L)
  | [], _, _, h => h
  | c :: t, bt, x, h => by
    have hstep : mergeFoldT T bt (c :: t) =
        mergeFoldT T (if c.score.blt T then bt else merge_text bt c.text) t :=
      rfl
    rw [hstep]
    apply mergeFoldT_mono T t _ x
    by_cases hc : c.score.blt T = true
    · rw [if_pos hc]
      exact h
    · rw [if_neg hc]
      exact mLines_merge_text_mono c.text h

theorem mergeFoldT_mem (T : PyRat) :
    ∀ (L : List OcrEntry) (bt : String) (c : OcrEntry), c ∈ L →
      c.score.blt T = false →
      ∀ raw ∈ splitOnC '\n' c.text.data, stripL raw ≠ [] →
        line_is_valid ⟨stripL raw⟩ = true →
        stripL raw ∈ mLines (mergeFoldT T bt L)
  | [], _, c, h, _ => absurd h (List.not_mem_nil c)
  | a :: t, bt, c, hmem, hcond => by
    intro raw hraw hne hval
    have hstep : mergeFoldT T bt (a :: t) =
        mergeFoldT T (if a.score.blt T then bt else merge_text bt a.text) t :=
      rfl
    rw [hstep]
    rw [List.mem_cons] at hmem
    rcases hmem with rfl | hmem
    · apply mergeFoldT_mono T t _ _
      rw [if_neg (by rw [hcond]; simp)]
      exact mLines_merge_text_mem bt hraw hne hval
    · exact mergeFoldT_mem T t _ c hmem hcond raw hraw hne hval

theorem mergeCandidates_eq (results : List OcrEntry) (b0 : OcrEntry)
    (rest : List OcrEntry) (hs : sortDesc entryGt results = b0 :: rest) :
    mergeCandidates results =
      (if !hasEmail
          (mergeFoldT ((b0.score.sub (pr 18 100)).pmax (pr 25 100)) b0.text
            rest) then
        match (sortDesc entryGt results).find? (fun c => hasEmail c.text) with
        | some c =>
          merge_text
            (mergeFoldT ((b0.score.sub (pr 18 100)).pmax (pr 25 100)) b0.text
              rest) c.text
        | none =>
          mergeFoldT ((b0.score.sub (pr 18 100)).pmax (pr 25 100)) b0.text rest
      else
        mergeFoldT ((b0.score.sub (pr 18 100)).pmax (pr 25 100)) b0.text
          rest) := by
  unfold mergeCandidates
  rw [hs]
  rfl

theorem emailRecover_mono (results : List OcrEntry) (bt1 : String)
    {x : List Char} (h : x ∈ mLines bt1) :
    x ∈ mLines (if !hasEmail bt1 then
      match (sortDesc entryGt results).find? (fun c => hasEmail c.text) with
      | some c => merge_text bt1 c.text
      | none => bt1
    else bt1) := by
  by_cases hb : (!hasEmail bt1) = true
  · rw [if_pos hb]
    cases hf : (sortDesc entryGt results).find? (fun c => hasEmail c.text) with
    | none => exact h
    | some c => exact mLines_merge_text_mono c.text h
  · rw [if_neg hb]
    exact h

/-- Candidate built from the text `"xyzzy qwrtp bcdfg"` (score `0.3088...`,
registered from a psm-6 attempt; the text is a fixpoint of cleaning and
post-processing, so a real run can register exactly this entry). -/
def ceB : OcrEntry :=
  ⟨score_ocr_text "xyzzy qwrtp bcdfg", "xyzzy qwrtp bcdfg", "psm6_string", 0⟩

/-- Candidate built from the text `"aeiou bcd fg!!!!!!!!"` (score `0.217`,
also a cleaning/post-processing fixpoint). -/
def ceC : OcrEntry :=
  ⟨score_ocr_text "aeiou bcd fg!!!!!!!!", "aeiou bcd fg!!!!!!!!",
    "psm6_string", 1⟩

/-- Candidate built from the text `"aeiou bcd fg!!"` (score `0.265`, a
cleaning/post-processing fixpoint). -/
def wC6 : OcrEntry :=
  ⟨score_ocr_text "aeiou bcd fg!!", "aeiou bcd fg!!", "psm6_string", 2⟩

/-- **C6, counterexample.**  The claim says every other candidate whose score
is within `0.18` of the best candidate's score has its valid missing lines
merged into the base text.  The code's threshold is
`max(best_score - 0.18, 0.25)`, so a candidate whose score is within `0.18`
of the best but below `0.25` is skipped: here `ceC` (score `0.217`, within
`0.092` of the best score `0.3088...`, above the registration floor `0.2`,
with a single line that passes `_is_line_valid`) contributes nothing — the
merged output is exactly the best candidate's text and does not contain
`ceC`'s line. -/
theorem C6_counterexample :
    entryGt ceB ceC = true ∧
    (ceB.score.sub ceC.score).ble (pr 18 100) = true ∧
    (pr 2 10).ble ceC.score = true ∧
    stripL "aeiou bcd fg!!!!!!!!".data = "aeiou bcd fg!!!!!!!!".data ∧
    line_is_valid "aeiou bcd fg!!!!!!!!" = true ∧
    mergeCandidates [ceB, ceC] = "xyzzy qwrtp bcdfg" ∧
    "aeiou bcd fg!!!!!!!!".data ∉ mLines (mergeCandidates [ceB, ceC]) := by
  decide

/-- **C6 (amended).**  When the sorted candidate list is `b0 :: rest`, the
merged text's stripped non-empty lines include every stripped non-empty line
of the base candidate `b0`, and, for every other candidate whose score is at
least the code's merge threshold `max(b0.score - 0.18, 0.25)`, every stripped
non-empty line of that candidate that passes `_is_line_valid`; the email
recovery merge never removes lines. -/
theorem C6_amended (results : List OcrEntry) (b0 : OcrEntry)
    (rest : List OcrEntry) (hs : sortDesc entryGt results = b0 :: rest) :
    (∀ raw ∈ splitOnC '\n' b0.text.data, stripL raw ≠ [] →
        stripL raw ∈ mLines (mergeCandidates results)) ∧
    ∀ c ∈ rest,
      c.score.blt ((b0.score.sub (pr 18 100)).pmax (pr 25 100)) = false →
      ∀ raw ∈ splitOnC '\n' c.text.data, stripL raw ≠ [] →
        line_is_valid ⟨stripL raw⟩ = true →
        stripL raw ∈ mLines (mergeCandidates results) := by
  rw [mergeCandidates_eq results b0 rest hs]
  constructor
  · intro raw hraw hne
    apply emailRecover_mono
    apply mergeFoldT_mono
    exact mem_mLines_of hraw hne
  · intro c hc hthr raw hraw hne hval
    apply emailRecover_mono
    exact mergeFoldT_mem _ rest b0.text c hc hthr raw hraw hne hval

/-- `C6_amended` at the concrete candidate list `[ceB, wC6]`: the second
candidate's score `0.265` clears the `0.25` floor, so its valid line is
merged into the output. -/
theorem C6_amended_witness :
    "aeiou bcd fg!!".data ∈ mLines (mergeCandidates [ceB, wC6]) := by
  have h := (C6_amended [ceB, wC6] ceB [wC6] rfl).2 wC6
    (List.mem_singleton_self wC6) (by decide) "aeiou bcd fg!!".data
    (by decide) (by decide) (by decide)
  have hstrip : stripL "aeiou bcd fg!!".data = "aeiou bcd fg!!".data := by
    decide
  rw [hstrip] at h
  exact h


/-! ## C5 and C2: the `scan_image` boundary -/

/-- **C5.**  Any input whose first twelve bytes match either HEIC magic
pattern is rejected before any decoding or OCR: `scan_image` returns
`success = False`, no contact, no raw text, the conversion-instruction
error message, and an empty OCR event trace (no OCR attempt is started). -/
theorem C5_heic_rejected (env : Env) (imageContent : List Nat)
    (h : imageContent.take 12 = heicMagic1 ∨
      imageContent.take 12 = heicMagic2) :
    scan_image env imageContent =
      { success := false, contact := none, rawText := none,
        error := some decodeErrMsg, events := [] } := by
  have hb : (decide (imageContent.take 12 = heicMagic1) ||
      decide (imageContent.take 12 = heicMagic2)) = true := by
    rcases h with h | h <;> simp [h]
  simp only [scan_image]
  rw [if_pos hb]

/-- `C5_heic_rejected` at a concrete HEIC input: the twelve magic bytes
themselves. -/
theorem C5_heic_rejected_witness :
    scan_image envAllOk heicMagic1 =
      { success := false, contact := none, rawText := none,
        error := some decodeErrMsg, events := [] } :=
  C5_heic_rejected envAllOk heicMagic1 (Or.inl (by decide))

/-- **C2.**  `scan_image` always returns a result record; it reports
`success = False` (with the human-readable conversion message, no contact
and no raw text) exactly when the bytes cannot be decoded — a HEIC magic
match or all three decoders failing — and on every successfully decoded
input it reports `success = True` with a contact record and raw text,
whatever the OCR oracles do. -/
theorem C2_decode_boundary (env : Env) (imageContent : List Nat) :
    ((scan_image env imageContent).success = false ↔
      imageContent.take 12 = heicMagic1 ∨ imageContent.take 12 = heicMagic2 ∨
      (env.pilOpen imageContent = none ∧ env.heifOpen imageContent = none ∧
        env.pyheifOpen imageContent = none)) ∧
    ((scan_image env imageContent).success = false →
      (scan_image env imageContent).error = some decodeErrMsg ∧
      (scan_image env imageContent).contact = none ∧
      (scan_image env imageContent).rawText = none) ∧
    ((scan_image env imageContent).success = true →
      (scan_image env imageContent).error = none ∧
      (scan_image env imageContent).contact.isSome = true ∧
      (scan_image env imageContent).rawText.isSome = true) := by
  by_cases hH : (decide (imageContent.take 12 = heicMagic1) ||
      decide (imageContent.take 12 = heicMagic2)) = true
  · have he : scan_image env imageContent =
        { success := false, contact := none, rawText := none,
          error := some decodeErrMsg, events := [] } := by
      simp only [scan_image]
      rw [if_pos hH]
    rw [he]
    simp only [Bool.or_eq_true, decide_eq_true_eq] at hH
    refine ⟨?_, fun _ => ⟨rfl, rfl, rfl⟩, fun hc => by simp at hc⟩
    simp only [true_iff]
    tauto
  · simp only [Bool.or_eq_true, decide_eq_true_eq, not_or] at hH
    obtain ⟨h1, h2⟩ := hH
    have hHb : (decide (imageContent.take 12 = heicMagic1) ||
        decide (imageContent.take 12 = heicMagic2)) = false := by
      simp [h1, h2]
    cases hp : env.pilOpen imageContent with
    | some img =>
      have he : (scan_image env imageContent).success = true ∧
          (scan_image env imageContent).error = none ∧
          (scan_image env imageContent).contact.isSome = true ∧
          (scan_image env imageContent).rawText.isSome = true := by
        simp only [scan_image, decodeChain, hHb, hp]
        exact ⟨rfl, rfl, rfl, rfl⟩
      refine ⟨?_, fun hf => ?_, fun _ => he.2⟩
      · rw [he.1]
        simp [h1, h2, hp]
      · rw [he.1] at hf
        exact absurd hf (by simp)
    | none =>
      cases hh : env.heifOpen imageContent with
      | some img =>
        have he : (scan_image env imageContent).success = true ∧
            (scan_image env imageContent).error = none ∧
            (scan_image env imageContent).contact.isSome = true ∧
            (scan_image env imageContent).rawText.isSome = true := by
          simp only [scan_image, decodeChain, hHb, hp, hh]
          exact ⟨rfl, rfl, rfl, rfl⟩
        refine ⟨?_, fun hf => ?_, fun _ => he.2⟩
        · rw [he.1]
          simp [h1, h2, hh]
        · rw [he.1] at hf
          exact absurd hf (by simp)
      | none =>
        cases hy : env.pyheifOpen imageContent with
        | some img =>
          have he : (scan_image env imageContent).success = true ∧
              (scan_image env imageContent).error = none ∧
              (scan_image env imageContent).contact.isSome = true ∧
              (scan_image env imageContent).rawText.isSome = true := by
            simp only [scan_image, decodeChain, hHb, hp, hh, hy]
            exact ⟨rfl, rfl, rfl, rfl⟩
          refine ⟨?_, fun hf => ?_, fun _ => he.2⟩
          · rw [he.1]
            simp [h1, h2, hy]
          · rw [he.1] at hf
            exact absurd hf (by simp)
        | none =>
          have he : scan_image env imageContent =
              { success := false, contact := none, rawText := none,
                error := some decodeErrMsg, events := [] } := by
            simp only [scan_image, decodeChain, hHb, hp, hh, hy]
            rfl
          rw [he]
          refine ⟨?_, fun _ => ⟨rfl, rfl, rfl⟩, fun hc => by simp at hc⟩
          simp [h1, h2, hp, hh, hy]


/-! ## C4: the rotational fast path -/

/-- The fast-path acceptance test of `scan_image` (source line 155). -/
def fastPathAccepted (simpleText : String) : Bool :=
  (hasEmail simpleText &&
    (pr 45 100).ble (score_ocr_text simpleText)) ||
  (pr 75 100).ble (score_ocr_text simpleText)

/-- Environment for the C4 counterexample: every image decodes, the simple
rotational pass reads a short accepted card, the time budget is already
exhausted when the heavy pipeline starts, and the dpi-280 fallback of the
aggressive pass reads a different text. -/
def envC4 : Env := { envAllOk with
  budget := fun _ => false
  tess := fun _ cfg =>
    if cfg = "--oem 3 --psm 3" then some "Jon Ady\njon@acme.com"
    else some "Karen Millen App Form" }

/-- **C4, counterexample.**  In this run the fast path produces
`"Jon Ady\njon@acme.com"`, which passes the acceptance test (email match and
score `>= 0.45`), so by the claim the scan should terminate with that text
and no further OCR work.  But its stripped length (20) is below 120, so the
aggressive re-pass at source line 184 still runs: the final event trace
contains an aggressive `_generate_processed_images` call followed by another
OCR attempt, and the text handed to the field extractor is the aggressive
pass's output, not the accepted fast-path text. -/
theorem C4_counterexample :
    (simple_rotational_ocr envC4 1 []).1 = "Jon Ady\njon@acme.com" ∧
    post_process_text "Jon Ady\njon@acme.com" = "Jon Ady\njon@acme.com" ∧
    fastPathAccepted "Jon Ady\njon@acme.com" = true ∧
    (pyStrip "Jon Ady\njon@acme.com").data.length < 120 ∧
    (scan_image envC4 [7]).success = true ∧
    (scan_image envC4 [7]).rawText = some "Karen Millen App Form" ∧
    (scan_image envC4 [7]).events.any (fun e => match e with
      | .variantGen true => true
      | _ => false) = true := by
  decide

/-- **C4 (amended).**  For every scan in which the input is not
HEIC-rejected, decodes to some image, and the lightweight rotational
fast path produces non-empty text accepted by the fast-path test
(email match with score `>= 0.45`, or score `>= 0.75`) whose
post-processed, stripped form has at least 120 characters, the scan
terminates with exactly the fast-path result: the accepted text is handed
to the field extractor, and the event trace is exactly the fast-path
stage's own trace — no image-variant generation and no further OCR
attempts occur.  (Accepted texts stripping to fewer than 120 characters
instead trigger the aggressive re-pass, per `C4_counterexample`.) -/
theorem C4_amended (env : Env) (imageContent : List Nat)
    (hH : ¬(imageContent.take 12 = heicMagic1 ∨
      imageContent.take 12 = heicMagic2))
    (img0 : Image)
    (hdec : decodeChain env imageContent = some img0)
    (simpleRaw : String) (ev1 : List OcrEvent)
    (hsimple : simple_rotational_ocr env
        (ensure_minimum_size env
          (correct_orientation env (env.crop (env.toRGB img0)) []).1)
        (correct_orientation env (env.crop (env.toRGB img0)) []).2 =
      (simpleRaw, ev1))
    (hne : simpleRaw ≠ "")
    (hacc : fastPathAccepted (post_process_text simpleRaw) = true)
    (hlen : 120 ≤ (pyStrip (post_process_text simpleRaw)).data.length) :
    scan_image env imageContent =
      { success := true,
        contact := some (parse_contact_info (post_process_text simpleRaw)),
        rawText := some (post_process_text simpleRaw), error := none,
        events := ev1 } := by
  have h1 : ¬(imageContent.take 12 = heicMagic1) := fun h => hH (Or.inl h)
  have h2 : ¬(imageContent.take 12 = heicMagic2) := fun h => hH (Or.inr h)
  have hHb : ¬((decide (imageContent.take 12 = heicMagic1) ||
      decide (imageContent.take 12 = heicMagic2)) = true) := by
    simp [h1, h2]
  have hpp : ¬(post_process_text simpleRaw = "") := by
    intro h0
    rw [h0] at hlen
    simp [pyStrip, stripL] at hlen
  have hacc' : ((hasEmail (post_process_text simpleRaw) &&
      (pr 45 100).ble (score_ocr_text (post_process_text simpleRaw))) ||
      (pr 75 100).ble (score_ocr_text (post_process_text simpleRaw))) =
      true := hacc
  have hlen' : ¬((pyStrip (post_process_text simpleRaw)).data.length < 120) :=
    by omega
  simp only [scan_image]
  rw [if_neg hHb, hdec]
  simp only [hsimple]
  rw [if_pos hne, if_pos hacc', if_neg hpp, if_neg hlen']

/-- The long card text of the C4 witness run. -/
def wRaw4 : String :=
  "Jonathan Smithers\nSenior Account Executive\nAcme Corporation International\njonathan.smithers@acmecorporation.com\n555 Technology Boulevard Suite 400\nSan Francisco California"

/-- Environment for the C4 witness: the simple rotational pass reads
`wRaw4` on every variant. -/
def envW4 : Env := { envAllOk with
  tess := fun _ cfg =>
    if cfg = "--oem 3 --psm 3" then some wRaw4 else some "zzz" }

/-- The event trace of the witness run's fast-path stage: the orientation
probe and the five rotational attempts. -/
def wEvC4 : List OcrEvent :=
  [.attempt "tesseract_osd" "--psm 0" 1,
   .attempt "tesseract" "--oem 3 --psm 3" 301,
   .attempt "tesseract" "--oem 3 --psm 3" 1301,
   .attempt "tesseract" "--oem 3 --psm 3" 2391,
   .attempt "tesseract" "--oem 3 --psm 3" 2481,
   .attempt "tesseract" "--oem 3 --psm 3" 2571]

set_option maxRecDepth 4000 in
/-- `C4_amended` at a concrete run: a long accepted card text (171 stripped
characters) really is returned as scanned, with only the fast-path events. -/
theorem C4_amended_witness :
    scan_image envW4 [8] =
      { success := true,
        contact := some (parse_contact_info (post_process_text wRaw4)),
        rawText := some (post_process_text wRaw4), error := none,
        events := wEvC4 } :=
  C4_amended envW4 [8] (by decide) 1 rfl wRaw4 wEvC4 rfl (by decide)
    (by decide) (by decide)


/-! ## C1: the early-exit property of `_extract_text_with_ocr`

The crux is that the candidate registered by the RapidOCR-first block (whose
stop flag the source discards) can never satisfy the early-exit test, because
cleaning and post-processing only select and re-join (sub)lines: an email
match in the processed text forces one in the raw text, and the raw text was
already tested.  The next block proves that line-selection monotonicity of
the email matcher. -/

theorem space_not_alpha {c : Char} (h : pyIsSpace c = true) :
    pyIsAlpha c = false := by
  simp only [pyIsSpace, Bool.or_eq_true, decide_eq_true_eq] at h
  simp only [pyIsAlpha, Bool.or_eq_false_iff, Bool.and_eq_false_iff,
    decide_eq_false_iff_not, not_le]
  rw [or_assoc, or_assoc, or_assoc, or_assoc] at h
  rcases h with h | h | h | h | h | h <;> omega

theorem space_not_digit {c : Char} (h : pyIsSpace c = true) :
    pyIsDigit c = false := by
  simp only [pyIsSpace, Bool.or_eq_true, decide_eq_true_eq] at h
  simp only [pyIsDigit, Bool.and_eq_false_iff, decide_eq_false_iff_not, not_le]
  rw [or_assoc, or_assoc, or_assoc, or_assoc] at h
  rcases h with h | h | h | h | h | h <;> omega

theorem space_ne_char {c d : Char} (h : pyIsSpace c = true)
    (hd : pyIsSpace d = false) : (c = d) = False := by
  simp only [eq_iff_iff, iff_false]
  intro he
  subst he
  rw [h] at hd
  exact Bool.noConfusion hd

theorem space_not_local {c : Char} (h : pyIsSpace c = true) :
    emailLocalC c = false := by
  simp only [emailLocalC, space_not_alpha h, space_not_digit h,
    space_ne_char h (show pyIsSpace '.' = false by decide),
    space_ne_char h (show pyIsSpace '_' = false by decide),
    space_ne_char h (show pyIsSpace '%' = false by decide),
    space_ne_char h (show pyIsSpace '+' = false by decide),
    space_ne_char h (show pyIsSpace '-' = false by decide)]
  rfl

theorem space_not_dom {c : Char} (h : pyIsSpace c = true) :
    emailDomC c = false := by
  simp only [emailDomC, space_not_alpha h, space_not_digit h,
    space_ne_char h (show pyIsSpace '.' = false by decide),
    space_ne_char h (show pyIsSpace '-' = false by decide)]
  rfl

theorem space_not_tld {c : Char} (h : pyIsSpace c = true) :
    emailTldC c = false := by
  simp only [emailTldC, space_not_alpha h,
    space_ne_char h (show pyIsSpace '|' = false by decide)]
  rfl

theorem space_not_word {c : Char} (h : pyIsSpace c = true) :
    isWordC c = false := by
  simp only [isWordC, space_not_alpha h, space_not_digit h,
    space_ne_char h (show pyIsSpace '_' = false by decide)]
  rfl

theorem space_ne_at {c : Char} (h : pyIsSpace c = true) : (c = '@') = False :=
  space_ne_char h (by decide)

/-- `takeRun` splits its input. -/
theorem takeRun_fst_append_snd (p : Char → Bool) :
    ∀ l : List Char, (takeRun p l).1 ++ (takeRun p l).2 = l
  | [] => rfl
  | c :: t => by
    simp only [takeRun]
    split
    · simp only [List.cons_append, List.cons.injEq, true_and]
      exact takeRun_fst_append_snd p t
    · rfl

/-- The remainder of a `takeRun` starts with a failing character. -/
theorem takeRun_rest_head (p : Char → Bool) :
    ∀ (l : List Char) (c : Char), (takeRun p l).2.head? = some c →
      p c = false
  | [], c, h => by simp [takeRun] at h
  | a :: t, c, h => by
    by_cases ha : p a = true
    · rw [show takeRun p (a :: t) = (a :: (takeRun p t).1, (takeRun p t).2)
        from by simp [takeRun, ha]] at h
      exact takeRun_rest_head p t c h
    · rw [show takeRun p (a :: t) = ([], a :: t)
        from by simp [takeRun, ha]] at h
      simp only [List.head?_cons, Option.some.injEq] at h
      rw [← h]
      exact Bool.not_eq_true (p a) |>.mp ha

/-- Appending past a failing head does not change a `takeRun`. -/
theorem takeRun_append (p : Char → Bool) (b : List Char)
    (hb : ∀ hd, b.head? = some hd → p hd = false) :
    ∀ a : List Char,
      takeRun p (a ++ b) = ((takeRun p a).1, (takeRun p a).2 ++ b)
  | [] => by
    cases b with
    | nil => rfl
    | cons hd t =>
      simp only [takeRun, List.nil_append]
      rw [if_neg]
      simp [hb hd rfl]
  | c :: a' => by
    by_cases hc : p c = true
    · simp only [List.cons_append, takeRun, hc, if_true, List.append_eq,
        takeRun_append p b hb a']
    · simp only [List.cons_append, takeRun, hc, Bool.false_eq_true, if_false,
        List.append_eq]


/-- `tldGo` only looks at the word-character bit of `afterRun`. -/
theorem tldGo_congr (run : List Char) (a a' : Option Char)
    (h : (a.map isWordC).getD false = (a'.map isWordC).getD false) :
    ∀ n, tldGo run a n = tldGo run a' n
  | 0 => rfl
  | 1 => rfl
  | m + 2 => by
    have ih := tldGo_congr run a a' h (m + 1)
    simp only [tldGo]
    split
    · exact ih
    · cases hg : run.get? (m + 2 - 1) with
      | none => rfl
      | some last =>
        have hb : boundaryB (some last)
            (if m + 2 = run.length then a else run.get? (m + 2)) =
            boundaryB (some last)
              (if m + 2 = run.length then a' else run.get? (m + 2)) := by
          by_cases hl : m + 2 = run.length
          · rw [if_pos hl, if_pos hl]
            simp only [boundaryB, h]
          · rw [if_neg hl, if_neg hl]
        simp only [hb]
        split <;> rw [ih]

/-- Extending the post-domain remainder past a whitespace head changes
nothing in the domain/TLD backtracking. -/
theorem domTry_append (drun v : List Char)
    (hv : ∀ hd, v.head? = some hd → pyIsSpace hd = true) (rest3 : List Char) :
    ∀ j, domTry drun (rest3 ++ v) j = domTry drun rest3 j
  | 0 => rfl
  | j + 1 => by
    have ih := domTry_append drun v hv rest3 j
    simp only [domTry]
    split
    · rw [show drun.drop (j + 2) ++ (rest3 ++ v) =
        (drun.drop (j + 2) ++ rest3) ++ v from (List.append_assoc _ _ _).symm]
      rw [takeRun_append emailTldC v
        (fun hd hh => space_not_tld (hv hd hh)) (drun.drop (j + 2) ++ rest3)]
      have htld : tldGo (takeRun emailTldC (drun.drop (j + 2) ++ rest3)).1
          ((takeRun emailTldC (drun.drop (j + 2) ++ rest3)).2 ++ v).head?
          (takeRun emailTldC (drun.drop (j + 2) ++ rest3)).1.length =
          tldGo (takeRun emailTldC (drun.drop (j + 2) ++ rest3)).1
            (takeRun emailTldC (drun.drop (j + 2) ++ rest3)).2.head?
            (takeRun emailTldC (drun.drop (j + 2) ++ rest3)).1.length := by
        cases hR2 : (takeRun emailTldC (drun.drop (j + 2) ++ rest3)).2 with
        | nil =>
          simp only [List.nil_append]
          apply tldGo_congr
          cases hv0 : v with
          | nil => rfl
          | cons hd t' =>
            have := hv hd (by rw [hv0]; rfl)
            simp [space_not_word this]
        | cons x xs => simp [List.cons_append]
      rw [htld]
      cases htl : tldGo (takeRun emailTldC (drun.drop (j + 2) ++ rest3)).1
          (takeRun emailTldC (drun.drop (j + 2) ++ rest3)).2.head?
          (takeRun emailTldC (drun.drop (j + 2) ++ rest3)).1.length with
      | some m => rfl
      | none => exact ih
    · exact ih

/-- `emailTryAt` only looks at the word-character bit of `prev`. -/
theorem emailTryAt_congr_prev (p p' : Option Char)
    (h : (p.map isWordC).getD false = (p'.map isWordC).getD false) :
    ∀ l, emailTryAt p l = emailTryAt p' l := by
  intro l
  cases l with
  | nil => rfl
  | cons c t => simp only [emailTryAt, boundaryB, h]

/-- No email match can start at a whitespace character. -/
theorem emailTryAt_space_head (p : Option Char) {c : Char} (t : List Char)
    (hc : pyIsSpace c = true) : emailTryAt p (c :: t) = none := by
  simp only [emailTryAt]
  split
  · rw [show takeRun emailLocalC (c :: t) = ([], c :: t) from by
      simp [takeRun, space_not_local hc]]
    rfl
  · rfl


/-- Appending text past a whitespace head never changes the outcome of an
email-match attempt. -/
theorem emailTryAt_append (p : Option Char) (v : List Char)
    (hv : ∀ hd, v.head? = some hd → pyIsSpace hd = true) :
    ∀ w, emailTryAt p (w ++ v) = emailTryAt p w
  | [] => by
    cases hv0 : v with
    | nil => rfl
    | cons hd t' =>
      rw [List.nil_append, emailTryAt_space_head p t' (hv hd (by rw [hv0]; rfl))]
      rfl
  | c :: w' => by
    simp only [List.cons_append, emailTryAt]
    split
    · rw [show c :: (w' ++ v) = (c :: w') ++ v from rfl,
        takeRun_append emailLocalC v
          (fun hd hh => space_not_local (hv hd hh)) (c :: w')]
      simp only
      split
      · rfl
      · cases hrest : (takeRun emailLocalC (c :: w')).2 with
        | nil =>
          cases hv0 : v with
          | nil => rfl
          | cons hd t' =>
            simp only [List.nil_append]
            split
            next heq =>
              exfalso
              cases heq
              exact absurd (hv '@' (by rw [hv0]; rfl)) (by decide)
            next => rfl
        | cons x xs =>
          by_cases hx : x = '@'
          · subst hx
            simp only [List.cons_append]
            rw [takeRun_append emailDomC v
              (fun hd hh => space_not_dom (hv hd hh)) xs]
            simp only
            rw [domTry_append (takeRun emailDomC xs).1 v hv
              (takeRun emailDomC xs).2]
          · split
            next heq =>
              exfalso
              rw [List.cons_append] at heq
              cases heq
              exact hx rfl
            next =>
              split
              next heq =>
                exfalso
                cases heq
                exact hx rfl
              next => rfl
    · rfl


/-- `emailScan` only looks at the word-character bit of its initial
previous-character. -/
theorem emailScan_congr_prev (p p' : Option Char)
    (h : (p.map isWordC).getD false = (p'.map isWordC).getD false) :
    ∀ l, emailScan p l = emailScan p' l := by
  intro l
  cases l with
  | nil => rfl
  | cons c t => simp only [emailScan, emailTryAt_congr_prev p p' h]

/-- A match survives appending past a whitespace head. -/
theorem emailScan_append (p : Option Char) (v : List Char)
    (hv : ∀ hd, v.head? = some hd → pyIsSpace hd = true) :
    ∀ w, (emailScan p w).isSome = true → (emailScan p (w ++ v)).isSome = true
  | [], h => absurd h (by simp [emailScan])
  | c :: w', h => by
    have htry : emailTryAt p (c :: (w' ++ v)) = emailTryAt p (c :: w') :=
      emailTryAt_append p v hv (c :: w')
    rw [List.cons_append]
    simp only [emailScan, htry] at h ⊢
    cases ht : emailTryAt p (c :: w') with
    | some len => simp
    | none =>
      rw [ht] at h
      simp only [Option.isSome_map'] at h ⊢
      exact emailScan_append (some c) v hv w' h

/-- A match survives prefixing, provided the effective previous-character
word-bit at the junction point is the same. -/
theorem emailScan_prepend (q : Option Char) (w : List Char) :
    ∀ (A : List Char) (p : Option Char),
      (A.getLast?.map isWordC).getD ((p.map isWordC).getD false) =
        (q.map isWordC).getD false →
      (emailScan q w).isSome = true →
      (emailScan p (A ++ w)).isSome = true
  | [], p, heff, h => by
    rw [List.nil_append,
      emailScan_congr_prev p q (by simpa using heff) w]
    exact h
  | a :: A', p, heff, h => by
    rw [List.cons_append]
    simp only [emailScan]
    cases ht : emailTryAt p (a :: (A' ++ w)) with
    | some len => simp
    | none =>
      simp only [Option.isSome_map']
      apply emailScan_prepend q w A' (some a) ?_ h
      cases hA : A' with
      | nil =>
        rw [hA] at heff
        simpa using heff
      | cons b B =>
        rw [hA] at heff
        rw [List.getLast?_cons_cons] at heff
        simpa using heff

/-- The effective previous character after consuming `w`. -/
def lastPrev (w : List Char) (p : Option Char) : Option Char :=
  match w.getLast? with
  | some c => some c
  | none => p

/-- A match in `w ++ v` (with whitespace at the junction) lies in `w` or
in `v`. -/
theorem emailScan_split (v : List Char)
    (hv : ∀ hd, v.head? = some hd → pyIsSpace hd = true) :
    ∀ (w : List Char) (p : Option Char),
      (emailScan p (w ++ v)).isSome = true →
      (emailScan p w).isSome = true ∨
        (emailScan (lastPrev w p) v).isSome = true
  | [], p, h => Or.inr (by rw [List.nil_append] at h; exact h)
  | c :: w', p, h => by
    rw [List.cons_append] at h
    simp only [emailScan] at h ⊢
    have htry : emailTryAt p (c :: (w' ++ v)) = emailTryAt p (c :: w') :=
      emailTryAt_append p v hv (c :: w')
    rw [htry] at h
    cases ht : emailTryAt p (c :: w') with
    | some len => exact Or.inl (by simp)
    | none =>
      rw [ht] at h
      simp only [Option.isSome_map'] at h
      rcases emailScan_split v hv w' (some c) h with hl | hr
      · exact Or.inl (by simpa using hl)
      · refine Or.inr ?_
        rw [show lastPrev (c :: w') p = lastPrev w' (some c) from by
          cases w' with
          | nil => simp [lastPrev]
          | cons x xs =>
            simp only [lastPrev, List.getLast?_cons_cons]
            cases hg : (x :: xs).getLast? with
            | some y => rfl
            | none => simp at hg]
        exact hr

/-- No email in pure whitespace. -/
theorem emailScan_allSpace (l : List Char)
    (hl : ∀ c ∈ l, pyIsSpace c = true) : ∀ p, emailScan p l = none := by
  induction l with
  | nil => intro p; rfl
  | cons c t ih =>
    intro p
    simp only [emailScan,
      emailTryAt_space_head p t (hl c (List.mem_cons_self c t)),
      ih (fun x hx => hl x (List.mem_cons_of_mem c hx)), Option.map_none']

/-- A match in a string yields a match in one of its separator-split
pieces, for any whitespace separator. -/
theorem emailScan_piece (sep : Char) (hsep : pyIsSpace sep = true) :
    ∀ (n : Nat) (l : List Char), l.length ≤ n → ∀ (p : Option Char),
      (p.map isWordC).getD false = false →
      (emailScan p l).isSome = true →
      ∃ x ∈ splitOnC sep l, (emailScan none x).isSome = true
  | 0, l, hn, p, hp, h => by
    have : l = [] := List.length_eq_zero.mp (Nat.le_zero.mp hn)
    subst this
    simp [emailScan] at h
  | n + 1, l, hn, p, hp, h => by
    have hld : l.takeWhile (fun c => !(c = sep)) ++
        l.dropWhile (fun c => !(c = sep)) = l :=
      List.takeWhile_append_dropWhile _ _
    have hw : sep ∉ l.takeWhile (fun c => !(c = sep)) := by
      intro hm
      have := List.mem_takeWhile_imp hm
      simp at this
    cases hr : l.dropWhile (fun c => !(c = sep)) with
    | nil =>
      have hl : l.takeWhile (fun c => !(c = sep)) = l := by
        rw [hr] at hld
        simpa using hld
      refine ⟨l, ?_, ?_⟩
      · rw [splitOnC_of_not_mem sep l (hl ▸ hw)]
        exact List.mem_singleton_self l
      · rw [emailScan_congr_prev none p (by simpa using hp.symm) l]
        exact h
    | cons hd r' =>
      have hhd : hd = sep := by
        have := dropWhile_head?_false (fun c => !(c = sep)) l hd
          (by rw [hr]; rfl)
        simpa using this
      rw [hhd] at hr
      have hle : l = l.takeWhile (fun c => !(c = sep)) ++ sep :: r' := by
        rw [← hr, hld]
      have hsplit := emailScan_split (sep :: r')
        (fun c hc => by
          simp only [List.head?_cons, Option.some.injEq] at hc
          rw [← hc]
          exact hsep)
        (l.takeWhile (fun c => !(c = sep))) p
        (by rw [← hle]; exact h)
      have hpieces : splitOnC sep l =
          l.takeWhile (fun c => !(c = sep)) :: splitOnC sep r' := by
        conv_lhs => rw [hle]
        exact splitOnC_append sep r' _ hw
      rcases hsplit with hl | hrr
      · refine ⟨l.takeWhile (fun c => !(c = sep)), ?_, ?_⟩
        · rw [hpieces]
          exact List.mem_cons_self _ _
        · rw [emailScan_congr_prev none p (by simpa using hp.symm) _]
          exact hl
      · have h2 : (emailScan (some sep) r').isSome = true := by
          simp only [emailScan, emailTryAt_space_head _ r' hsep,
            Option.isSome_map'] at hrr
          exact hrr
        have hlen : r'.length ≤ n := by
          have hlen2 : l.length =
              (l.takeWhile (fun c => !(c = sep))).length + (r'.length + 1) := by
            conv_lhs => rw [hle]
            rw [List.length_append]
            simp
          omega
        rcases emailScan_piece sep hsep n r' hlen (some sep)
          (by simp [space_not_word hsep]) h2 with ⟨x, hx1, hx2⟩
        exact ⟨x, by rw [hpieces]; exact List.mem_cons_of_mem _ hx1, hx2⟩


def hasEmailL (l : List Char) : Bool := (emailScan none l).isSome

theorem splitOnC_ne_nil (sep : Char) : ∀ l, splitOnC sep l ≠ []
  | [] => by simp [splitOnC]
  | c :: t => by
    rw [splitOnC]
    split
    · simp
    · cases hsp : splitOnC sep t <;> simp

/-- Splitting on a separator and re-joining is the identity. -/
theorem joinC_splitOnC (sep : Char) :
    ∀ l : List Char, joinC sep (splitOnC sep l) = l
  | [] => rfl
  | c :: t => by
    by_cases hc : c = sep
    · rw [hc, splitOnC, if_pos rfl]
      cases hsp : splitOnC sep t with
      | nil => exact absurd hsp (splitOnC_ne_nil sep t)
      | cons p ps =>
        rw [show joinC sep ([] :: p :: ps) = [] ++ sep :: joinC sep (p :: ps)
          from rfl, List.nil_append, ← hsp, joinC_splitOnC sep t]
    · rw [splitOnC, if_neg hc]
      cases hsp : splitOnC sep t with
      | nil => exact absurd hsp (splitOnC_ne_nil sep t)
      | cons p ps =>
        cases ps with
        | nil =>
          have ht := joinC_splitOnC sep t
          rw [hsp, show joinC sep [p] = p from rfl] at ht
          rw [show joinC sep [c :: p] = c :: p from rfl, ht]
        | cons p2 ps2 =>
          have ht := joinC_splitOnC sep t
          rw [hsp, show joinC sep (p :: p2 :: ps2) =
            p ++ sep :: joinC sep (p2 :: ps2) from rfl] at ht
          rw [show joinC sep ((c :: p) :: p2 :: ps2) =
            (c :: p) ++ sep :: joinC sep (p2 :: ps2) from rfl,
            List.cons_append, ht]

/-- A string strips to leading whitespace, its strip, trailing whitespace. -/
theorem stripL_decomp (l : List Char) :
    ∃ u v, l = u ++ stripL l ++ v ∧ (∀ c ∈ u, pyIsSpace c = true) ∧
      ∀ c ∈ v, pyIsSpace c = true := by
  refine ⟨l.takeWhile pyIsSpace,
    ((l.dropWhile pyIsSpace).reverse.takeWhile pyIsSpace).reverse, ?_, ?_, ?_⟩
  · have hmid : l.dropWhile pyIsSpace = stripL l ++
        ((l.dropWhile pyIsSpace).reverse.takeWhile pyIsSpace).reverse := by
      conv_lhs => rw [← List.reverse_reverse (l.dropWhile pyIsSpace)]
      conv_lhs =>
        rw [← List.takeWhile_append_dropWhile pyIsSpace
          (l.dropWhile pyIsSpace).reverse]
      rw [List.reverse_append]
      rfl
    conv_lhs => rw [← List.takeWhile_append_dropWhile pyIsSpace l]
    conv_lhs => rw [hmid]
    rw [List.append_assoc]
  · exact fun c hc => List.mem_takeWhile_imp hc
  · intro c hc
    rw [List.mem_reverse] at hc
    exact List.mem_takeWhile_imp hc

/-- An email in a stripped string is an email in the string. -/
theorem hasEmailL_of_stripL {l : List Char}
    (h : hasEmailL (stripL l) = true) : hasEmailL l = true := by
  obtain ⟨u, v, hdec, hu, hv⟩ := stripL_decomp l
  unfold hasEmailL at h ⊢
  rw [hdec, List.append_assoc]
  apply emailScan_prepend none (stripL l ++ v) u none ?_ ?_
  · cases hg : u.getLast? with
    | none => simp
    | some a =>
      have ha : a ∈ u := List.mem_of_getLast?_eq_some hg
      simp [space_not_word (hu a ha)]
  · exact emailScan_append none v
      (fun hd hh => hv hd (List.mem_of_mem_head? (by rw [hh]; rfl)))
      (stripL l) h

/-- An email in one joined piece is an email in the joined string. -/
theorem hasEmailL_join_of_piece (sep : Char) (hsep : pyIsSpace sep = true) :
    ∀ (P : List (List Char)) (x : List Char), x ∈ P → hasEmailL x = true →
      hasEmailL (joinC sep P) = true
  | [], x, hx, _ => absurd hx (List.not_mem_nil x)
  | [q], x, hx, h => by
    rw [List.mem_singleton] at hx
    subst hx
    exact h
  | q :: q2 :: rest, x, hx, h => by
    rw [List.mem_cons] at hx
    unfold hasEmailL at h ⊢
    rw [show joinC sep (q :: q2 :: rest) = q ++ sep :: joinC sep (q2 :: rest)
      from rfl]
    rcases hx with rfl | hx
    · exact emailScan_append none (sep :: joinC sep (q2 :: rest))
        (fun hd hh => by
          simp only [List.head?_cons, Option.some.injEq] at hh
          rw [← hh]
          exact hsep) x h
    · have hr := hasEmailL_join_of_piece sep hsep (q2 :: rest) x hx h
      rw [show q ++ sep :: joinC sep (q2 :: rest) =
        (q ++ [sep]) ++ joinC sep (q2 :: rest) from by simp]
      apply emailScan_prepend none _ (q ++ [sep]) none ?_ hr
      rw [List.getLast?_concat]
      simp [space_not_word hsep]

/-- An email in one line of a string is an email in the string. -/
theorem hasEmail_of_line {s : String} {raw : List Char}
    (hraw : raw ∈ splitOnC '\n' s.data) (h : hasEmailL raw = true) :
    hasEmail s = true := by
  have hj := hasEmailL_join_of_piece '\n' (by decide)
    (splitOnC '\n' s.data) raw hraw h
  rw [joinC_splitOnC] at hj
  exact hj

/-- An email in a string is an email in one of its lines. -/
theorem hasEmail_to_line {s : String} (h : hasEmail s = true) :
    ∃ x ∈ splitOnC '\n' s.data, hasEmailL x = true :=
  emailScan_piece '\n' (by decide) s.data.length s.data (le_refl _) none rfl h


/-- Characters of a join come from the separator or the pieces. -/
theorem mem_joinC {c sep : Char} :
    ∀ (P : List (List Char)), c ∈ joinC sep P → c = sep ∨ ∃ p ∈ P, c ∈ p
  | [], h => absurd h (List.not_mem_nil c)
  | [q], h => Or.inr ⟨q, List.mem_singleton_self q, h⟩
  | q :: q2 :: rest, h => by
    rw [show joinC sep (q :: q2 :: rest) = q ++ sep :: joinC sep (q2 :: rest)
      from rfl] at h
    rcases List.mem_append.mp h with h1 | h2
    · exact Or.inr ⟨q, List.mem_cons_self _ _, h1⟩
    · rcases List.mem_cons.mp h2 with rfl | h3
      · exact Or.inl rfl
      · rcases mem_joinC (q2 :: rest) h3 with h4 | ⟨p, hp1, hp2⟩
        · exact Or.inl h4
        · exact Or.inr ⟨p, List.mem_cons_of_mem _ hp1, hp2⟩

theorem length_dropWhile_le (p : Char → Bool) :
    ∀ l : List Char, (l.dropWhile p).length ≤ l.length
  | [] => le_refl _
  | c :: t => by
    rw [List.dropWhile_cons]
    split
    · exact le_trans (length_dropWhile_le p t) (Nat.le_succ _)
    · exact le_refl _

/-- A non-empty strip starts with a non-space character. -/
theorem stripL_head_not_space {l : List Char} {c : Char}
    (h : (stripL l).head? = some c) : pyIsSpace c = false := by
  by_contra hcon
  rw [Bool.not_eq_false] at hcon
  have hidem := stripL_idem l
  cases hx : stripL l with
  | nil =>
    rw [hx] at h
    exact Option.noConfusion h
  | cons c0 rest =>
    rw [hx] at h
    simp only [List.head?_cons, Option.some.injEq] at h
    rw [← h] at hcon
    have h1 : (stripL (c0 :: rest)).length ≤
        (List.dropWhile pyIsSpace (c0 :: rest)).length := by
      unfold stripL
      rw [List.length_reverse]
      calc (List.dropWhile pyIsSpace
            (List.dropWhile pyIsSpace (c0 :: rest)).reverse).length
          ≤ (List.dropWhile pyIsSpace (c0 :: rest)).reverse.length :=
            length_dropWhile_le _ _
        _ = (List.dropWhile pyIsSpace (c0 :: rest)).length :=
            List.length_reverse _
    have h2 : (List.dropWhile pyIsSpace (c0 :: rest)).length <
        (c0 :: rest).length := by
      rw [List.dropWhile_cons, if_pos hcon]
      exact lt_of_le_of_lt (length_dropWhile_le _ _) (by simp)
    have h3 : stripL (c0 :: rest) = c0 :: rest := by
      rw [← hx]
      rw [hx] at hidem
      exact hx ▸ hidem
    rw [h3] at h1
    omega

theorem splitWsL_ne_nil {l : List Char} (hne : l ≠ [])
    (hhd : ∀ c, l.head? = some c → pyIsSpace c = false) : splitWsL l ≠ [] := by
  cases l with
  | nil => exact absurd rfl hne
  | cons c t => simp [splitWsL, splitWsAux, hhd c rfl]

theorem joinC_ne_nil {sep : Char} {t0 : List Char} (h : t0 ≠ [])
    (ts : List (List Char)) : joinC sep (t0 :: ts) ≠ [] := by
  cases ts with
  | nil => exact h
  | cons t1 tr =>
    rw [show joinC sep (t0 :: t1 :: tr) = t0 ++ sep :: joinC sep (t1 :: tr)
      from rfl]
    simp

/-- A whitespace-split token sits in its string between whitespace (or the
ends). -/
theorem splitWsAux_decomp :
    ∀ (fuel : Nat) (l tok : List Char), tok ∈ splitWsAux fuel l →
      ∃ A B, l = A ++ tok ++ B ∧
        (A = [] ∨ ∃ a, A.getLast? = some a ∧ pyIsSpace a = true) ∧
        (B = [] ∨ ∃ b, B.head? = some b ∧ pyIsSpace b = true)
  | 0, _, tok, h => absurd h (by simp [splitWsAux])
  | _ + 1, [], tok, h => absurd h (by simp [splitWsAux])
  | fuel + 1, c :: t, tok, h => by
    rw [splitWsAux] at h
    by_cases hc : pyIsSpace c = true
    · rw [if_pos hc] at h
      obtain ⟨A, B, hdec, hA, hB⟩ := splitWsAux_decomp fuel t tok h
      refine ⟨c :: A, B, ?_, Or.inr ?_, hB⟩
      · rw [hdec]
        simp
      · cases hA with
        | inl h0 =>
          subst h0
          exact ⟨c, rfl, hc⟩
        | inr h1 =>
          obtain ⟨a, ha1, ha2⟩ := h1
          refine ⟨a, ?_, ha2⟩
          cases A with
          | nil => exact Option.noConfusion ha1
          | cons x xs => rw [List.getLast?_cons_cons]; exact ha1
    · rw [if_neg hc] at h
      rw [List.mem_cons] at h
      rcases h with rfl | h
      · refine ⟨[], (takeRun (fun ch => !pyIsSpace ch) t).2, ?_, Or.inl rfl,
          ?_⟩
        · rw [List.nil_append, List.cons_append,
            takeRun_fst_append_snd]
        · cases hr2 : (takeRun (fun ch => !pyIsSpace ch) t).2 with
          | nil => exact Or.inl rfl
          | cons b bs =>
            refine Or.inr ⟨b, rfl, ?_⟩
            have hrh := takeRun_rest_head (fun ch => !pyIsSpace ch) t b
              (by rw [hr2]; rfl)
            simpa using hrh
      · obtain ⟨A, B, hdec, hA, hB⟩ := splitWsAux_decomp fuel
          (takeRun (fun ch => !pyIsSpace ch) t).2 tok h
        refine ⟨c :: ((takeRun (fun ch => !pyIsSpace ch) t).1 ++ A), B, ?_,
          Or.inr ?_, hB⟩
        · conv_lhs => rw [show c :: t =
            c :: ((takeRun (fun ch => !pyIsSpace ch) t).1 ++
              (takeRun (fun ch => !pyIsSpace ch) t).2) from by
            rw [takeRun_fst_append_snd]]
          rw [hdec]
          simp
        · cases hA with
          | inr h1 =>
            obtain ⟨a, ha1, ha2⟩ := h1
            refine ⟨a, ?_, ha2⟩
            cases hAe : A with
            | nil =>
              rw [hAe] at ha1
              exact Option.noConfusion ha1
            | cons x xs =>
              rw [hAe] at ha1
              rw [show c :: ((takeRun (fun ch => !pyIsSpace ch) t).1 ++
                  x :: xs) =
                  (c :: (takeRun (fun ch => !pyIsSpace ch) t).1) ++ (x :: xs)
                from by simp, List.getLast?_append, ha1]
              rfl
          | inl h0 =>
            exfalso
            subst h0
            obtain ⟨hne, hsf⟩ := splitWsAux_spaceFree fuel
              (takeRun (fun ch => !pyIsSpace ch) t).2 tok h
            cases htok : tok with
            | nil => exact hne htok
            | cons tc tt =>
              have hhead : (takeRun (fun ch => !pyIsSpace ch) t).2.head? =
                  some tc := by
                rw [hdec, htok]
                simp
              have hrh := takeRun_rest_head (fun ch => !pyIsSpace ch) t tc
                hhead
              have h2 : pyIsSpace tc = true := by simpa using hrh
              have h3 := hsf tc (by
                rw [htok]
                exact List.mem_cons_self tc tt)
              rw [h2] at h3
              exact Bool.noConfusion h3

/-- An email in one whitespace token is an email in the string. -/
theorem hasEmailL_of_token {l tok : List Char} (htok : tok ∈ splitWsL l)
    (h : hasEmailL tok = true) : hasEmailL l = true := by
  obtain ⟨A, B, hdec, hA, hB⟩ := splitWsAux_decomp l.length l tok htok
  unfold hasEmailL at h ⊢
  rw [hdec, List.append_assoc]
  apply emailScan_prepend none (tok ++ B) A none ?_ ?_
  · cases hA with
    | inl h0 =>
      subst h0
      simp
    | inr h1 =>
      obtain ⟨a, ha1, ha2⟩ := h1
      rw [ha1]
      simp [space_not_word ha2]
  · apply emailScan_append none B ?_ tok h
    intro hd hh
    cases hB with
    | inl h0 =>
      subst h0
      exact Option.noConfusion hh
    | inr h1 =>
      obtain ⟨b, hb1, hb2⟩ := h1
      rw [hb1] at hh
      injection hh with hbd
      rw [← hbd]
      exact hb2


/-- An email in a whitespace-normalized line (`' '.join(line.split())`) is an
email in the line. -/
theorem hasEmailL_of_normalized {l : List Char}
    (h : hasEmailL (joinC ' ' (splitWsL l)) = true) : hasEmailL l = true := by
  rcases emailScan_piece ' ' (by decide) (joinC ' ' (splitWsL l)).length
      (joinC ' ' (splitWsL l)) (le_refl _) none rfl h with ⟨x, hx1, hx2⟩
  cases hT : splitWsL l with
  | nil =>
    rw [hT] at hx1
    rw [show splitOnC ' ' (joinC ' ' ([] : List (List Char))) = [[]] from rfl]
      at hx1
    rw [List.mem_singleton] at hx1
    subst hx1
    exact absurd hx2 (by decide)
  | cons t0 ts =>
    rw [hT] at hx1
    rw [splitOnC_join ' ' (t0 :: ts) ?_ (by simp)] at hx1
    · exact hasEmailL_of_token (l := l) (by rw [hT]; exact hx1) hx2
    · intro p hp hmem
      have hsf := (splitWsAux_spaceFree l.length l p
        (by rw [show splitWsAux l.length l = splitWsL l from rfl, hT]
            exact hp)).2 ' ' hmem
      exact absurd hsf (by decide)

/-- An email in a join of stripped lines of `t` is an email in `t`. -/
theorem hasEmail_of_joined_strips {t : String} (L : List (List Char))
    (hL : ∀ p ∈ L, p ≠ [] ∧ ∃ raw ∈ splitOnC '\n' t.data, p = stripL raw)
    (h : hasEmail (⟨joinC '\n' L⟩ : String) = true) : hasEmail t = true := by
  rcases hasEmail_to_line h with ⟨x, hx1, hx2⟩
  rw [show (⟨joinC '\n' L⟩ : String).data = joinC '\n' L from rfl] at hx1
  cases hLc : L with
  | nil =>
    rw [hLc] at hx1
    rw [show splitOnC '\n' (joinC '\n' ([] : List (List Char))) = [[]]
      from rfl] at hx1
    rw [List.mem_singleton] at hx1
    subst hx1
    exact absurd hx2 (by decide)
  | cons q qs =>
    rw [hLc] at hx1
    rw [splitOnC_join '\n' (q :: qs) ?_ (by simp)] at hx1
    · obtain ⟨hne, raw, hraw, hps⟩ := hL x (hLc ▸ hx1)
      subst hps
      exact hasEmail_of_line hraw (hasEmailL_of_stripL hx2)
    · intro p hp hmem
      obtain ⟨hne, raw, hraw, hps⟩ := hL p (hLc ▸ hp)
      subst hps
      exact splitOnC_not_mem '\n' t.data raw hraw (mem_stripL hmem)

/-- An email in a join of whitespace-normalized stripped lines of `t` is an
email in `t`. -/
theorem hasEmail_of_joined_normalized {t : String} (L : List (List Char))
    (hL : ∀ p ∈ L, p ≠ [] ∧ ∃ raw ∈ splitOnC '\n' t.data,
      p = joinC ' ' (splitWsL (stripL raw)))
    (h : hasEmail (⟨joinC '\n' L⟩ : String) = true) : hasEmail t = true := by
  rcases hasEmail_to_line h with ⟨x, hx1, hx2⟩
  rw [show (⟨joinC '\n' L⟩ : String).data = joinC '\n' L from rfl] at hx1
  cases hLc : L with
  | nil =>
    rw [hLc] at hx1
    rw [show splitOnC '\n' (joinC '\n' ([] : List (List Char))) = [[]]
      from rfl] at hx1
    rw [List.mem_singleton] at hx1
    subst hx1
    exact absurd hx2 (by decide)
  | cons q qs =>
    rw [hLc] at hx1
    rw [splitOnC_join '\n' (q :: qs) ?_ (by simp)] at hx1
    · obtain ⟨hne, raw, hraw, hps⟩ := hL x (hLc ▸ hx1)
      subst hps
      exact hasEmail_of_line hraw
        (hasEmailL_of_stripL (hasEmailL_of_normalized hx2))
    · intro p hp hmem
      obtain ⟨hne, raw, hraw, hps⟩ := hL p (hLc ▸ hp)
      subst hps
      rcases mem_joinC _ hmem with h1 | ⟨tk, htk1, htk2⟩
      · exact absurd h1 (by decide)
      · have hsf := (splitWsAux_spaceFree (stripL raw).length (stripL raw)
          tk htk1).2 '\n' htk2
        exact absurd hsf (by decide)

/-- An email in `_clean_ocr_text`'s output is an email in its input. -/
theorem hasEmail_clean {t : String}
    (h : hasEmail (clean_ocr_text t) = true) : hasEmail t = true := by
  by_cases ht : t = ""
  · rw [ht] at h
    exact absurd h (by decide)
  · rw [show clean_ocr_text t = ⟨joinC '\n'
      ((splitOnC '\n' t.data).filterMap fun line =>
        let l := stripL line
        if l.isEmpty then none else some (joinC ' ' (splitWsL l)))⟩ from by
      rw [clean_ocr_text, if_neg ht]] at h
    apply hasEmail_of_joined_normalized _ ?_ h
    intro p hp
    rw [List.mem_filterMap] at hp
    obtain ⟨raw, hraw, hpf⟩ := hp
    have hpf' : (if (stripL raw).isEmpty then none
        else some (joinC ' ' (splitWsL (stripL raw)))) = some p := hpf
    by_cases he : (stripL raw).isEmpty = true
    · rw [if_pos he] at hpf'
      exact Option.noConfusion hpf'
    · rw [if_neg he] at hpf'
      injection hpf' with hpf2
      subst hpf2
      refine ⟨?_, raw, hraw, rfl⟩
      have hsne : stripL raw ≠ [] := fun h0 => he (by rw [h0]; rfl)
      have htne : splitWsL (stripL raw) ≠ [] :=
        splitWsL_ne_nil hsne (fun c hc => stripL_head_not_space hc)
      cases hTk : splitWsL (stripL raw) with
      | nil => exact absurd hTk htne
      | cons t0 ts =>
        have ht0 := (splitWsAux_spaceFree (stripL raw).length (stripL raw) t0
          (by rw [show splitWsAux (stripL raw).length (stripL raw) =
              splitWsL (stripL raw) from rfl, hTk]
              exact List.mem_cons_self t0 ts)).1
        exact joinC_ne_nil ht0 ts

/-- An email in `_post_process_text`'s output is an email in its input. -/
theorem hasEmail_post {t : String}
    (h : hasEmail (post_process_text t) = true) : hasEmail t = true := by
  by_cases ht : t = ""
  · rw [ht] at h
    exact absurd h (by decide)
  · have hfb : ∀ p ∈ (splitOnC '\n' t.data).filterMap (fun line =>
        let s := stripL line
        if s.isEmpty then none else some s),
        p ≠ [] ∧ ∃ raw ∈ splitOnC '\n' t.data, p = stripL raw := by
      intro p hp
      rw [List.mem_filterMap] at hp
      obtain ⟨raw, hraw, hpf⟩ := hp
      have hpf' : (if (stripL raw).isEmpty then none
          else some (stripL raw)) = some p := hpf
      by_cases he : (stripL raw).isEmpty = true
      · rw [if_pos he] at hpf'
        exact Option.noConfusion hpf'
      · rw [if_neg he] at hpf'
        injection hpf' with hpf2
        subst hpf2
        exact ⟨fun h0 => he (by rw [h0]; rfl), raw, hraw, rfl⟩
    have hpp : ∃ L, post_process_text t = (⟨joinC '\n' L⟩ : String) ∧
        ∀ p ∈ L, p ≠ [] ∧ ∃ raw ∈ splitOnC '\n' t.data, p = stripL raw := by
      simp only [post_process_text]
      rw [if_neg ht]
      split
      · exact ⟨_, rfl, fun p hp => hfb p (List.mem_of_mem_filter hp)⟩
      · exact ⟨_, rfl, hfb⟩
    obtain ⟨L, hL1, hL2⟩ := hpp
    rw [hL1] at h
    exact hasEmail_of_joined_strips L hL2 h


/-! ### Event-trace predicates for C1 -/

/-- The early-exit test of `register_text`: score `>= 0.9` and an email. -/
def qualifies (e : OcrEntry) : Bool :=
  (pr 9 10).ble e.score && hasEmail e.text

def evQualReg : OcrEvent → Bool
  | .register e => qualifies e
  | _ => false

def evAttempt : OcrEvent → Bool
  | .attempt _ _ _ => true
  | _ => false

def noAttempts (l : List OcrEvent) : Bool := l.all fun e => !evAttempt e

def noQual (l : List OcrEvent) : Bool := l.all fun e => !evQualReg e

/-- After every qualifying registration in the trace, no OCR attempt is
ever started. -/
def cleanTrace : List OcrEvent → Bool
  | [] => true
  | e :: t => (if evQualReg e then noAttempts t else true) && cleanTrace t

theorem noQual_append {a b : List OcrEvent} :
    noQual (a ++ b) = (noQual a && noQual b) := List.all_append

theorem cleanTrace_of_noQual :
    ∀ {l : List OcrEvent}, noQual l = true → cleanTrace l = true
  | [], _ => rfl
  | e :: t, h => by
    rw [noQual, List.all_cons, Bool.and_eq_true] at h
    rw [cleanTrace, if_neg ?_, Bool.true_and]
    · exact cleanTrace_of_noQual h.2
    · intro hq
      rw [hq] at h
      exact Bool.noConfusion h.1

theorem cleanTrace_append_noQual {a b : List OcrEvent} (ha : noQual a = true)
    (hb : cleanTrace b = true) : cleanTrace (a ++ b) = true := by
  induction a with
  | nil => exact hb
  | cons e t ih =>
    rw [noQual, List.all_cons, Bool.and_eq_true] at ha
    rw [List.cons_append, cleanTrace, if_neg ?_, Bool.true_and]
    · exact ih ha.2
    · intro hq
      rw [hq] at ha
      exact Bool.noConfusion ha.1

theorem cleanTrace_append_register {a : List OcrEvent} (e : OcrEntry)
    (ha : noQual a = true) : cleanTrace (a ++ [.register e]) = true := by
  apply cleanTrace_append_noQual ha
  rw [cleanTrace]
  split <;> rfl

theorem noQual_append_attempt {a : List OcrEvent} (ha : noQual a = true)
    (eng cfg : String) (img : Image) :
    noQual (a ++ [.attempt eng cfg img]) = true := by
  rw [noQual_append, ha]
  rfl

theorem noQual_append_register {a : List OcrEvent} (ha : noQual a = true)
    {e : OcrEntry} (he : qualifies e = false) :
    noQual (a ++ [.register e]) = true := by
  rw [noQual_append, ha]
  simp [noQual, evQualReg, he]

/-- The processed text a registration stores for raw input `text`. -/
def processedOf (text : String) : String :=
  if post_process_text (clean_ocr_text text) ≠ ""
  then post_process_text (clean_ocr_text text) else clean_ocr_text text

/-- An email in the processed text forces one in the raw text. -/
theorem hasEmail_processedOf {text : String}
    (h : hasEmail (processedOf text) = true) : hasEmail text = true := by
  unfold processedOf at h
  split at h
  · exact hasEmail_clean (hasEmail_post h)
  · exact hasEmail_clean h

/-- `registerText` either leaves the state unchanged with a `false` flag, or
appends exactly one register event and one result entry whose flag equals
the entry's early-exit test. -/
theorem registerText_spec (s : OcrSt) (text source : String) (variant : Int)
    (baseScore : Option PyRat)
    (hbs : ∀ q, baseScore = some q → 0 < q.den) :
    registerText s text source variant baseScore = (false, s) ∨
    ∃ e : OcrEntry,
      (registerText s text source variant baseScore).1 = qualifies e ∧
      (registerText s text source variant baseScore).2.events =
        s.events ++ [.register e] ∧
      (registerText s text source variant baseScore).2.results =
        s.results ++ [e] ∧
      0 < e.score.den ∧
      e.score = baseScore.getD (score_ocr_text (processedOf text)) ∧
      e.text = processedOf text := by
  simp only [registerText]
  by_cases h1 : text = ""
  · rw [if_pos h1]
    exact Or.inl rfl
  · rw [if_neg h1]
    rw [show (if post_process_text (clean_ocr_text text) ≠ ""
        then post_process_text (clean_ocr_text text)
        else clean_ocr_text text) = processedOf text from rfl]
    by_cases h2 : (processedOf text = "" ||
        s.seen.contains (processedOf text)) = true
    · rw [if_pos h2]
      exact Or.inl rfl
    · rw [if_neg h2]
      by_cases h3 : (baseScore.getD
          (score_ocr_text (processedOf text))).blt (pr 2 10) = true
      · rw [if_pos h3]
        exact Or.inl rfl
      · rw [if_neg h3]
        refine Or.inr ⟨⟨baseScore.getD (score_ocr_text (processedOf text)),
          processedOf text, source, variant⟩, rfl, rfl, rfl, ?_, rfl, rfl⟩
        cases hb : baseScore with
        | none => exact (score_ocr_text_nonneg (processedOf text)).1
        | some q => exact hbs q hb

/-- The registration made by the RapidOCR-first block never qualifies for
early exit: either the raw score is below 0.55 (hence below 0.9), or the
raw text has no email, and then the processed text cannot have one. -/
theorem rapidRegister_not_qual (s : OcrSt) (rt : String)
    (hguard : ((pr 55 100).ble (score_ocr_text rt) && hasEmail rt) = false) :
    (registerText s rt "rapidocr" (-1) (some (score_ocr_text rt))).1 =
      false := by
  rcases registerText_spec s rt "rapidocr" (-1) (some (score_ocr_text rt))
      (fun q hq => by
        injection hq with hq
        rw [← hq]
        exact (score_ocr_text_nonneg rt).1) with h | ⟨e, h1, _, _, _, h5, h6⟩
  · rw [h]
  · rw [h1]
    unfold qualifies
    rw [h5, h6]
    cases hb : (pr 55 100).ble (score_ocr_text rt) with
    | false =>
      have h9 : (pr 9 10).ble ((some (score_ocr_text rt)).getD
          (score_ocr_text (processedOf rt))) = false := by
        rw [show (some (score_ocr_text rt)).getD
          (score_ocr_text (processedOf rt)) = score_ocr_text rt from rfl]
        cases h9b : (pr 9 10).ble (score_ocr_text rt) with
        | false => rfl
        | true =>
          exfalso
          have hq9 := (PyRat.ble_iff (pr_pos 9 (by norm_num))
            (score_ocr_text_nonneg rt).1).mp h9b
          have h55 : (pr 55 100).toQ ≤ (pr 9 10).toQ := by
            show (55 : ℚ) / 100 ≤ (9 : ℚ) / 10
            norm_num
          have := (PyRat.ble_iff (pr_pos 55 (by norm_num))
            (score_ocr_text_nonneg rt).1).mpr (le_trans h55 hq9)
          rw [hb] at this
          exact Bool.noConfusion this
      rw [h9, Bool.false_and]
    | true =>
      rw [hb, Bool.true_and] at hguard
      have hpe : hasEmail (processedOf rt) = false := by
        cases hpb : hasEmail (processedOf rt) with
        | false => rfl
        | true =>
          rw [hasEmail_processedOf hpb] at hguard
          exact Bool.noConfusion hguard
      rw [hpe, Bool.and_false]



/-! ### Well-formed (positive) denominators through the pipeline -/

theorem foldl_add_pos :
    ∀ (l : List PyRat) (acc : PyRat), acc.Pos → (∀ x ∈ l, x.Pos) →
      (l.foldl PyRat.add acc).Pos
  | [], _, ha, _ => ha
  | x :: t, acc, ha, hl =>
    foldl_add_pos t (acc.add x)
      (PyRat.Pos.add ha (hl x (List.mem_cons_self x t)))
      fun y hy => hl y (List.mem_cons_of_mem x hy)

theorem sumPR_pos (l : List PyRat) (hl : ∀ x ∈ l, x.Pos) : (sumPR l).Pos :=
  foldl_add_pos l (pr 0 1) (pr_pos 0 Int.zero_lt_one) hl

theorem itemsOf_conf_pos (d : OcrData) : ∀ it ∈ itemsOf d, it.2.2.Pos := by
  intro it hit
  unfold itemsOf at hit
  rw [List.mem_filterMap] at hit
  obtain ⟨p, hp, hf⟩ := hit
  have hf' : (if pyStrip p.2 = "" then none
      else if (match d.conf.get? p.1 with
        | some (some c) => c.val
        | some none => pr (-1) 1
        | none => pr (-1) 1).blt (pr 55 1) then none
      else some ((((d.blockNum.get? p.1).getD 0, (d.parNum.get? p.1).getD 0,
        (d.lineNum.get? p.1).getD (p.1 : Int)) : Int × Int × Int),
        pyStrip p.2,
        (match d.conf.get? p.1 with
        | some (some c) => c.val
        | some none => pr (-1) 1
        | none => pr (-1) 1))) = some it := hf
  by_cases h1 : pyStrip p.2 = ""
  · rw [if_pos h1] at hf'
    exact Option.noConfusion hf'
  · rw [if_neg h1] at hf'
    by_cases h2 : (match d.conf.get? p.1 with
        | some (some c) => c.val
        | some none => pr (-1) 1
        | none => pr (-1) 1).blt (pr 55 1) = true
    · rw [if_pos h2] at hf'
      exact Option.noConfusion hf'
    · rw [if_neg h2] at hf'
      injection hf' with hf2
      rw [← hf2]
      show (match d.conf.get? p.1 with
        | some (some c) => c.val
        | some none => pr (-1) 1
        | none => pr (-1) 1).Pos
      cases hc : d.conf.get? p.1 with
      | none => exact Int.zero_lt_one
      | some oc =>
        cases oc with
        | none => exact Int.zero_lt_one
        | some c => exact c.pos

theorem lineOf_pos (items : List ((Int × Int × Int) × String × PyRat))
    (hitems : ∀ it ∈ items, it.2.2.Pos) (k : Int × Int × Int)
    (pair : String × PyRat) (h : lineOf items k = some pair) :
    pair.2.Pos := by
  unfold lineOf at h
  have hconfs : ∀ x ∈ items.filterMap (fun it =>
      if it.1 = k then some it.2.2 else none), x.Pos := by
    intro x hx
    rw [List.mem_filterMap] at hx
    obtain ⟨it, hit, hitf⟩ := hx
    by_cases hk : it.1 = k
    · rw [if_pos hk] at hitf
      injection hitf with hitf
      rw [← hitf]
      exact hitems it hit
    · rw [if_neg hk] at hitf
      exact Option.noConfusion hitf
  by_cases h1 : clean_ocr_text ⟨joinC ' ' ((items.filterMap fun it =>
      if it.1 = k then some it.2.1 else none).map String.data)⟩ = ""
  · rw [if_pos h1] at h
    exact Option.noConfusion h
  · rw [if_neg h1] at h
    by_cases h2 : (!line_is_valid (clean_ocr_text ⟨joinC ' '
        ((items.filterMap fun it =>
          if it.1 = k then some it.2.1 else none).map String.data)⟩) &&
        ((sumPR (items.filterMap fun it =>
          if it.1 = k then some it.2.2 else none)).divNat
          (max (items.filterMap fun it =>
            if it.1 = k then some it.2.2 else none).length 1)).blt
          (pr 70 1)) = true
    · rw [if_pos h2] at h
      exact Option.noConfusion h
    · rw [if_neg h2] at h
      injection h with h
      rw [← h]
      exact PyRat.Pos.divNat (sumPR_pos _ hconfs) (by positivity)

theorem extractTextFromData_pos (env : Env) (img : Image) (cfg : String) :
    (extractTextFromData env img cfg).2.Pos := by
  cases hd : env.tessData img cfg with
  | none =>
    simp only [extractTextFromData, hd]
    exact Int.zero_lt_one
  | some d =>
    simp only [extractTextFromData, hd]
    split
    · exact Int.zero_lt_one
    · split
      · exact Int.zero_lt_one
      · apply PyRat.Pos.divNat ?_ (by positivity)
        apply sumPR_pos
        intro x hx
        rw [List.mem_map] at hx
        obtain ⟨pair, hpair, hsnd⟩ := hx
        rw [List.mem_filterMap] at hpair
        obtain ⟨k, hk, hkf⟩ := hpair
        rw [← hsnd]
        exact lineOf_pos (itemsOf d) (itemsOf_conf_pos d) k pair hkf

/-- The combined score of a data-based registration. -/
theorem combined_pos (env : Env) (img : Image) (cfg : String) (t : String) :
    0 < ((score_ocr_text t).pmax
      (((extractTextFromData env img cfg).2.divNat 100).add (pr 1 10))).den :=
  PyRat.Pos.pmax (score_ocr_text_nonneg t).1
    (PyRat.Pos.add
      (PyRat.Pos.divNat (extractTextFromData_pos env img cfg) (by norm_num))
      (pr_pos 1 (by norm_num)))


/-! ### Loop invariants -/

/-- Pre-state invariant: clean trace, no qualifying registration yet, all
registered scores well-formed. -/
def StClean (s : OcrSt) : Prop :=
  noQual s.events = true ∧ ∀ e ∈ s.results, 0 < e.score.den

/-- Post-state property of every loop: the trace is clean, scores are
well-formed, a `false` stop flag means still no qualifying registration,
and a `true` stop flag exhibits a qualifying candidate. -/
def LoopOK (out : Bool × OcrSt) : Prop :=
  cleanTrace out.2.events = true ∧
  (∀ e ∈ out.2.results, 0 < e.score.den) ∧
  (out.1 = false → noQual out.2.events = true) ∧
  (out.1 = true → ∃ e ∈ out.2.results, qualifies e = true)

theorem LoopOK_false {s : OcrSt} (hs : StClean s) : LoopOK (false, s) :=
  ⟨cleanTrace_of_noQual hs.1, hs.2, fun _ => hs.1,
    fun h => Bool.noConfusion h⟩

theorem StClean_of_LoopOK {out : Bool × OcrSt} (h : LoopOK out)
    (hf : out.1 = false) : StClean out.2 :=
  ⟨h.2.2.1 hf, h.2.1⟩

theorem StClean_budget {env : Env} {s : OcrSt} (hs : StClean s) :
    StClean (withinBudget env s).2 := hs

theorem StClean_attempt {s : OcrSt} (hs : StClean s) (eng cfg : String)
    (img : Image) :
    StClean { s with events := s.events ++ [.attempt eng cfg img] } :=
  ⟨noQual_append_attempt hs.1 eng cfg img, hs.2⟩

theorem registerText_step (s : OcrSt) (text source : String) (variant : Int)
    (baseScore : Option PyRat) (hbs : ∀ q, baseScore = some q → 0 < q.den)
    (hs : StClean s) :
    LoopOK (registerText s text source variant baseScore) := by
  obtain ⟨hq, hpos⟩ := hs
  rcases registerText_spec s text source variant baseScore hbs with
    h | ⟨e, h1, h2, h3, h4, _, _⟩
  · rw [h]
    exact LoopOK_false ⟨hq, hpos⟩
  · refine ⟨?_, ?_, ?_, ?_⟩
    · rw [h2]
      exact cleanTrace_append_register e hq
    · rw [h3]
      intro x hx
      rcases List.mem_append.mp hx with hx | hx
      · exact hpos x hx
      · rw [List.mem_singleton] at hx
        subst hx
        exact h4
    · intro hf
      rw [h2]
      apply noQual_append_register hq
      rw [← h1]
      exact hf
    · intro ht
      refine ⟨e, ?_, ?_⟩
      · rw [h3]
        exact List.mem_append_right _ (List.mem_singleton_self e)
      · rw [← h1]
        exact ht

theorem LoopOK_stop {out : Bool × OcrSt} (h : LoopOK out)
    (ht : out.1 = true) : LoopOK (true, out.2) :=
  ⟨h.1, h.2.1, fun hc => Bool.noConfusion hc, fun _ => h.2.2.2 ht⟩

theorem bool_false_of_not_true {b : Bool} (h : ¬(b = true)) : b = false := by
  cases b
  · rfl
  · exact absurd rfl h

theorem innerSecondaryLoop_spec (env : Env) (img : Image) (idx : Int) :
    ∀ (cfgs : List (String × String)) (s : OcrSt), StClean s →
      LoopOK (innerSecondaryLoop env img idx cfgs s)
  | [], s, hs => LoopOK_false hs
  | (cname, cfg) :: rest, s, hs => by
    simp only [innerSecondaryLoop]
    by_cases hb : (withinBudget env s).1 = true
    · rw [if_neg (by rw [hb]; decide)]
      cases ht : env.tess img cfg with
      | none =>
        exact innerSecondaryLoop_spec env img idx rest _
          (StClean_attempt (StClean_budget hs) _ _ _)
      | some rawText =>
        simp only []
        have hreg := registerText_step
          { (withinBudget env s).2 with events :=
              (withinBudget env s).2.events ++ [.attempt "tesseract" cfg img] }
          rawText (cname ++ "_string") idx none
          (fun q hq => Option.noConfusion hq)
          (StClean_attempt (StClean_budget hs) _ _ _)
        by_cases hrs : (registerText
            { events := (withinBudget env s).2.events ++
                [OcrEvent.attempt "tesseract" cfg img],
              results := (withinBudget env s).2.results,
              seen := (withinBudget env s).2.seen,
              best := (withinBudget env s).2.best,
              budgetCount := (withinBudget env s).2.budgetCount }
            rawText (cname ++ "_string") idx none).1 = true
        · rw [if_pos hrs]
          exact LoopOK_stop hreg hrs
        · rw [if_neg hrs]
          exact innerSecondaryLoop_spec env img idx rest _
            (StClean_of_LoopOK hreg (bool_false_of_not_true hrs))
    · rw [if_pos (by rw [bool_false_of_not_true hb]; rfl)]
      exact LoopOK_false (StClean_budget hs)

theorem outerSecondaryLoop_spec (env : Env) :
    ∀ (l : List (Int × Image)) (s : OcrSt), StClean s →
      LoopOK (outerSecondaryLoop env l s)
  | [], s, hs => LoopOK_false hs
  | (idx, img) :: rest, s, hs => by
    simp only [outerSecondaryLoop]
    by_cases hb : (withinBudget env s).1 = true
    · rw [if_neg (by rw [hb]; decide)]
      have hin := innerSecondaryLoop_spec env img idx secondaryConfigs
        (withinBudget env s).2 (@StClean_budget env s hs)
      by_cases hrs : (innerSecondaryLoop env img idx secondaryConfigs
          (withinBudget env s).2).1 = true
      · rw [if_pos hrs]
        exact LoopOK_stop hin hrs
      · rw [if_neg hrs]
        exact outerSecondaryLoop_spec env rest _
          (StClean_of_LoopOK hin (bool_false_of_not_true hrs))
    · rw [if_pos (by rw [bool_false_of_not_true hb]; rfl)]
      exact LoopOK_false (StClean_budget hs)


theorem innerPrimaryLoop_spec (env : Env) (img : Image) (idx : Int) :
    ∀ (cfgs : List (String × String)) (s : OcrSt), StClean s →
      LoopOK (innerPrimaryLoop env img idx cfgs s)
  | [], s, hs => LoopOK_false hs
  | (cname, cfg) :: rest, s, hs => by
    simp only [innerPrimaryLoop]
    split
    · exact LoopOK_false (StClean_budget hs)
    · split
      · exact innerPrimaryLoop_spec env img idx rest _
          (StClean_attempt (StClean_budget hs) _ _ _)
      · next rawText ht =>
        have hreg := registerText_step
          { (withinBudget env s).2 with events :=
              (withinBudget env s).2.events ++ [.attempt "tesseract" cfg img] }
          rawText (cname ++ "_string") idx none
          (fun q hq => Option.noConfusion hq)
          (StClean_attempt (StClean_budget hs) _ _ _)
        split
        · next hrs => exact LoopOK_stop hreg hrs
        · next hrs =>
          have hrs' := bool_false_of_not_true (by exact hrs)
          have hs2 : StClean (withinBudget env (registerText
              { (withinBudget env s).2 with events :=
                  (withinBudget env s).2.events ++
                    [.attempt "tesseract" cfg img] }
              rawText (cname ++ "_string") idx none).2).2 :=
            @StClean_of_LoopOK (registerText
              { (withinBudget env s).2 with events :=
                  (withinBudget env s).2.events ++
                    [.attempt "tesseract" cfg img] }
              rawText (cname ++ "_string") idx none) hreg hrs'
          split
          · split
            · next hdt =>
              have hreg2 := registerText_step
                { (withinBudget env (registerText
                    { (withinBudget env s).2 with events :=
                        (withinBudget env s).2.events ++
                          [.attempt "tesseract" cfg img] }
                    rawText (cname ++ "_string") idx none).2).2 with
                  events :=
                    (withinBudget env (registerText
                      { (withinBudget env s).2 with events :=
                          (withinBudget env s).2.events ++
                            [.attempt "tesseract" cfg img] }
                      rawText (cname ++ "_string") idx none).2).2.events ++
                      [.attempt "tesseract_data" cfg img] }
                (extractTextFromData env img cfg).1 (cname ++ "_data") idx
                (some ((score_ocr_text (extractTextFromData env img cfg).1).pmax
                  (((extractTextFromData env img cfg).2.divNat 100).add
                    (pr 1 10))))
                (fun q hq => by
                  injection hq with hq
                  rw [← hq]
                  exact combined_pos env img cfg _)
                (StClean_attempt hs2 "tesseract_data" cfg img)
              split
              · next hrs2 => exact LoopOK_stop hreg2 hrs2
              · next hrs2 =>
                exact innerPrimaryLoop_spec env img idx rest _
                  (StClean_of_LoopOK hreg2 (bool_false_of_not_true hrs2))
            · next hdt =>
              exact innerPrimaryLoop_spec env img idx rest _
                (StClean_attempt hs2 "tesseract_data" cfg img)
          · exact innerPrimaryLoop_spec env img idx rest _ hs2

theorem outerPrimaryLoop_spec (env : Env) :
    ∀ (l : List (Int × Image)) (s : OcrSt), StClean s →
      LoopOK (outerPrimaryLoop env l s)
  | [], s, hs => LoopOK_false hs
  | (idx, img) :: rest, s, hs => by
    simp only [outerPrimaryLoop]
    split
    · exact LoopOK_false (StClean_budget hs)
    · have hin := innerPrimaryLoop_spec env img idx primaryConfigs
        (withinBudget env s).2 (@StClean_budget env s hs)
      split
      · next hrs => exact LoopOK_stop hin hrs
      · next hrs =>
        exact outerPrimaryLoop_spec env rest _
          (StClean_of_LoopOK hin (bool_false_of_not_true hrs))

/-! ### Stage-level invariants for the full extraction -/

theorem easyocrFallback_StClean (env : Env) (s : OcrSt) (image : Image)
    (hs : StClean s) : StClean (easyocrFallback env s image).2 := by
  simp only [easyocrFallback]
  split
  · exact hs
  · cases env.easyRead image
    · exact StClean_attempt hs "easyocr" "" image
    · exact StClean_attempt hs "easyocr" "" image

theorem rapidocrFallback_StClean (env : Env) (s : OcrSt) (image : Image)
    (hs : StClean s) : StClean (rapidocrFallback env s image).2 := by
  simp only [rapidocrFallback]
  split
  · exact hs
  · cases env.rapidRead image with
    | none => exact StClean_attempt hs "rapidocr" "" image
    | some result =>
      cases result with
      | nil => exact StClean_attempt hs "rapidocr" "" image
      | cons r rs => exact StClean_attempt hs "rapidocr" "" image

theorem rapidFirstStage_StClean (env : Env) (originalImage : Image)
    (s : OcrSt) (hs : StClean s) :
    StClean (rapidFirstStage env originalImage s).2 := by
  simp only [rapidFirstStage]
  split
  · split
    · have hfb := rapidocrFallback_StClean env (withinBudget env s).2
        originalImage (@StClean_budget env s hs)
      split
      · split
        · exact hfb
        · next hguard =>
          have hreg := registerText_step
            (rapidocrFallback env (withinBudget env s).2 originalImage).2
            (rapidocrFallback env (withinBudget env s).2 originalImage).1
            "rapidocr" (-1)
            (some (score_ocr_text
              (rapidocrFallback env (withinBudget env s).2 originalImage).1))
            (fun q hq => by
              injection hq with hq
              rw [← hq]
              exact (score_ocr_text_nonneg _).1)
            hfb
          have hnq := rapidRegister_not_qual
            (rapidocrFallback env (withinBudget env s).2 originalImage).2
            (rapidocrFallback env (withinBudget env s).2 originalImage).1
            (bool_false_of_not_true hguard)
          exact StClean_of_LoopOK hreg hnq
      · exact hfb
    · exact @StClean_budget env s hs
  · exact hs

theorem noResultsTail_StClean (env : Env) (originalImage : Image)
    (s : OcrSt) (hs : StClean s) :
    StClean (noResultsTail env originalImage s).2 := by
  simp only [noResultsTail]
  by_cases ha : env.rapidAvailable = true
  · have h1 := rapidocrFallback_StClean env s originalImage hs
    rw [if_pos ha]
    by_cases hr : (rapidocrFallback env s originalImage).1 ≠ ""
    · rw [if_pos hr]
      exact h1
    · rw [if_neg hr]
      cases env.tess originalImage "--oem 3 --psm 6 --dpi 280" <;>
        exact StClean_attempt h1 "tesseract" "--oem 3 --psm 6 --dpi 280"
          originalImage
  · rw [if_neg ha]
    cases env.tess originalImage "--oem 3 --psm 6 --dpi 280" <;>
      exact StClean_attempt hs "tesseract" "--oem 3 --psm 6 --dpi 280"
        originalImage

theorem noResultsFallback_StClean (env : Env) (originalImage : Image)
    (s : OcrSt) (hs : StClean s) :
    StClean (noResultsFallback env originalImage s).2 := by
  simp only [noResultsFallback]
  have h1 : StClean
      (easyocrFallback env (withinBudget env s).2 originalImage).2 :=
    easyocrFallback_StClean env (withinBudget env s).2 originalImage
      (@StClean_budget env s hs)
  by_cases hb : (withinBudget env s).1 = true
  · rw [if_pos hb]
    by_cases he : (easyocrFallback env (withinBudget env s).2
        originalImage).1 ≠ ""
    · rw [if_pos he]
      by_cases he2 : strOr
          (post_process_text
            (easyocrFallback env (withinBudget env s).2 originalImage).1)
          (easyocrFallback env (withinBudget env s).2 originalImage).1 ≠ ""
      · rw [if_pos he2]
        exact h1
      · rw [if_neg he2]
        exact noResultsTail_StClean env originalImage _ h1
    · rw [if_neg he]
      exact noResultsTail_StClean env originalImage _ h1
  · rw [if_neg hb]
    exact noResultsTail_StClean env originalImage _ (@StClean_budget env s hs)

theorem easyImproveStage_StClean (env : Env) (originalImage : Image)
    (bestText : String) (bestScore : PyRat) (s : OcrSt) (hs : StClean s) :
    StClean (easyImproveStage env originalImage bestText bestScore s).2.2 := by
  simp only [easyImproveStage]
  have h1 := easyocrFallback_StClean env (withinBudget env s).2 originalImage
    (@StClean_budget env s hs)
  split
  · split
    · split
      · split
        · exact h1
        · split
          · exact h1
          · exact h1
      · exact h1
    · exact h1
  · exact @StClean_budget env s hs

theorem rapidImproveStage_StClean (env : Env) (originalImage : Image)
    (bestText : String) (bestScore : PyRat) (s : OcrSt) (hs : StClean s) :
    StClean
      (rapidImproveStage env originalImage bestText bestScore s).2.2 := by
  simp only [rapidImproveStage]
  split
  · have h1 := rapidocrFallback_StClean env (withinBudget env s).2
      originalImage (@StClean_budget env s hs)
    split
    · split
      · split
        · exact h1
        · split
          · exact h1
          · exact h1
      · exact h1
    · exact @StClean_budget env s hs
  · exact hs

theorem easyImproveStage_of_high (env : Env) (originalImage : Image)
    (bestText : String) (bestScore : PyRat) (s : OcrSt)
    (hb : bestScore.blt (pr 5 10) = false) :
    easyImproveStage env originalImage bestText bestScore s =
      (bestText, bestScore, (withinBudget env s).2) := by
  simp only [easyImproveStage]
  rw [if_neg (show
      ¬(((withinBudget env s).1 && bestScore.blt (pr 5 10)) = true) from by
    rw [hb, Bool.and_false]
    exact fun h => Bool.noConfusion h)]

theorem rapidImproveStage_events_of_high (env : Env) (originalImage : Image)
    (bestText : String) (bestScore : PyRat) (s : OcrSt)
    (hb : bestScore.blt (pr 5 10) = false) :
    (rapidImproveStage env originalImage bestText bestScore s).2.2.events =
      s.events := by
  simp only [rapidImproveStage]
  split
  · rw [if_neg (show
        ¬(((withinBudget env s).1 && bestScore.blt (pr 5 10)) = true) from by
      rw [hb, Bool.and_false]
      exact fun h => Bool.noConfusion h)]
    rfl
  · rfl

/-! ### The best candidate after sorting dominates all scores -/

theorem insertDesc_ne_nil {gt : α → α → Bool} {x : α} :
    ∀ l : List α, insertDesc gt x l ≠ []
  | [] => by simp [insertDesc]
  | y :: t => by
    simp only [insertDesc]
    split
    · exact List.cons_ne_nil y _
    · exact List.cons_ne_nil x _

theorem sortDesc_eq_nil {gt : α → α → Bool} :
    ∀ {l : List α}, sortDesc gt l = [] → l = []
  | [], _ => rfl
  | x :: t, h => absurd h (insertDesc_ne_nil (sortDesc gt t))

theorem mem_insertDesc {gt : α → α → Bool} {x y : α} :
    ∀ (l : List α), y ∈ insertDesc gt x l → y = x ∨ y ∈ l := by
  intro l
  induction l with
  | nil =>
    intro h
    simp only [insertDesc, List.mem_singleton] at h
    exact Or.inl h
  | cons z t ih =>
    intro h
    simp only [insertDesc] at h
    split at h
    · rcases List.mem_cons.mp h with h1 | h2
      · exact Or.inr (h1 ▸ List.mem_cons_self z t)
      · rcases ih h2 with h3 | h4
        · exact Or.inl h3
        · exact Or.inr (List.mem_cons_of_mem z h4)
    · rcases List.mem_cons.mp h with h1 | h2
      · exact Or.inl h1
      · exact Or.inr h2

theorem mem_sortDesc {gt : α → α → Bool} {y : α} :
    ∀ (l : List α), y ∈ sortDesc gt l → y ∈ l
  | [], h => h
  | x :: t, h => by
    have h' : y ∈ insertDesc gt x (sortDesc gt t) := h
    rcases mem_insertDesc (sortDesc gt t) h' with h1 | h2
    · exact h1 ▸ List.mem_cons_self x t
    · exact List.mem_cons_of_mem x (mem_sortDesc t h2)

theorem sortDesc_head_dom :
    ∀ (l : List OcrEntry), (∀ e ∈ l, 0 < e.score.den) →
      ∀ (b : OcrEntry) (rest : List OcrEntry),
        sortDesc entryGt l = b :: rest →
        b ∈ l ∧ ∀ e ∈ l, e.score.toQ ≤ b.score.toQ
  | [], _, b, rest, h => absurd h (by simp [sortDesc])
  | x :: t, hl, b, rest, h => by
    have hx : 0 < x.score.den := hl x (List.mem_cons_self x t)
    cases hst : sortDesc entryGt t with
    | nil =>
      have ht : t = [] := sortDesc_eq_nil hst
      have h' : [x] = b :: rest := by
        rw [show sortDesc entryGt (x :: t) =
            insertDesc entryGt x (sortDesc entryGt t) from rfl, hst] at h
        exact h
      injection h' with h1 h2
      subst h1
      refine ⟨List.mem_cons_self x t, ?_⟩
      intro e he
      rcases List.mem_cons.mp he with he1 | he2
      · rw [he1]
      · rw [ht] at he2
        exact absurd he2 (List.not_mem_nil e)
    | cons b' rest' =>
      have IH := sortDesc_head_dom t
        (fun e he => hl e (List.mem_cons_of_mem x he)) b' rest' hst
      have hb' : 0 < b'.score.den := hl b' (List.mem_cons_of_mem x IH.1)
      have h' : insertDesc entryGt x (b' :: rest') = b :: rest := by
        rw [show sortDesc entryGt (x :: t) =
            insertDesc entryGt x (sortDesc entryGt t) from rfl, hst] at h
        exact h
      by_cases hgt : entryGt b' x = true
      · rw [insertDesc, if_pos hgt] at h'
        injection h' with h1 h2
        subst h1
        refine ⟨List.mem_cons_of_mem x IH.1, ?_⟩
        intro e he
        rcases List.mem_cons.mp he with he1 | he2
        · rw [he1]
          rw [entryGt, Bool.or_eq_true] at hgt
          rcases hgt with hlt | hand
          · exact le_of_lt ((PyRat.blt_iff hx hb').mp hlt)
          · rw [Bool.and_eq_true] at hand
            exact le_of_eq ((PyRat.beq_iff hx hb').mp hand.1)
        · exact IH.2 e he2
      · rw [insertDesc, if_neg hgt] at h'
        injection h' with h1 h2
        subst h1
        refine ⟨List.mem_cons_self x t, ?_⟩
        intro e he
        rcases List.mem_cons.mp he with he1 | he2
        · rw [he1]
        · have hgt' := bool_false_of_not_true hgt
          have hlt : x.score.blt b'.score = false := by
            cases hc : x.score.blt b'.score
            · rfl
            · rw [entryGt, hc, Bool.true_or] at hgt'
              exact Bool.noConfusion hgt'
          have hxb : b'.score.toQ ≤ x.score.toQ := by
            by_contra hcon
            push_neg at hcon
            exact absurd ((PyRat.blt_iff hx hb').mpr hcon)
              (by rw [hlt]; exact fun hh => Bool.noConfusion hh)
          exact le_trans (IH.2 e he2) hxb

theorem bestScore_high (results : List OcrEntry)
    (hpos : ∀ e ∈ results, 0 < e.score.den)
    (e : OcrEntry) (he : e ∈ results) (hq : qualifies e = true)
    (b : OcrEntry) (rest : List OcrEntry)
    (hsd : sortDesc entryGt results = b :: rest) :
    b.score.blt (pr 5 10) = false := by
  obtain ⟨hbmem, hdom⟩ := sortDesc_head_dom results hpos b rest hsd
  have hbpos : 0 < b.score.den := hpos b hbmem
  have hepos : 0 < e.score.den := hpos e he
  rw [qualifies, Bool.and_eq_true] at hq
  have h9 : (pr 9 10).toQ ≤ e.score.toQ :=
    (PyRat.ble_iff (pr_pos 9 (by norm_num)) hepos).mp hq.1
  cases hblt : b.score.blt (pr 5 10)
  · rfl
  · exfalso
    have hlt := (PyRat.blt_iff hbpos (pr_pos 5 (by norm_num))).mp hblt
    have hchain : (pr 9 10).toQ < (pr 5 10).toQ :=
      lt_of_le_of_lt (le_trans h9 (hdom e he)) hlt
    have hno : ¬((pr 9 10).toQ < (pr 5 10).toQ) := by
      show ¬((9 : ℚ)/10 < (5 : ℚ)/10)
      norm_num
    exact hno hchain

/-! ### Phase invariants and the early-exit theorem -/

theorem secPhase_spec (env : Env) (indexed : List (Int × Image))
    (pl : Bool × OcrSt) (hpl : LoopOK pl) :
    LoopOK (secPhase env indexed pl) := by
  simp only [secPhase]
  by_cases hf : pl.1 = true
  · rw [if_neg (show ¬((!pl.1) = true) from by
      rw [hf]
      exact fun h => Bool.noConfusion h)]
    exact hpl
  · have hf' := bool_false_of_not_true hf
    rw [if_pos (show (!pl.1) = true from by rw [hf']; rfl)]
    split
    · exact outerSecondaryLoop_spec env (indexed.take 2) _
        (@StClean_budget env pl.2 (StClean_of_LoopOK hpl hf'))
    · rw [hf']
      exact LoopOK_false (@StClean_budget env pl.2 (StClean_of_LoopOK hpl hf'))

theorem mergePhase_noQual (env : Env) (originalImage : Image)
    (rapidPrimary : Option String) (s : OcrSt) (hs : StClean s) :
    cleanTrace (mergePhase env originalImage rapidPrimary s).2.events
      = true := by
  simp only [mergePhase]
  split
  · exact cleanTrace_of_noQual
      (noResultsFallback_StClean env originalImage s hs).1
  · exact cleanTrace_of_noQual
      (rapidImproveStage_StClean env originalImage _ _ _
        (easyImproveStage_StClean env originalImage _ _ _ hs)).1

theorem mergePhase_qual (env : Env) (originalImage : Image)
    (rapidPrimary : Option String) (s : OcrSt)
    (hclean : cleanTrace s.events = true)
    (hpos : ∀ e ∈ s.results, 0 < e.score.den)
    (e : OcrEntry) (he : e ∈ s.results) (hq : qualifies e = true) :
    cleanTrace (mergePhase env originalImage rapidPrimary s).2.events
      = true := by
  simp only [mergePhase]
  rw [if_neg (show ¬(s.results.isEmpty = true) from by
    intro hemp
    rw [List.isEmpty_iff] at hemp
    rw [hemp] at he
    exact List.not_mem_nil e he)]
  obtain ⟨b, rest, hsd⟩ :
      ∃ b rest, sortDesc entryGt s.results = b :: rest := by
    cases hsd0 : sortDesc entryGt s.results with
    | nil =>
      rw [sortDesc_eq_nil hsd0] at he
      exact absurd he (List.not_mem_nil e)
    | cons b rest => exact ⟨b, rest, rfl⟩
  simp only [hsd]
  have hb5 : b.score.blt (pr 5 10) = false :=
    bestScore_high s.results hpos e he hq b rest hsd
  rw [easyImproveStage_of_high env originalImage
    (post_process_text (mergeCandidates s.results)) b.score s hb5]
  have hev : (rapidImproveStage env originalImage
      (post_process_text (mergeCandidates s.results)) b.score
      (withinBudget env s).2).2.2.events = s.events :=
    rapidImproveStage_events_of_high env originalImage
      (post_process_text (mergeCandidates s.results)) b.score
      (withinBudget env s).2 hb5
  simp only [hev]
  exact hclean

/-- C1: during one heavy-pipeline extraction, the instant a registered
candidate qualifies (score >= 0.9 and an email-pattern match in its text),
no further OCR attempt of any kind is started: in the event trace of
`extract_text_with_ocr`, no attempt event follows a qualifying
registration. -/
theorem C1_early_exit (env : Env) (processedImages : List Image)
    (originalImage : Image) (bc0 : Nat) :
    cleanTrace
      (extract_text_with_ocr env processedImages originalImage [] bc0).2.events
      = true := by
  have hs0 : StClean ⟨[], [], [], none, bc0⟩ :=
    ⟨rfl, fun e he => absurd he (List.not_mem_nil e)⟩
  have hrf := rapidFirstStage_StClean env originalImage
    ⟨[], [], [], none, bc0⟩ hs0
  cases hout : rapidFirstStage env originalImage ⟨[], [], [], none, bc0⟩ with
  | mk fst s1 =>
    rw [hout] at hrf
    cases fst with
    | inl earlyText =>
      simp only [extract_text_with_ocr, hout]
      exact cleanTrace_of_noQual hrf.1
    | inr rp =>
      simp only [extract_text_with_ocr, hout]
      have hsec := secPhase_spec env
        (imagesIndexed env processedImages originalImage)
        (outerPrimaryLoop env
          (imagesIndexed env processedImages originalImage) s1)
        (outerPrimaryLoop_spec env
          (imagesIndexed env processedImages originalImage) s1 hrf)
      by_cases hsf : (secPhase env
          (imagesIndexed env processedImages originalImage)
          (outerPrimaryLoop env
            (imagesIndexed env processedImages originalImage) s1)).1 = true
      · obtain ⟨e, he, hq⟩ := hsec.2.2.2 hsf
        exact mergePhase_qual env originalImage rp _ hsec.1 hsec.2.1 e he hq
      · exact mergePhase_noQual env originalImage rp _
          (StClean_of_LoopOK hsec (bool_false_of_not_true hsf))

end BCS
